import Mathlib

/-!
# Run-length block codec (`rle.cpp`): shallow embedding and verified properties

The C++ source works on `double` values, `char` codes and counters, `std::map`
tables, `std::vector` sequences and fixed-size C arrays.  The embedding below keeps
the source's function names and mirrors its control flow:

* `double` values are compared, ordered and copied, never computed with, so a
  value is modelled by its place in the IEEE order (`Dbl`), with negative zero kept
  as a separate value that compares equal to positive zero.  NaN is outside the
  model (a NaN key makes `std::map` undefined).
* `char` is the signed 8-bit type of the usual x86-64 ABI: every store of an `int`
  into a `char` goes through `toChar`, which wraps modulo `2^8` into `-128..127`.
  `int` is the 32-bit type: the product `block_size * block_size` of `decodeRLE` is
  taken in `Int` and the embedding stops with a `Fault` when it exceeds `INT_MAX`,
  where the signed overflow is undefined behaviour; the indices and lengths, which
  are bounded by the length of a vector held in memory, are taken in `Int`.
* `std::map` is a list of key/value pairs kept in ascending key order (`mapSet`,
  `mapFind`, `mapIndex`); iteration over a map is iteration over that list.
* indexing outside a vector or a fixed array is undefined behaviour in C++; the
  embedding stops there with a `Fault` that records the offending index.
* `#pragma omp parallel for`: the loop of `extractChannel` writes a different
  element in every iteration and shares nothing else, so it is the map of its
  body.  The counting loop of `buildTable` works on the one map `freq`, without
  synchronisation.  The functions `countFreq`, `buildTable` and `RLE` therefore
  take the schedule of that loop as a parameter, the thread that runs each
  iteration: when one thread runs the whole loop (also in a build without OpenMP)
  the iterations run in order; when two iterations are run by different threads
  their calls of the non-const `freq[...]` are a data race, undefined behaviour,
  and the embedding stops with a `Fault`.
-/

namespace Rle

/-! ## Values -/

/-- A `double` as the codec sees it: `negZero` is `-0.0`, `val z` is the value at
place `z` of the IEEE order, with `val 0` being `+0.0`. -/
inductive Dbl where
  | negZero : Dbl
  | val (z : Int) : Dbl
  deriving DecidableEq, Repr

/-- Place of a value in the IEEE order; `-0.0` and `+0.0` share place `0`. -/
def Dbl.key : Dbl → Int
  | .negZero => 0
  | .val z => z

/-- The literal `0.0`, also the value a value-initialised `double` has. -/
def posZero : Dbl := .val 0

/-- C++ `a == b` on doubles. -/
def Dbl.eq (a b : Dbl) : Bool := decide (a.key = b.key)

/-- Conversion of an `int` to `char` (signed, 8 bits, wrapping). -/
def toChar (x : Int) : Int := (x + 128) % 256 - 128

/-- Outcome of a step at which the C++ program has undefined behaviour: an access
outside the bounds of a vector or array (with the index that was read or written),
unsynchronised calls that modify one `std::map` from two threads, or an overflow of
`int` arithmetic. -/
inductive Fault where
  | oobRead (idx : Int) : Fault
  | oobWrite (idx : Int) : Fault
  | dataRace : Fault
  | intOverflow : Fault
  deriving DecidableEq, Repr

/-- The largest value of the 32-bit `int`. -/
def INT_MAX : Int := 2147483647

/-- Read of `v[i]` for an `int` or `unsigned` index `i`. -/
def readAt {α : Type} (v : List α) (i : Int) : Except Fault α :=
  if 0 ≤ i then
    match v.get? i.toNat with
    | some a => .ok a
    | none => .error (.oobRead i)
  else .error (.oobRead i)

/-- Store `v[i] = a` into a vector or fixed array `v`. -/
def writeAt {α : Type} (v : List α) (i : Nat) (a : α) : Except Fault (List α) :=
  if i < v.length then .ok (v.set i a) else .error (.oobWrite i)

/-! ## `std::map` -/

/-- Assignment `m[k] = v` on a map ordered by the rank `r` of its keys: an entry
with an equivalent key keeps its key and gets the new value, otherwise the pair
is inserted at its place in the order. -/
def mapSet {κ ν : Type} (r : κ → Int) : List (κ × ν) → κ → ν → List (κ × ν)
  | [], k, v => [(k, v)]
  | (k', v') :: m, k, v =>
    if r k < r k' then (k, v) :: (k', v') :: m
    else if r k' < r k then (k', v') :: mapSet r m k v
    else (k', v) :: m

/-- Lookup `m.find(k)`: the value stored under a key equivalent to `k`. -/
def mapFind {κ ν : Type} (r : κ → Int) : List (κ × ν) → κ → Option ν
  | [], _ => none
  | (k', v') :: m, k => if r k' = r k then some v' else mapFind r m k

/-- Read access `m[k]`: the stored value, or, when the key is absent, the default
value `dflt`, which is then also inserted into the map. -/
def mapIndex {κ ν : Type} (r : κ → Int) (dflt : ν) (m : List (κ × ν)) (k : κ) :
    ν × List (κ × ν) :=
  match mapFind r m k with
  | some v => (v, m)
  | none => (dflt, mapSet r m k dflt)

/-! ## Data model (`rle.h`)

The header `rle.h` is not among the sources; its constants and types are taken from
the way `rle.cpp` uses them. -/

/-- Modelled from the spec: the header `rle.h` that defines the channel selectors
`COLOR_Y`, `COLOR_CR`, `COLOR_CB` is missing; the source only compares a selector
against them, so three distinct integers are taken. -/
def COLOR_Y : Int := 0

/-- Modelled from the spec: selector of the Cr channel, see `COLOR_Y`. -/
def COLOR_CR : Int := 1

/-- Modelled from the spec: selector of the Cb channel, see `COLOR_Y`. -/
def COLOR_CB : Int := 2

/-- Modelled from the spec: the declaration of the pixel type in `rle.h` is missing;
a pixel is a triple of real values, read by the source as the fields `y`, `cr`,
`cb`. -/
structure PixelYcbcr where
  y : Dbl
  cr : Dbl
  cb : Dbl
  deriving DecidableEq, Repr

/-- Modelled from the spec: the declaration of `RleTuple` in `rle.h` is missing.  The
spec gives a run-length tuple a code and a run length, both small integers; the
fields are taken to be `char`, the type `decodeRLE` reads them into
(`char encoded = tup.encoded; char freq = tup.count;`) and the type of the codes of
the tables. -/
structure RleTuple where
  encoded : Int
  count : Int
  deriving DecidableEq, Repr

/-- Modelled from the spec: the declaration of an encoded channel in `rle.h` is
missing; the fields are those the source uses: the DC value, the vector of
run-length tuples, and the two tables `decode_table : map<char,double>` and
`encode_table : map<double,char>`. -/
structure EncodedBlockColor where
  dc_val : Dbl
  encoded : List RleTuple
  decode_table : List (Int × Dbl)
  encode_table : List (Dbl × Int)
  deriving DecidableEq, Repr

/-- Modelled from the spec: the declaration of an encoded block in `rle.h` is
missing; it holds one encoded channel per colour. -/
structure EncodedBlock where
  y : EncodedBlockColor
  cr : EncodedBlockColor
  cb : EncodedBlockColor
  deriving DecidableEq, Repr

/-- Modelled from the spec: the declaration of the transport record of one channel
in `rle.h` is missing.  The three arrays `encoded`, `char_vals` and `double_vals`
have a fixed capacity, which here is the length of the list that models the array;
`encoded_len` and `table_size` are the used lengths. -/
structure EncodedBlockColorNoPtr where
  dc_val : Dbl
  encoded : List RleTuple
  encoded_len : Int
  char_vals : List Int
  double_vals : List Dbl
  table_size : Int
  deriving DecidableEq, Repr

/-- Modelled from the spec: the declaration of the transport record of one block in
`rle.h` is missing; it holds three channel records. -/
structure EncodedBlockNoPtr where
  y : EncodedBlockColorNoPtr
  cr : EncodedBlockColorNoPtr
  cb : EncodedBlockColorNoPtr
  deriving DecidableEq, Repr

/-! ## `extractChannel` -/

/-- Body of the loop of `extractChannel` for one pixel: select the channel, then
replace a value that compares equal to `-0.0` by `0.0`. -/
def extractValue (p : PixelYcbcr) (chan : Int) : Dbl :=
  let val := if chan = COLOR_Y then p.y else if chan = COLOR_CR then p.cr else p.cb
  if Dbl.eq val Dbl.negZero then posZero else val

/-- Source `extractChannel`: the selected channel of every pixel, in order. -/
def extractChannel (block : List PixelYcbcr) (chan : Int) : List Dbl :=
  block.map (fun p => extractValue p chan)

/-! ## `buildTable` -/

/-- Body of the counting loop: `freq[v] += 1` when `v` is a key, else `freq[v] = 1`. -/
def countStep (freq : List (Dbl × Int)) (v : Dbl) : List (Dbl × Int) :=
  match mapFind Dbl.key freq v with
  | some c => mapSet Dbl.key freq v (toChar (c + 1))
  | none => mapSet Dbl.key freq v 1

/-- One thread runs all the iterations `1 .. n-1` of the counting loop, where
`omp i` is the thread that runs iteration `i`. -/
def oneThread (omp : Nat → Nat) (n : Nat) : Bool :=
  (List.range' 1 (n - 1)).all (fun i => omp i == omp 1)

/-- The map `freq` (value to number of occurrences, a `char`) after the counting
loop `#pragma omp parallel for` over the indices `1 ..` of `block_vals`, under the
schedule `omp`.  Every iteration calls `freq[...]` on the shared map, so two
iterations run by different threads are a data race; run by one thread, the
iterations follow each other in ascending order. -/
def countFreq (omp : Nat → Nat) (block_vals : List Dbl) : Except Fault (List (Dbl × Int)) :=
  if oneThread omp block_vals.length then .ok ((block_vals.drop 1).foldl countStep [])
  else .error .dataRace

/-- Body of the grouping loop: `encoded[key_freq].push_back(key_value)`. -/
def groupStep (encoded : List (Int × List Dbl)) (kv : Dbl × Int) : List (Int × List Dbl) :=
  let r := mapIndex id [] encoded kv.2
  mapSet id r.2 kv.2 (r.1 ++ [kv.1])

/-- The map `encoded` (number of occurrences to the values that have it) after the
grouping loop over `freq`. -/
def groupByFreq (freq : List (Dbl × Int)) : List (Int × List Dbl) :=
  freq.foldl groupStep []

/-- The vector `key_freqs` after `std::sort(..., std::greater<char>())`.  The source
computes it and never reads it. -/
def key_freqs (freq : List (Dbl × Int)) : List Int :=
  (freq.map Prod.snd).insertionSort (fun a b => b ≤ a)

/-- State of the code assignment: the two tables and `curr_encoding`. -/
structure TableState where
  encode_table : List (Dbl × Int)
  decode_table : List (Int × Dbl)
  curr_encoding : Int
  deriving DecidableEq, Repr

/-- Body of the inner assignment loop for one `val_to_encode`. -/
def assignStep (s : TableState) (val_to_encode : Dbl) : TableState :=
  { encode_table := mapSet Dbl.key s.encode_table val_to_encode s.curr_encoding
    decode_table := mapSet id s.decode_table s.curr_encoding val_to_encode
    curr_encoding := toChar (s.curr_encoding + 1) }

/-- The assignment loops: the groups of `encoded` in the map's iteration order
(ascending key), the values of a group in the order they were pushed. -/
def assignCodes (encoded : List (Int × List Dbl)) : TableState :=
  encoded.foldl (fun s grp => grp.2.foldl assignStep s) ⟨[], [], 0⟩

/-- Source `buildTable`, with the schedule `omp` of its counting loop: a fresh
encoded channel that holds the two tables built from the AC values of channel
`chan`; its tuple vector is empty and its DC value is the value-initialised `0.0`.
The parameter `block_size` is not used. -/
def buildTable (omp : Nat → Nat) (block : List PixelYcbcr) (chan : Int) (_block_size : Int) :
    Except Fault EncodedBlockColor := do
  let block_vals := extractChannel block chan
  let freq ← countFreq omp block_vals
  let s := assignCodes (groupByFreq freq)
  pure { dc_val := posZero, encoded := [], decode_table := s.decode_table,
         encode_table := s.encode_table }

/-! ## `encodeValues` and `RLE` -/

/-- Local variables of the scanning loop of `encodeValues`, with the two parts of
`color` the loop changes: the tuple vector and, through `operator[]`, the table. -/
structure EncState where
  curr_idx : Int
  curr_run : Int
  curr_val : Dbl
  encoded : List RleTuple
  encode_table : List (Dbl × Int)
  deriving DecidableEq, Repr

/-- The loop `while (curr_idx < n - 1)` of `encodeValues`.  The first argument
bounds the number of iterations; `encodeValues` passes the length of the channel,
which the loop cannot exceed. -/
def encodeLoop (chan_vals : List Dbl) (n : Int) : Nat → EncState → Except Fault EncState
  | 0, s => .ok s
  | fuel + 1, s =>
    if s.curr_idx < n - 1 then
      match readAt chan_vals (s.curr_idx + 1) with
      | .error e => .error e
      | .ok val =>
        if Dbl.eq val s.curr_val then
          encodeLoop chan_vals n fuel
            { s with curr_idx := s.curr_idx + 1, curr_run := s.curr_run + 1 }
        else
          let r := mapIndex Dbl.key 0 s.encode_table s.curr_val
          encodeLoop chan_vals n fuel
            { curr_idx := s.curr_idx + 1, curr_run := 1, curr_val := val,
              encoded := s.encoded ++ [⟨r.1, toChar s.curr_run⟩], encode_table := r.2 }
    else .ok s

/-- Source `encodeValues`: stores the DC value and appends the run-length tuples of
the AC values of channel `chan` to `color`. -/
def encodeValues (block : List PixelYcbcr) (color : EncodedBlockColor) (chan : Int) :
    Except Fault EncodedBlockColor := do
  let chan_vals := extractChannel block chan
  let n : Int := chan_vals.length
  let dc_val ← readAt chan_vals 0
  let curr_val ← readAt chan_vals 1
  let s ← encodeLoop chan_vals n chan_vals.length
    { curr_idx := 1, curr_run := 1, curr_val := curr_val, encoded := color.encoded,
      encode_table := color.encode_table }
  let last ← readAt chan_vals (n - 1)
  let r := mapIndex Dbl.key 0 s.encode_table last
  let prev ← readAt chan_vals (n - 2)
  let count : Int := if Dbl.eq last prev then toChar s.curr_run else 1
  pure { color with dc_val := dc_val, encoded := s.encoded ++ [⟨r.1, count⟩],
                    encode_table := r.2 }

/-- Source `RLE`: builds the table of each channel and encodes the channel with it.
`omp chan` is the schedule of the counting loop in the call of `buildTable` for
channel `chan`. -/
def RLE (omp : Int → Nat → Nat) (block : List PixelYcbcr) (block_size : Int) :
    Except Fault EncodedBlock := do
  let result_y ← buildTable (omp COLOR_Y) block COLOR_Y block_size
  let result_y ← encodeValues block result_y COLOR_Y
  let result_cr ← buildTable (omp COLOR_CR) block COLOR_CR block_size
  let result_cr ← encodeValues block result_cr COLOR_CR
  let result_cb ← buildTable (omp COLOR_CB) block COLOR_CB block_size
  let result_cb ← encodeValues block result_cb COLOR_CB
  pure { y := result_y, cr := result_cr, cb := result_cb }

/-! ## `decodeRLE` -/

/-- The store `result[idx]->f = v`, where `setF` assigns the field `f`. -/
def storeField (setF : PixelYcbcr → Dbl → PixelYcbcr) (result : List PixelYcbcr)
    (idx : Nat) (v : Dbl) : Except Fault (List PixelYcbcr) :=
  match result.get? idx with
  | some p => .ok (result.set idx (setF p v))
  | none => .error (.oobWrite idx)

/-- The loop `for (char c = 0; c < freq; c++)` of `decodeRLE`, given the number of
iterations it makes (`freq` when positive, none otherwise): each iteration stores
`decoded_val` at the cursor and advances it. -/
def decodeRun (setF : PixelYcbcr → Dbl → PixelYcbcr) (decoded_val : Dbl) :
    Nat → List PixelYcbcr → Nat → Except Fault (List PixelYcbcr × Nat)
  | 0, result, idx => .ok (result, idx)
  | c + 1, result, idx =>
    match storeField setF result idx decoded_val with
    | .error e => .error e
    | .ok result => decodeRun setF decoded_val c result (idx + 1)

/-- The loop `for (RleTuple tup : *tups)` of `decodeRLE`.  The lookup
`decode_table_ptr[encoded]` is made on a copy of the table, so the entry it
inserts for an absent code is dropped with the copy. -/
def decodeTuples (setF : PixelYcbcr → Dbl → PixelYcbcr) (decode_table : List (Int × Dbl)) :
    List RleTuple → List PixelYcbcr → Nat → Except Fault (List PixelYcbcr × Nat)
  | [], result, idx => .ok (result, idx)
  | tup :: tups, result, idx =>
    let decoded_val := (mapIndex id posZero decode_table tup.encoded).1
    match decodeRun setF decoded_val tup.count.toNat result idx with
    | .error e => .error e
    | .ok (result, idx) => decodeTuples setF decode_table tups result idx

/-- One of the three channel passes of `decodeRLE`: the DC value at index 0, then
the runs of the tuples from index 1 on. -/
def decodeChannel (setF : PixelYcbcr → Dbl → PixelYcbcr) (channel : EncodedBlockColor)
    (result : List PixelYcbcr) : Except Fault (List PixelYcbcr) :=
  match storeField setF result 0 channel.dc_val with
  | .error e => .error e
  | .ok result =>
    match decodeTuples setF channel.decode_table channel.encoded result 1 with
    | .error e => .error e
    | .ok (result, _) => .ok result

/-- Assignment of the field `y` of a pixel. -/
def setY (p : PixelYcbcr) (v : Dbl) : PixelYcbcr := { p with y := v }

/-- Assignment of the field `cr` of a pixel. -/
def setCr (p : PixelYcbcr) (v : Dbl) : PixelYcbcr := { p with cr := v }

/-- Assignment of the field `cb` of a pixel. -/
def setCb (p : PixelYcbcr) (v : Dbl) : PixelYcbcr := { p with cb := v }

/-- The product `a * b` of two `int` values; a product outside the range of `int` is
an overflow, undefined behaviour. -/
def mulInt (a b : Int) : Except Fault Int :=
  if -INT_MAX - 1 ≤ a * b ∧ a * b ≤ INT_MAX then .ok (a * b) else .error .intOverflow

/-- Source `decodeRLE`: a vector of `block_size * block_size` value-initialised
pixels, the size being a product of `int`, filled by the passes for y, cr and cb. -/
def decodeRLE (encoded : EncodedBlock) (block_size : Int) :
    Except Fault (List PixelYcbcr) := do
  let size ← mulInt block_size block_size
  let result := List.replicate size.toNat (⟨posZero, posZero, posZero⟩ : PixelYcbcr)
  let result ← decodeChannel setY encoded.y result
  let result ← decodeChannel setCr encoded.cr result
  decodeChannel setCb encoded.cb result

/-! ## `writeToBuffer` and `convertBufferToEncodedBlocks` -/

/-- The loop that copies the tuples of a channel into the array `encoded` of a
record, entry `j` of the vector to index `j` of the array. -/
def writeTuples (arr : List RleTuple) : Nat → List RleTuple → Except Fault (List RleTuple)
  | _, [] => .ok arr
  | j, t :: ts =>
    match writeAt arr j t with
    | .error e => .error e
    | .ok arr => writeTuples arr (j + 1) ts

/-- The loop over `encode_table` that stores the code of pair `kv_idx` in
`char_vals[kv_idx]` and its value in `double_vals[kv_idx]`. -/
def writeTable (char_vals : List Int) (double_vals : List Dbl) :
    Nat → List (Dbl × Int) → Except Fault (List Int × List Dbl)
  | _, [] => .ok (char_vals, double_vals)
  | kv_idx, (double_val, char_val) :: rest =>
    match writeAt char_vals kv_idx char_val with
    | .error e => .error e
    | .ok char_vals =>
      match writeAt double_vals kv_idx double_val with
      | .error e => .error e
      | .ok double_vals => writeTable char_vals double_vals (kv_idx + 1) rest

/-- One of the three branches of `writeToBuffer` (they differ only in the channel
named): tuples, their number, the pairs of `encode_table`, their number. -/
def writeChannel (rec : EncodedBlockColorNoPtr) (color : EncodedBlockColor) :
    Except Fault EncodedBlockColorNoPtr :=
  match writeTuples rec.encoded 0 color.encoded with
  | .error e => .error e
  | .ok encoded =>
    match writeTable rec.char_vals rec.double_vals 0 color.encode_table with
    | .error e => .error e
    | .ok (char_vals, double_vals) =>
      .ok { rec with encoded := encoded, encoded_len := color.encoded.length,
                     char_vals := char_vals, double_vals := double_vals,
                     table_size := color.encode_table.length }

/-- Source `writeToBuffer`: stores `y.dc_val` of block `idx`, then the channel
selected by `chan`, into slot `idx` of the buffer. -/
def writeToBuffer (encodedBlockBuffer : List EncodedBlockNoPtr)
    (encodedBlocks : List EncodedBlock) (idx : Int) (chan : Int) :
    Except Fault (List EncodedBlockNoPtr) := do
  let encodedBlock ← readAt encodedBlocks idx
  let slot ← match readAt encodedBlockBuffer idx with
    | .error _ => .error (.oobWrite idx)
    | .ok slot => .ok slot
  let slot := { slot with y := { slot.y with dc_val := encodedBlock.y.dc_val } }
  if chan = COLOR_Y then do
    let y ← writeChannel slot.y encodedBlock.y
    pure (encodedBlockBuffer.set idx.toNat { slot with y := y })
  else if chan = COLOR_CR then do
    let cr ← writeChannel slot.cr encodedBlock.cr
    pure (encodedBlockBuffer.set idx.toNat { slot with cr := cr })
  else do
    let cb ← writeChannel slot.cb encodedBlock.cb
    pure (encodedBlockBuffer.set idx.toNat { slot with cb := cb })

/-- The loop `for (int j = 0; j < encoded_len; j++)` that pushes the tuples of a
record back onto a vector; the first argument is the number of iterations left. -/
def readTuples (arr : List RleTuple) : Nat → Nat → List RleTuple →
    Except Fault (List RleTuple)
  | 0, _, out => .ok out
  | k + 1, j, out =>
    match readAt arr j with
    | .error e => .error e
    | .ok t => readTuples arr k (j + 1) (out ++ [t])

/-- The loop `for (int j = 0; j < table_size; j++)` that rebuilds both tables from
the pairs of a record; the first argument is the number of iterations left. -/
def readTable (char_vals : List Int) (double_vals : List Dbl) :
    Nat → Nat → List (Dbl × Int) → List (Int × Dbl) →
    Except Fault (List (Dbl × Int) × List (Int × Dbl))
  | 0, _, enc, dec => .ok (enc, dec)
  | k + 1, j, enc, dec =>
    match readAt char_vals j with
    | .error e => .error e
    | .ok char_val =>
      match readAt double_vals j with
      | .error e => .error e
      | .ok double_val =>
        readTable char_vals double_vals k (j + 1)
          (mapSet Dbl.key enc double_val char_val) (mapSet id dec char_val double_val)

/-- Body of the outer loop of `convertBufferToEncodedBlocks` for one slot: the DC
values, then the tuples of y, cb and cr, then the tables of y, cb and cr. -/
def convertBlock (block : EncodedBlockNoPtr) : Except Fault EncodedBlock := do
  let y_encoded ← readTuples block.y.encoded block.y.encoded_len.toNat 0 []
  let cb_encoded ← readTuples block.cb.encoded block.cb.encoded_len.toNat 0 []
  let cr_encoded ← readTuples block.cr.encoded block.cr.encoded_len.toNat 0 []
  let y_tables ← readTable block.y.char_vals block.y.double_vals block.y.table_size.toNat
    0 [] []
  let cb_tables ← readTable block.cb.char_vals block.cb.double_vals
    block.cb.table_size.toNat 0 [] []
  let cr_tables ← readTable block.cr.char_vals block.cr.double_vals
    block.cr.table_size.toNat 0 [] []
  pure { y := { dc_val := block.y.dc_val, encoded := y_encoded,
                decode_table := y_tables.2, encode_table := y_tables.1 }
         cr := { dc_val := block.cr.dc_val, encoded := cr_encoded,
                 decode_table := cr_tables.2, encode_table := cr_tables.1 }
         cb := { dc_val := block.cb.dc_val, encoded := cb_encoded,
                 decode_table := cb_tables.2, encode_table := cb_tables.1 } }

/-- The outer loop of `convertBufferToEncodedBlocks`; the first argument is the
number of iterations left, `i` the index of the next slot. -/
def convertLoop (encodedBlocksBuffer : List EncodedBlockNoPtr) :
    Nat → Nat → List EncodedBlock → Except Fault (List EncodedBlock)
  | 0, _, result => .ok result
  | k + 1, i, result =>
    match readAt encodedBlocksBuffer i with
    | .error e => .error e
    | .ok block =>
      match convertBlock block with
      | .error e => .error e
      | .ok resultBlock => convertLoop encodedBlocksBuffer k (i + 1) (result ++ [resultBlock])

/-- Source `convertBufferToEncodedBlocks`: the encoded blocks of the first
`numEncodedBlocks` slots of the buffer. -/
def convertBufferToEncodedBlocks (encodedBlocksBuffer : List EncodedBlockNoPtr)
    (numEncodedBlocks : Int) : Except Fault (List EncodedBlock) :=
  convertLoop encodedBlocksBuffer numEncodedBlocks.toNat 0 []

/-! ## Specification-level definitions used in the statements and proofs -/

/-- The schedule of a run in which one thread runs every iteration, as in a build
without OpenMP or with one OpenMP thread. -/
def singleThread : Nat → Nat := fun _ => 0

/-- The map `freq` that `countFreq` returns when one thread runs the counting loop. -/
def countFreqSeq (block_vals : List Dbl) : List (Dbl × Int) :=
  (block_vals.drop 1).foldl countStep []

/-- The encoded channel that `buildTable` returns when one thread runs its counting
loop. -/
def buildTableSeq (block : List PixelYcbcr) (chan : Int) (_block_size : Int) :
    EncodedBlockColor :=
  let block_vals := extractChannel block chan
  let s := assignCodes (groupByFreq (countFreqSeq block_vals))
  { dc_val := posZero, encoded := [], decode_table := s.decode_table,
    encode_table := s.encode_table }

/-- The result of `RLE` when one thread runs the counting loop of each of the three
calls of `buildTable`. -/
def RLESeq (block : List PixelYcbcr) (block_size : Int) : Except Fault EncodedBlock := do
  let result_y ← encodeValues block (buildTableSeq block COLOR_Y block_size) COLOR_Y
  let result_cr ← encodeValues block (buildTableSeq block COLOR_CR block_size) COLOR_CR
  let result_cb ← encodeValues block (buildTableSeq block COLOR_CB block_size) COLOR_CB
  pure { y := result_y, cr := result_cr, cb := result_cb }

/-- The result of `decodeRLE` when the product `block_size * block_size` does not
overflow: the three channel passes over a vector of that many pixels. -/
def decodePasses (encoded : EncodedBlock) (block_size : Int) :
    Except Fault (List PixelYcbcr) := do
  let result := List.replicate (block_size * block_size).toNat
    (⟨posZero, posZero, posZero⟩ : PixelYcbcr)
  let result ← decodeChannel setY encoded.y result
  let result ← decodeChannel setCr encoded.cr result
  decodeChannel setCb encoded.cb result

/-- Keys of a map in iteration order. -/
def mapKeys {κ ν : Type} (m : List (κ × ν)) : List κ := m.map Prod.fst

/-- The keys of a map are in strictly ascending order of rank. -/
def mapSorted {κ ν : Type} (r : κ → Int) (m : List (κ × ν)) : Prop :=
  m.Pairwise (fun a b => r a.1 < r b.1)

/-- The values a group map holds, in iteration order of the map. -/
def mapFlat {κ α : Type} (m : List (κ × List α)) : List α := m.flatMap Prod.snd

/-- The values in the order `buildTable` gives them codes. -/
def codeOrder (block_vals : List Dbl) : List Dbl :=
  mapFlat (groupByFreq (countFreqSeq block_vals))

/-- The code `encodeValues` emits for a value: the result of `encode_table[v]`. -/
def codeOf (encode_table : List (Dbl × Int)) (v : Dbl) : Int :=
  (mapIndex Dbl.key 0 encode_table v).1

/-- The scanning loop of `encodeValues` as a function of the elements still to be
read: the final current value, current run and emitted tuples. -/
def scanRuns (tbl : List (Dbl × Int)) (cur : Dbl) (run : Int) (out : List RleTuple) :
    List Dbl → Dbl × Int × List RleTuple
  | [] => (cur, run, out)
  | x :: xs =>
    if Dbl.eq x cur then scanRuns tbl cur (run + 1) out xs
    else scanRuns tbl x 1 (out ++ [⟨codeOf tbl cur, toChar run⟩]) xs

/-- The tuples of the runs of `cur` repeated `run` times followed by `rest`. -/
def runTuples (tbl : List (Dbl × Int)) (cur : Dbl) (run : Int) : List Dbl → List RleTuple
  | [] => [⟨codeOf tbl cur, toChar run⟩]
  | x :: xs =>
    if Dbl.eq x cur then runTuples tbl cur (run + 1) xs
    else ⟨codeOf tbl cur, toChar run⟩ :: runTuples tbl x 1 xs

/-- Stores of the values `vals` into field `f` of the pixels of `result`, value `j`
into pixel `j`; pixels beyond the values are left as they are. -/
def overlay (setF : PixelYcbcr → Dbl → PixelYcbcr) :
    List PixelYcbcr → List Dbl → List PixelYcbcr
  | [], _ => []
  | ps, [] => ps
  | p :: ps, v :: vs => setF p v :: overlay setF ps vs

/-- The values the tuples of a channel stand for: each tuple gives `count` copies
(none when `count` is not positive) of the value the lookup of its code yields. -/
def expandTuples (decode_table : List (Int × Dbl)) (tups : List RleTuple) : List Dbl :=
  tups.flatMap (fun t =>
    List.replicate t.count.toNat (mapIndex id posZero decode_table t.encoded).1)

/-- The values one channel pass of `decodeRLE` stores, from index 0 on. -/
def channelValues (channel : EncodedBlockColor) : List Dbl :=
  channel.dc_val :: expandTuples channel.decode_table channel.encoded

/-- Pixel `j` of the block `decodeRLE` returns when no store leaves the vector: in
each channel the value stored there, or the initial `0.0` when none was. -/
def decodedPixel (encoded : EncodedBlock) (j : Nat) : PixelYcbcr :=
  { y := (channelValues encoded.y).getD j posZero
    cr := (channelValues encoded.cr).getD j posZero
    cb := (channelValues encoded.cb).getD j posZero }

/-- Sum of the numbers of stores the tuples of a channel cause. -/
def runTotal (tups : List RleTuple) : Nat := (tups.map (fun t => t.count.toNat)).sum

/-- A value with negative zero replaced by positive zero. -/
def normZero (d : Dbl) : Dbl :=
  match d with
  | .negZero => posZero
  | .val z => .val z

/-- A pixel with negative zero replaced by positive zero in every channel. -/
def normPixel (p : PixelYcbcr) : PixelYcbcr :=
  { y := normZero p.y, cr := normZero p.cr, cb := normZero p.cb }

deriving instance DecidableEq for Except

/-- The encoded channel of a block that a selector names (any selector other than
`COLOR_Y` and `COLOR_CR` names Cb, as in the source). -/
def channelOf (e : EncodedBlock) (chan : Int) : EncodedBlockColor :=
  if chan = COLOR_Y then e.y else if chan = COLOR_CR then e.cr else e.cb

/-- A block of `n` pixels whose three channels all hold `z`. -/
def flatBlock (n : Nat) (z : Int) : List PixelYcbcr :=
  List.replicate n ⟨.val z, .val z, .val z⟩

/-- A block of `n` pixels, pixel `i` holding `i` in all three channels. -/
def rampBlock (n : Nat) : List PixelYcbcr :=
  (List.range n).map (fun (i : Nat) => ⟨.val i, .val i, .val i⟩)

/-- A 2x2 block with distinct channels, a negative zero and a repeated AC value. -/
def sampleBlock : List PixelYcbcr :=
  [⟨.val 10, .val 20, .val 30⟩, ⟨.val 5, .negZero, .val 7⟩, ⟨.val 5, .val 0, .val 8⟩,
   ⟨.val 5, .val 6, .val 7⟩]

/-- A 2x2 block whose channels hold [0, 1, 2, 1]: the AC values 1, 2, 1. -/
def alternatingBlock : List PixelYcbcr :=
  [⟨.val 0, .val 0, .val 0⟩, ⟨.val 1, .val 1, .val 1⟩, ⟨.val 2, .val 2, .val 2⟩,
   ⟨.val 1, .val 1, .val 1⟩]

/-- The value of a pixel in the channel a selector names. -/
def channelValue (p : PixelYcbcr) (chan : Int) : Dbl :=
  if chan = COLOR_Y then p.y else if chan = COLOR_CR then p.cr else p.cb

/-- An encoded channel of a 2x2 block: DC 10, one run of three values with code
`code`, and the table 5 <-> 0. -/
def oneRunChannel (code count : Int) : EncodedBlockColor :=
  { dc_val := .val 10, encoded := [⟨code, count⟩], decode_table := [(0, .val 5)],
    encode_table := [(.val 5, 0)] }

/-- An encoded 2x2 block whose Y channel carries the code 1, which is not a key of
its decode table; the Cr and Cb channels are well formed. -/
def missingCodeBlock : EncodedBlock :=
  { y := oneRunChannel 1 3, cr := oneRunChannel 0 3, cb := oneRunChannel 0 3 }

/-- An encoded 2x2 block whose Y channel has run lengths that sum to 1 instead of 3;
the Cr and Cb channels are well formed. -/
def shortRunBlock : EncodedBlock :=
  { y := oneRunChannel 0 1, cr := oneRunChannel 0 3, cb := oneRunChannel 0 3 }

/-- An encoded 2x2 block whose Y channel has run lengths that sum to 4 instead of 3;
the Cr and Cb channels are well formed. -/
def longRunBlock : EncodedBlock :=
  { y := oneRunChannel 0 4, cr := oneRunChannel 0 3, cb := oneRunChannel 0 3 }

/-- The record of a slot that a selector names (any selector other than `COLOR_Y`
and `COLOR_CR` names Cb, as in the source). -/
def recordOf (slot : EncodedBlockNoPtr) (chan : Int) : EncodedBlockColorNoPtr :=
  if chan = COLOR_Y then slot.y else if chan = COLOR_CR then slot.cr else slot.cb

/-- A channel record whose three arrays have capacity `cap`, all fields zero. -/
def zeroRecord (cap : Nat) : EncodedBlockColorNoPtr :=
  { dc_val := posZero, encoded := List.replicate cap ⟨0, 0⟩, encoded_len := 0,
    char_vals := List.replicate cap 0, double_vals := List.replicate cap posZero,
    table_size := 0 }

/-- A buffer slot whose three records have capacity `cap`, all fields zero. -/
def zeroSlot (cap : Nat) : EncodedBlockNoPtr :=
  { y := zeroRecord cap, cr := zeroRecord cap, cb := zeroRecord cap }

/-- The encoded form of `sampleBlock`, as `RLE` returns it. -/
def sampleEncoded : EncodedBlock :=
  { y := { dc_val := .val 10, encoded := [⟨0, 3⟩], decode_table := [(0, .val 5)],
           encode_table := [(.val 5, 0)] }
    cr := { dc_val := .val 20, encoded := [⟨1, 2⟩, ⟨0, 1⟩],
            decode_table := [(0, .val 6), (1, .val 0)],
            encode_table := [(.val 0, 1), (.val 6, 0)] }
    cb := { dc_val := .val 30, encoded := [⟨1, 1⟩, ⟨0, 1⟩, ⟨1, 1⟩],
            decode_table := [(0, .val 8), (1, .val 7)],
            encode_table := [(.val 7, 1), (.val 8, 0)] } }

/-- An encoded block whose Y channel has four tuples, one more than a 2x2 block has
AC positions; the Cr and Cb channels are those of `sampleEncoded`. -/
def fourTupleBlock : EncodedBlock :=
  { sampleEncoded with
    y := { dc_val := .val 10, encoded := [⟨0, 1⟩, ⟨0, 1⟩, ⟨0, 1⟩, ⟨0, 1⟩],
           decode_table := [(0, .val 5)], encode_table := [(.val 5, 0)] } }

/-- A run of `k` copies of `c` put in front of a list of runs: it is joined to the
first run when that run is of the same value. -/
def consRun (c : Dbl) (k : Nat) : List (Dbl × Nat) → List (Dbl × Nat)
  | [] => [(c, k)]
  | (v, l) :: rs => if c = v then (v, k + l) :: rs else (c, k) :: (v, l) :: rs

/-- The maximal runs of consecutive equal values of a sequence, in order, each as
the pair of its value and its length. -/
def maximalRuns : List Dbl → List (Dbl × Nat)
  | [] => []
  | x :: xs => consRun x 1 (maximalRuns xs)

/-- The loop of `decodeRun`, with a record of the indices it stores at, in order. -/
def decodeRunLog (setF : PixelYcbcr → Dbl → PixelYcbcr) (decoded_val : Dbl) :
    Nat → List PixelYcbcr → Nat → List Nat → Except Fault (List PixelYcbcr × Nat × List Nat)
  | 0, result, idx, log => .ok (result, idx, log)
  | c + 1, result, idx, log =>
    match storeField setF result idx decoded_val with
    | .error e => .error e
    | .ok result => decodeRunLog setF decoded_val c result (idx + 1) (log ++ [idx])

/-- The loop of `decodeTuples`, with a record of the indices it stores at. -/
def decodeTuplesLog (setF : PixelYcbcr → Dbl → PixelYcbcr) (decode_table : List (Int × Dbl)) :
    List RleTuple → List PixelYcbcr → Nat → List Nat →
    Except Fault (List PixelYcbcr × Nat × List Nat)
  | [], result, idx, log => .ok (result, idx, log)
  | tup :: tups, result, idx, log =>
    let decoded_val := (mapIndex id posZero decode_table tup.encoded).1
    match decodeRunLog setF decoded_val tup.count.toNat result idx log with
    | .error e => .error e
    | .ok (result, idx, log) => decodeTuplesLog setF decode_table tups result idx log

/-- The channel pass `decodeChannel`, with a record of the indices it stores at: index
0 for the DC value, then the indices of the runs. -/
def decodeChannelLog (setF : PixelYcbcr → Dbl → PixelYcbcr) (channel : EncodedBlockColor)
    (result : List PixelYcbcr) : Except Fault (List PixelYcbcr × List Nat) :=
  match storeField setF result 0 channel.dc_val with
  | .error e => .error e
  | .ok result =>
    match decodeTuplesLog setF channel.decode_table channel.encoded result 1 [0] with
    | .error e => .error e
    | .ok (result, _, log) => .ok (result, log)

/-- The three channel passes of `decodePasses`, with the record of the indices stored
at by each of them (y, cr, cb): the result of `decodeRLELog` when the product
`block_size * block_size` does not overflow. -/
def decodePassesLog (encoded : EncodedBlock) (block_size : Int) :
    Except Fault (List PixelYcbcr × List Nat × List Nat × List Nat) :=
  let result := List.replicate (block_size * block_size).toNat
    (⟨posZero, posZero, posZero⟩ : PixelYcbcr)
  match decodeChannelLog setY encoded.y result with
  | .error e => .error e
  | .ok (result, ylog) =>
    match decodeChannelLog setCr encoded.cr result with
    | .error e => .error e
    | .ok (result, crlog) =>
      match decodeChannelLog setCb encoded.cb result with
      | .error e => .error e
      | .ok (result, cblog) => .ok (result, ylog, crlog, cblog)

/-- The record of stores of the pass of the channel a selector names. -/
def logOf (logs : List Nat × List Nat × List Nat) (chan : Int) : List Nat :=
  if chan = COLOR_Y then logs.1 else if chan = COLOR_CR then logs.2.1 else logs.2.2

/-- The channel sequence an encoded channel stands for, in the words of the decoder
definition: the DC scalar, then for each tuple (code, count), in order, count copies
of `decode_table[code]`. -/
def decodedSequence (channel : EncodedBlockColor) : List Dbl :=
  channel.dc_val :: channel.encoded.flatMap (fun t =>
    match mapFind id channel.decode_table t.encoded with
    | some v => List.replicate t.count.toNat v
    | none => [])

/-- A tuple sequence is well formed for a block size: no run length is negative and
the run lengths sum to block_size*block_size - 1. -/
def wellFormedTuples (tups : List RleTuple) (block_size : Int) : Prop :=
  (∀ t ∈ tups, 0 ≤ t.count) ∧ (tups.map (fun t => t.count)).sum = block_size * block_size - 1

/-- An encoded 2x2 block with three well-formed channels: DC 10, one run of three
values with code 0, table 5 <-> 0. -/
def plainBlock : EncodedBlock :=
  { y := oneRunChannel 0 3, cr := oneRunChannel 0 3, cb := oneRunChannel 0 3 }

/-- The block `plainBlock` with the decode tables of the Cr and Cb channels emptied,
so that the code 0 their tuples use is missing. -/
def emptiedTablesBlock : EncodedBlock :=
  { y := oneRunChannel 0 3, cr := { oneRunChannel 0 3 with decode_table := [] },
    cb := { oneRunChannel 0 3 with decode_table := [] } }

/-- Order in which `buildTable` hands out codes, read off the map `freq`: by
ascending count, and by ascending value among the values of equal count. -/
def codeBefore (freq : List (Dbl × Int)) (u v : Dbl) : Prop :=
  ∃ a b, mapFind Dbl.key freq u = some a ∧ mapFind Dbl.key freq v = some b ∧
    (a < b ∨ (a = b ∧ u.key < v.key))

/-- A 3x3 block whose AC values 4, 2, 4, 2, 9, 4, 2, 9 (all three channels alike)
hold the values 2 and 4 three times each and the value 9 twice. -/
def tieBlock : List PixelYcbcr :=
  ([0, 4, 2, 4, 2, 9, 4, 2, 9] : List Int).map (fun z => ⟨.val z, .val z, .val z⟩)

/-- The record `writeChannel` leaves when the channel fits the arrays: the tuples
and the pairs of `encode_table` from index 0 on, the rest of the arrays as before. -/
def writtenRecord (rec : EncodedBlockColorNoPtr) (color : EncodedBlockColor) :
    EncodedBlockColorNoPtr :=
  { dc_val := rec.dc_val
    encoded := color.encoded ++ rec.encoded.drop color.encoded.length
    encoded_len := color.encoded.length
    char_vals := color.encode_table.map Prod.snd
      ++ rec.char_vals.drop color.encode_table.length
    double_vals := color.encode_table.map Prod.fst
      ++ rec.double_vals.drop color.encode_table.length
    table_size := color.encode_table.length }

/-- The slot `writeToBuffer` leaves at index `idx` when the selected channel fits. -/
def writtenSlot (slot : EncodedBlockNoPtr) (blk : EncodedBlock) (chan : Int) :
    EncodedBlockNoPtr :=
  if chan = COLOR_Y then
    { slot with y := { writtenRecord slot.y blk.y with dc_val := blk.y.dc_val } }
  else if chan = COLOR_CR then
    { slot with y := { slot.y with dc_val := blk.y.dc_val }
                cr := writtenRecord slot.cr blk.cr }
  else
    { slot with y := { slot.y with dc_val := blk.y.dc_val }
                cb := writtenRecord slot.cb blk.cb }

/-- The two tables after the loop of `readTable` has gone over the given
(value, code) pairs, from the tables `enc` and `dec`. -/
def rebuildTables (pairs : List (Dbl × Int)) (enc : List (Dbl × Int))
    (dec : List (Int × Dbl)) : List (Dbl × Int) × List (Int × Dbl) :=
  pairs.foldl (fun s p => (mapSet Dbl.key s.1 p.1 p.2, mapSet id s.2 p.2 p.1)) (enc, dec)

/-- The used lengths of a record are within the capacities of its arrays, so that
`convertBufferToEncodedBlocks` reads inside them. -/
def recordReadable (r : EncodedBlockColorNoPtr) : Prop :=
  r.encoded_len.toNat ≤ r.encoded.length ∧ r.table_size.toNat ≤ r.char_vals.length ∧
    r.table_size.toNat ≤ r.double_vals.length

instance recordReadable_decidable (r : EncodedBlockColorNoPtr) : Decidable (recordReadable r) := by
  unfold recordReadable
  infer_instance

/-- The encoded channel `convertBufferToEncodedBlocks` builds from a readable
record. -/
def readRecord (r : EncodedBlockColorNoPtr) : EncodedBlockColor :=
  { dc_val := r.dc_val
    encoded := r.encoded.take r.encoded_len.toNat
    decode_table := (rebuildTables ((r.double_vals.take r.table_size.toNat).zip
      (r.char_vals.take r.table_size.toNat)) [] []).2
    encode_table := (rebuildTables ((r.double_vals.take r.table_size.toNat).zip
      (r.char_vals.take r.table_size.toNat)) [] []).1 }

/-- Source `decodeRLE`, with the record of the indices stored at by each of the three
channel passes (y, cr, cb). -/
def decodeRLELog (encoded : EncodedBlock) (block_size : Int) :
    Except Fault (List PixelYcbcr × List Nat × List Nat × List Nat) :=
  match mulInt block_size block_size with
  | .error e => .error e
  | .ok size =>
    let result := List.replicate size.toNat (⟨posZero, posZero, posZero⟩ : PixelYcbcr)
    match decodeChannelLog setY encoded.y result with
    | .error e => .error e
    | .ok (result, ylog) =>
      match decodeChannelLog setCr encoded.cr result with
      | .error e => .error e
      | .ok (result, crlog) =>
        match decodeChannelLog setCb encoded.cb result with
        | .error e => .error e
        | .ok (result, cblog) => .ok (result, ylog, crlog, cblog)

/-- An encoded 2x2 block whose Y channel has the tuples (0, 4) and (0, -1): the code 0
is a key of its decode table and the counts sum to 3; the Cr and Cb channels are
well formed. -/
def negativeRunBlock : EncodedBlock :=
  { y := { dc_val := .val 10, encoded := [⟨0, 4⟩, ⟨0, -1⟩], decode_table := [(0, .val 5)],
           encode_table := [(.val 5, 0)] }
    cr := oneRunChannel 0 3, cb := oneRunChannel 0 3 }

/-- An encoded channel for block_size 46341: 268436035 runs of length 8 of the code 0,
which sum to 46341*46341 - 1 = 2147488280, with the given decode table. -/
def bigRunChannel (decode_table : List (Int × Dbl)) : EncodedBlockColor :=
  { dc_val := .val 10, encoded := List.replicate 268436035 ⟨0, 8⟩,
    decode_table := decode_table, encode_table := [(.val 5, 0)] }

/-! ## Theorems -/

/-! ### The schedule of the counting loop and the `int` product -/

theorem oneThread_singleThread (n : Nat) : oneThread singleThread n = true := by
  simp [oneThread, singleThread]

theorem countFreq_oneThread (omp : Nat → Nat) (block_vals : List Dbl)
    (h : oneThread omp block_vals.length = true) :
    countFreq omp block_vals = .ok (countFreqSeq block_vals) := by
  simp [countFreq, countFreqSeq, h]

theorem countFreq_race (omp : Nat → Nat) (block_vals : List Dbl)
    (h : oneThread omp block_vals.length = false) :
    countFreq omp block_vals = .error .dataRace := by
  simp [countFreq, h]

theorem buildTable_oneThread (omp : Nat → Nat) (block : List PixelYcbcr)
    (chan block_size : Int) (h : oneThread omp block.length = true) :
    buildTable omp block chan block_size = .ok (buildTableSeq block chan block_size) := by
  have h' : oneThread omp (extractChannel block chan).length = true := by
    simpa [extractChannel] using h
  simp [buildTable, buildTableSeq, countFreq_oneThread _ _ h', bind, Except.bind, pure,
    Except.pure]

theorem buildTable_race (omp : Nat → Nat) (block : List PixelYcbcr)
    (chan block_size : Int) (h : oneThread omp block.length = false) :
    buildTable omp block chan block_size = .error .dataRace := by
  have h' : oneThread omp (extractChannel block chan).length = false := by
    simpa [extractChannel] using h
  simp [buildTable, countFreq_race _ _ h', bind, Except.bind]

theorem buildTable_ok_inv (omp : Nat → Nat) (block : List PixelYcbcr)
    (chan block_size : Int) (tbl : EncodedBlockColor)
    (h : buildTable omp block chan block_size = .ok tbl) :
    oneThread omp block.length = true ∧ tbl = buildTableSeq block chan block_size := by
  cases ho : oneThread omp block.length with
  | false => rw [buildTable_race _ _ _ _ ho] at h; cases h
  | true =>
    rw [buildTable_oneThread _ _ _ _ ho] at h
    exact ⟨rfl, (Except.ok.inj h).symm⟩

theorem RLE_oneThread (omp : Int → Nat → Nat) (block : List PixelYcbcr) (block_size : Int)
    (hy : oneThread (omp COLOR_Y) block.length = true)
    (hcr : oneThread (omp COLOR_CR) block.length = true)
    (hcb : oneThread (omp COLOR_CB) block.length = true) :
    RLE omp block block_size = RLESeq block block_size := by
  simp only [RLE, RLESeq, buildTable_oneThread _ _ _ _ hy, buildTable_oneThread _ _ _ _ hcr,
    buildTable_oneThread _ _ _ _ hcb, bind, Except.bind]

theorem mulInt_self (block_size : Int) (h : block_size * block_size ≤ 2147483647) :
    mulInt block_size block_size = .ok (block_size * block_size) := by
  have := mul_self_nonneg block_size
  simp only [mulInt, INT_MAX]
  rw [if_pos ⟨by omega, h⟩]

theorem mulInt_self_overflow (block_size : Int) (h : 2147483647 < block_size * block_size) :
    mulInt block_size block_size = .error .intOverflow := by
  simp only [mulInt, INT_MAX]
  rw [if_neg (by omega)]

theorem decodeRLE_of_le (encoded : EncodedBlock) (block_size : Int)
    (h : block_size * block_size ≤ 2147483647) :
    decodeRLE encoded block_size = decodePasses encoded block_size := by
  simp only [decodeRLE, decodePasses, mulInt_self _ h, bind, Except.bind]

theorem decodeRLE_overflow (encoded : EncodedBlock) (block_size : Int)
    (h : 2147483647 < block_size * block_size) :
    decodeRLE encoded block_size = .error .intOverflow := by
  simp only [decodeRLE, mulInt_self_overflow _ h, bind, Except.bind]

/-! ### Maps: lookup after assignment, order of the keys -/

theorem mapFind_mapSet {κ ν : Type} (r : κ → Int) (m : List (κ × ν)) (k : κ) (v : ν) (k' : κ) :
    mapFind r (mapSet r m k v) k' = if r k = r k' then some v else mapFind r m k' := by
  induction m with
  | nil => simp [mapSet, mapFind]
  | cons p m ih =>
    obtain ⟨a, b⟩ := p
    by_cases hk : r k = r k'
    · simp only [mapSet, hk, if_true] at ih ⊢
      by_cases h1 : r k' < r a
      · simp [h1, mapFind, hk]
      · by_cases h2 : r a < r k'
        · have : r a ≠ r k' := by omega
          simp [h1, h2, mapFind, this, ih]
        · have : r a = r k' := by omega
          simp [h1, h2, mapFind, this]
    · simp only [hk, if_false] at ih ⊢
      simp only [mapSet]
      by_cases h1 : r k < r a
      · simp [h1, mapFind, hk]
      · by_cases h2 : r a < r k
        · simp [h1, h2, mapFind, ih]
        · have h3 : r a = r k := by omega
          have h4 : r a ≠ r k' := by omega
          simp [h1, h2, mapFind, h4]

theorem mapFind_eq_none {κ ν : Type} (r : κ → Int) (m : List (κ × ν)) (k : κ) :
    mapFind r m k = none ↔ ∀ p ∈ m, r p.1 ≠ r k := by
  induction m with
  | nil => simp [mapFind]
  | cons p m ih =>
    obtain ⟨a, b⟩ := p
    by_cases h : r a = r k
    · simp [mapFind, h]
    · simp [mapFind, h, ih]

theorem mapFind_some_mem {κ ν : Type} (r : κ → Int) (m : List (κ × ν)) (k : κ) (v : ν)
    (h : mapFind r m k = some v) : ∃ p ∈ m, r p.1 = r k ∧ p.2 = v := by
  induction m with
  | nil => simp [mapFind] at h
  | cons p m ih =>
    obtain ⟨a, b⟩ := p
    by_cases h1 : r a = r k
    · simp [mapFind, h1] at h
      exact ⟨(a, b), by simp, h1, h⟩
    · simp [mapFind, h1] at h
      obtain ⟨p, hp, hp'⟩ := ih h
      exact ⟨p, by simp [hp], hp'⟩

theorem mem_mapSet {κ ν : Type} (r : κ → Int) (m : List (κ × ν)) (k : κ) (v : ν) (p : κ × ν)
    (h : p ∈ mapSet r m k v) : p = (k, v) ∨ p ∈ m ∨ (p.2 = v ∧ r p.1 = r k ∧ ∃ q ∈ m, q.1 = p.1) := by
  induction m with
  | nil => simp [mapSet] at h; exact Or.inl h
  | cons q m ih =>
    obtain ⟨a, b⟩ := q
    simp only [mapSet] at h
    split_ifs at h with h1 h2
    · simp at h
      rcases h with h | h | h
      · exact Or.inl h
      · exact Or.inr (Or.inl (by simp [h]))
      · exact Or.inr (Or.inl (by simp [h]))
    · simp at h
      rcases h with h | h
      · exact Or.inr (Or.inl (by simp [h]))
      · rcases ih h with h | h | ⟨h3, h4, q, hq, hq'⟩
        · exact Or.inl h
        · exact Or.inr (Or.inl (by simp [h]))
        · exact Or.inr (Or.inr ⟨h3, h4, q, by simp [hq], hq'⟩)
    · simp at h
      rcases h with h | h
      · refine Or.inr (Or.inr ⟨by simp [h], ?_, (a, b), by simp, by simp [h]⟩)
        simp [h]; omega
      · exact Or.inr (Or.inl (by simp [h]))

theorem mapSet_sorted {κ ν : Type} (r : κ → Int) (m : List (κ × ν)) (k : κ) (v : ν)
    (h : mapSorted r m) : mapSorted r (mapSet r m k v) := by
  induction m with
  | nil => simp [mapSet, mapSorted]
  | cons q m ih =>
    obtain ⟨a, b⟩ := q
    unfold mapSorted at h ih ⊢
    rw [List.pairwise_cons] at h
    simp only [mapSet]
    split_ifs with h1 h2
    · rw [List.pairwise_cons]
      refine ⟨?_, List.pairwise_cons.2 h⟩
      intro p hp
      simp at hp
      rcases hp with hp | hp
      · simp [hp, h1]
      · have := h.1 p hp
        simp at this ⊢; omega
    · rw [List.pairwise_cons]
      refine ⟨?_, ih h.2⟩
      intro p hp
      rcases mem_mapSet r m k v p hp with hp | hp | ⟨_, hp, _⟩
      · simp [hp, h2]
      · exact h.1 p hp
      · simp; omega
    · rw [List.pairwise_cons]
      exact ⟨h.1, h.2⟩

theorem mapKeys_mapSet_of_find {κ ν : Type} (r : κ → Int) (m : List (κ × ν)) (k : κ) (v w : ν)
    (hs : mapSorted r m) (h : mapFind r m k = some w) :
    mapKeys (mapSet r m k v) = mapKeys m := by
  induction m with
  | nil => simp [mapFind] at h
  | cons q m ih =>
    obtain ⟨a, b⟩ := q
    unfold mapSorted at hs ih
    rw [List.pairwise_cons] at hs
    simp only [mapSet]
    split_ifs with h1 h2
    · exfalso
      obtain ⟨p, hp, hp', _⟩ := mapFind_some_mem r _ k w h
      simp at hp
      rcases hp with hp | hp
      · simp [hp] at hp'; omega
      · have := hs.1 p hp
        simp at this; omega
    · have h3 : r a ≠ r k := by omega
      simp [mapFind, h3] at h
      simp [mapKeys] at ih ⊢
      exact ih hs.2 h
    · simp [mapKeys]

theorem mapKeys_mapSet_of_none {κ ν : Type} (r : κ → Int) (m : List (κ × ν)) (k : κ) (v : ν)
    (h : mapFind r m k = none) :
    (mapKeys (mapSet r m k v)).Perm (k :: mapKeys m) := by
  induction m with
  | nil => simp [mapSet, mapKeys]
  | cons q m ih =>
    obtain ⟨a, b⟩ := q
    simp only [mapSet]
    split_ifs with h1 h2
    · simp [mapKeys]
    · have h3 : r a ≠ r k := by omega
      simp [mapFind, h3] at h
      simp only [mapKeys, List.map_cons] at ih ⊢
      exact ((ih h).cons a).trans (List.Perm.swap k a _)
    · exfalso
      have h3 : r a = r k := by omega
      simp [mapFind, h3] at h

theorem mapSorted_nodup {κ ν : Type} (r : κ → Int) (m : List (κ × ν)) (h : mapSorted r m) :
    (mapKeys m).Nodup := by
  unfold mapSorted at h
  unfold mapKeys
  rw [List.Nodup, List.pairwise_map]
  exact h.imp (fun {a b} hab heq => by rw [heq] at hab; omega)

theorem mapSet_mapSet {κ ν : Type} (r : κ → Int) (m : List (κ × ν)) (k : κ) (v w : ν) :
    mapSet r (mapSet r m k v) k w = mapSet r m k w := by
  induction m with
  | nil => simp [mapSet]
  | cons q m ih =>
    obtain ⟨a, b⟩ := q
    by_cases h1 : r k < r a
    · simp [mapSet, h1]
    · by_cases h2 : r a < r k
      · simp [mapSet, h1, h2, ih]
      · simp [mapSet, h1, h2]

theorem mem_mapKeys_mapSet {κ ν : Type} (r : κ → Int) (m : List (κ × ν)) (k : κ) (v : ν)
    (hs : mapSorted r m) (hk : ∀ x ∈ mapKeys m, r x = r k → x = k) (x : κ) :
    x ∈ mapKeys (mapSet r m k v) ↔ x = k ∨ x ∈ mapKeys m := by
  cases h : mapFind r m k with
  | none =>
    rw [(mapKeys_mapSet_of_none r m k v h).mem_iff]
    simp
  | some w =>
    rw [mapKeys_mapSet_of_find r m k v w hs h]
    obtain ⟨p, hp, hp', _⟩ := mapFind_some_mem r m k w h
    have hpk : p.1 ∈ mapKeys m := List.mem_map_of_mem _ hp
    have : p.1 = k := hk p.1 hpk hp'
    constructor
    · intro hx; exact Or.inr hx
    · rintro (hx | hx)
      · rw [hx, ← this]; exact hpk
      · exact hx

/-! ### `extractChannel` never yields negative zero -/

theorem Dbl.key_inj {a b : Dbl} (ha : a ≠ Dbl.negZero) (hb : b ≠ Dbl.negZero)
    (h : a.key = b.key) : a = b := by
  cases a <;> cases b <;> simp_all [Dbl.key]

theorem Dbl.eq_iff {a b : Dbl} (ha : a ≠ Dbl.negZero) (hb : b ≠ Dbl.negZero) :
    Dbl.eq a b = true ↔ a = b := by
  constructor
  · intro h
    exact Dbl.key_inj ha hb (by simpa [Dbl.eq] using h)
  · intro h; simp [Dbl.eq, h]

theorem extractValue_ne_negZero (p : PixelYcbcr) (chan : Int) :
    extractValue p chan ≠ Dbl.negZero := by
  unfold extractValue
  simp only
  generalize (if chan = COLOR_Y then p.y else if chan = COLOR_CR then p.cr else p.cb) = val
  by_cases h : Dbl.eq val Dbl.negZero = true
  · simp [h, posZero]
  · simp only [h]
    intro hc
    simp at hc
    rw [hc] at h
    simp [Dbl.eq] at h

theorem extractChannel_ne_negZero (block : List PixelYcbcr) (chan : Int) :
    ∀ v ∈ extractChannel block chan, v ≠ Dbl.negZero := by
  intro v hv
  simp only [extractChannel, List.mem_map] at hv
  obtain ⟨p, _, rfl⟩ := hv
  exact extractValue_ne_negZero p chan

/-! ### The counting loop of `buildTable` -/

theorem countStep_eq (freq : List (Dbl × Int)) (v : Dbl) :
    ∃ c, countStep freq v = mapSet Dbl.key freq v c := by
  unfold countStep
  cases mapFind Dbl.key freq v with
  | none => exact ⟨1, rfl⟩
  | some c => exact ⟨_, rfl⟩

theorem countFold_inv (vals : List Dbl) (acc : List (Dbl × Int))
    (hv : ∀ v ∈ vals, v ≠ Dbl.negZero) (hs : mapSorted Dbl.key acc)
    (hn : ∀ x ∈ mapKeys acc, x ≠ Dbl.negZero) :
    mapSorted Dbl.key (vals.foldl countStep acc) ∧
    ∀ x, x ∈ mapKeys (vals.foldl countStep acc) ↔ x ∈ mapKeys acc ∨ x ∈ vals := by
  induction vals generalizing acc with
  | nil => simp [hs]
  | cons v vals ih =>
    obtain ⟨c, hc⟩ := countStep_eq acc v
    have hv0 : v ≠ Dbl.negZero := hv v (by simp)
    have hmem := mem_mapKeys_mapSet Dbl.key acc v c hs
      (fun x hx hxk => Dbl.key_inj (hn x hx) hv0 hxk)
    have hs' : mapSorted Dbl.key (countStep acc v) := by
      rw [hc]; exact mapSet_sorted _ _ _ _ hs
    have hn' : ∀ x ∈ mapKeys (countStep acc v), x ≠ Dbl.negZero := by
      intro x hx
      rw [hc, hmem] at hx
      rcases hx with hx | hx
      · rw [hx]; exact hv0
      · exact hn x hx
    obtain ⟨h1, h2⟩ := ih (countStep acc v) (fun x hx => hv x (by simp [hx])) hs' hn'
    refine ⟨by simpa using h1, ?_⟩
    intro x
    rw [List.foldl_cons, h2, hc, hmem, List.mem_cons]
    tauto

theorem countFreqSeq_sorted (vals : List Dbl) (hv : ∀ v ∈ vals, v ≠ Dbl.negZero) :
    mapSorted Dbl.key (countFreqSeq vals) :=
  (countFold_inv (vals.drop 1) [] (fun v h => hv v (List.mem_of_mem_drop h))
    (by simp [mapSorted]) (by simp [mapKeys])).1

theorem mem_countFreqSeq (vals : List Dbl) (hv : ∀ v ∈ vals, v ≠ Dbl.negZero) (x : Dbl) :
    x ∈ mapKeys (countFreqSeq vals) ↔ x ∈ vals.drop 1 := by
  have := (countFold_inv (vals.drop 1) [] (fun v h => hv v (List.mem_of_mem_drop h))
    (by simp [mapSorted]) (by simp [mapKeys])).2 x
  simpa [mapKeys, countFreqSeq] using this

/-! ### The grouping loop of `buildTable` -/

theorem mapFlat_mapSet_of_none {κ α : Type} (r : κ → Int) (m : List (κ × List α)) (k : κ)
    (l : List α) (h : mapFind r m k = none) :
    (mapFlat (mapSet r m k l)).Perm (mapFlat m ++ l) := by
  induction m with
  | nil => simp [mapSet, mapFlat]
  | cons q m ih =>
    obtain ⟨a, b⟩ := q
    by_cases h1 : r k < r a
    · simp only [mapSet, h1, if_true, mapFlat, List.flatMap_cons]
      exact List.perm_append_comm
    · by_cases h2 : r a < r k
      · have h3 : r a ≠ r k := by omega
        simp [mapFind, h3] at h
        simp only [mapSet, h1, h2, if_true, if_false, mapFlat, List.flatMap_cons] at ih ⊢
        rw [List.append_assoc]
        exact (ih h).append_left b
      · exfalso
        have h3 : r a = r k := by omega
        simp [mapFind, h3] at h

theorem mapFlat_mapSet_of_find {κ α : Type} (r : κ → Int) (m : List (κ × List α)) (k : κ)
    (l l' : List α) (hs : mapSorted r m) (h : mapFind r m k = some l) :
    (mapFlat (mapSet r m k (l ++ l'))).Perm (mapFlat m ++ l') := by
  induction m with
  | nil => simp [mapFind] at h
  | cons q m ih =>
    obtain ⟨a, b⟩ := q
    unfold mapSorted at hs ih
    rw [List.pairwise_cons] at hs
    by_cases h1 : r k < r a
    · exfalso
      obtain ⟨p, hp, hp', _⟩ := mapFind_some_mem r _ k l h
      simp at hp
      rcases hp with hp | hp
      · simp [hp] at hp'; omega
      · have := hs.1 p hp
        simp at this; omega
    · by_cases h2 : r a < r k
      · have h3 : r a ≠ r k := by omega
        simp [mapFind, h3] at h
        simp only [mapSet, h1, h2, if_true, if_false, mapFlat, List.flatMap_cons] at ih ⊢
        rw [List.append_assoc]
        exact (ih hs.2 h).append_left b
      · have h3 : r a = r k := by omega
        simp [mapFind, h3] at h
        subst h
        simp only [mapSet, h1, h2, if_false, mapFlat, List.flatMap_cons]
        rw [List.append_assoc, List.append_assoc]
        exact List.perm_append_comm.append_left b

theorem groupStep_inv (encoded : List (Int × List Dbl)) (kv : Dbl × Int)
    (hs : mapSorted id encoded) :
    mapSorted id (groupStep encoded kv) ∧
    (mapFlat (groupStep encoded kv)).Perm (mapFlat encoded ++ [kv.1]) := by
  unfold groupStep mapIndex
  cases h : mapFind id encoded kv.2 with
  | none =>
    simp only [mapSet_mapSet, List.nil_append]
    exact ⟨mapSet_sorted _ _ _ _ hs, mapFlat_mapSet_of_none _ _ _ _ h⟩
  | some l =>
    simp only
    exact ⟨mapSet_sorted _ _ _ _ hs, mapFlat_mapSet_of_find _ _ _ _ _ hs h⟩

theorem groupFold_inv (freq : List (Dbl × Int)) (acc : List (Int × List Dbl))
    (hs : mapSorted id acc) :
    mapSorted id (freq.foldl groupStep acc) ∧
    (mapFlat (freq.foldl groupStep acc)).Perm (mapFlat acc ++ mapKeys freq) := by
  induction freq generalizing acc with
  | nil => simp [hs, mapKeys]
  | cons kv freq ih =>
    obtain ⟨h1, h2⟩ := groupStep_inv acc kv hs
    obtain ⟨h3, h4⟩ := ih (groupStep acc kv) h1
    refine ⟨by simpa using h3, ?_⟩
    simp only [List.foldl_cons]
    refine h4.trans ?_
    simp only [mapKeys, List.map_cons]
    rw [show mapFlat acc ++ kv.1 :: List.map Prod.fst freq
          = (mapFlat acc ++ [kv.1]) ++ List.map Prod.fst freq by simp]
    exact h2.append_right _

theorem groupByFreq_perm (freq : List (Dbl × Int)) :
    (mapFlat (groupByFreq freq)).Perm (mapKeys freq) := by
  have := (groupFold_inv freq [] (by simp [mapSorted])).2
  simpa [groupByFreq, mapFlat] using this

/-! ### The code assignment of `buildTable` -/

theorem toChar_toChar_succ (a : Int) : toChar (toChar a + 1) = toChar (a + 1) := by
  unfold toChar; omega

theorem toChar_inj_of_lt {i j : Nat} (hi : i < 256) (hj : j < 256)
    (h : toChar (i : Int) = toChar (j : Int)) : i = j := by
  unfold toChar at h; omega

theorem toChar_of_le {x : Int} (h0 : 0 ≤ x) (h1 : x ≤ 127) : toChar x = x := by
  unfold toChar; omega

theorem assignCodes_eq_foldl (encoded : List (Int × List Dbl)) (s : TableState) :
    encoded.foldl (fun s grp => grp.2.foldl assignStep s) s
      = (mapFlat encoded).foldl assignStep s := by
  induction encoded generalizing s with
  | nil => simp [mapFlat]
  | cons g gs ih =>
    simp only [List.foldl_cons, mapFlat, List.flatMap_cons, List.foldl_append] at ih ⊢
    exact ih _

theorem assign_curr (xs : List Dbl) :
    (xs.foldl assignStep ⟨[], [], 0⟩).curr_encoding = toChar xs.length := by
  induction xs using List.reverseRecOn with
  | nil => simp [toChar]
  | append_singleton xs x ih =>
    simp only [List.foldl_append, List.foldl_cons, List.foldl_nil, assignStep, ih,
      List.length_append, List.length_singleton]
    rw [toChar_toChar_succ]
    push_cast
    rfl

theorem assign_enc (xs : List Dbl) (hn : ∀ x ∈ xs, x ≠ Dbl.negZero) (hd : xs.Nodup) :
    mapSorted Dbl.key (xs.foldl assignStep ⟨[], [], 0⟩).encode_table ∧
    (mapKeys (xs.foldl assignStep ⟨[], [], 0⟩).encode_table).Perm xs ∧
    ∀ (i : Nat) (v : Dbl), xs[i]? = some v →
      mapFind Dbl.key (xs.foldl assignStep ⟨[], [], 0⟩).encode_table v = some (toChar i) := by
  induction xs using List.reverseRecOn with
  | nil => simp [mapSorted, mapKeys]
  | append_singleton xs x ih =>
    have hd' := List.nodup_append.1 hd
    obtain ⟨h1, h2, h3⟩ := ih (fun y hy => hn y (by simp [hy])) hd'.1
    have hx : x ≠ Dbl.negZero := hn x (by simp)
    have hxs : x ∉ xs := fun hmem => hd'.2.2 hmem (by simp)
    have hnone : mapFind Dbl.key (xs.foldl assignStep ⟨[], [], 0⟩).encode_table x = none := by
      rw [mapFind_eq_none]
      intro p hp hkey
      have hp1 : p.1 ∈ xs := h2.mem_iff.1 (List.mem_map_of_mem _ hp)
      have := Dbl.key_inj (hn p.1 (by simp [hp1])) hx hkey
      exact hxs (this ▸ hp1)
    simp only [List.foldl_append, List.foldl_cons, List.foldl_nil, assignStep]
    refine ⟨mapSet_sorted _ _ _ _ h1, ?_, ?_⟩
    · refine (mapKeys_mapSet_of_none _ _ _ _ hnone).trans ?_
      exact (h2.cons x).trans (List.perm_append_singleton x xs).symm
    · intro i v hv
      rw [mapFind_mapSet, assign_curr]
      by_cases hi : i < xs.length
      · rw [List.getElem?_append_left hi] at hv
        have hvm : v ∈ xs := List.getElem?_mem hv
        have hne : Dbl.key x ≠ Dbl.key v := by
          intro hk
          exact hxs ((Dbl.key_inj hx (hn v (by simp [hvm])) hk) ▸ hvm)
        simp [hne, h3 i v hv]
      · have hle : xs.length ≤ i := by omega
        rw [List.getElem?_append_right hle] at hv
        have : i - xs.length = 0 := by
          by_contra hc
          have : ([x] : List Dbl)[i - xs.length]? = none := by
            apply List.getElem?_eq_none; simp; omega
          rw [this] at hv; simp at hv
        rw [this] at hv
        simp at hv
        have hi' : i = xs.length := by omega
        simp [hv, hi']

theorem assign_dec (xs : List Dbl) (hl : xs.length ≤ 256) :
    mapSorted id (xs.foldl assignStep ⟨[], [], 0⟩).decode_table ∧
    (mapKeys (xs.foldl assignStep ⟨[], [], 0⟩).decode_table).Perm
      ((List.range xs.length).map (fun (i : Nat) => toChar (i : Int))) ∧
    ∀ (i : Nat) (v : Dbl), xs[i]? = some v →
      mapFind id (xs.foldl assignStep ⟨[], [], 0⟩).decode_table (toChar i) = some v := by
  induction xs using List.reverseRecOn with
  | nil => simp [mapSorted, mapKeys]
  | append_singleton xs x ih =>
    simp only [List.length_append, List.length_singleton] at hl
    obtain ⟨h1, h2, h3⟩ := ih (by omega)
    have hnone : mapFind id (xs.foldl assignStep ⟨[], [], 0⟩).decode_table
        (toChar xs.length) = none := by
      rw [mapFind_eq_none]
      intro p hp hkey
      have hp1 := h2.mem_iff.1 (List.mem_map_of_mem _ hp)
      simp only [List.mem_map, List.mem_range] at hp1
      obtain ⟨j, hj, hj'⟩ := hp1
      simp only [id] at hkey
      rw [← hj'] at hkey
      have := toChar_inj_of_lt (by omega) (by omega) hkey
      omega
    simp only [List.foldl_append, List.foldl_cons, List.foldl_nil, assignStep, assign_curr]
    refine ⟨mapSet_sorted _ _ _ _ h1, ?_, ?_⟩
    · refine (mapKeys_mapSet_of_none _ _ _ _ hnone).trans ?_
      rw [List.length_append, List.length_singleton, List.range_succ, List.map_append]
      exact (h2.cons _).trans (List.perm_append_singleton _ _).symm
    · intro i v hv
      rw [mapFind_mapSet]
      by_cases hi : i < xs.length
      · rw [List.getElem?_append_left hi] at hv
        have hne : toChar (xs.length : Int) ≠ toChar (i : Int) := by
          intro hk
          have := toChar_inj_of_lt (by omega) (by omega) hk
          omega
        simp [hne, h3 i v hv]
      · have hle : xs.length ≤ i := by omega
        rw [List.getElem?_append_right hle] at hv
        have : i - xs.length = 0 := by
          by_contra hc
          have : ([x] : List Dbl)[i - xs.length]? = none := by
            apply List.getElem?_eq_none; simp; omega
          rw [this] at hv; simp at hv
        rw [this] at hv
        simp at hv
        have hi' : i = xs.length := by omega
        simp [hv, hi']

theorem buildTableSeq_tables (block : List PixelYcbcr) (chan bs : Int) :
    (buildTableSeq block chan bs).encode_table
        = ((codeOrder (extractChannel block chan)).foldl assignStep ⟨[], [], 0⟩).encode_table ∧
    (buildTableSeq block chan bs).decode_table
        = ((codeOrder (extractChannel block chan)).foldl assignStep ⟨[], [], 0⟩).decode_table := by
  simp [buildTableSeq, assignCodes, assignCodes_eq_foldl, codeOrder]

theorem codeOrder_perm (vals : List Dbl) :
    (codeOrder vals).Perm (mapKeys (countFreqSeq vals)) := groupByFreq_perm _

theorem codeOrder_nodup (vals : List Dbl) (hv : ∀ v ∈ vals, v ≠ Dbl.negZero) :
    (codeOrder vals).Nodup :=
  (codeOrder_perm vals).nodup_iff.2 (mapSorted_nodup _ _ (countFreqSeq_sorted vals hv))

theorem mem_codeOrder (vals : List Dbl) (hv : ∀ v ∈ vals, v ≠ Dbl.negZero) (x : Dbl) :
    x ∈ codeOrder vals ↔ x ∈ vals.drop 1 := by
  rw [(codeOrder_perm vals).mem_iff, mem_countFreqSeq vals hv]

theorem codeOrder_length (vals : List Dbl) (hv : ∀ v ∈ vals, v ≠ Dbl.negZero) :
    (codeOrder vals).length = (vals.drop 1).dedup.length := by
  apply List.Perm.length_eq
  rw [List.perm_ext_iff_of_nodup (codeOrder_nodup vals hv) (List.nodup_dedup _)]
  intro x
  rw [mem_codeOrder vals hv, List.mem_dedup]

/-! ### The scanning loop of `encodeValues` -/

theorem readAt_append {α : Type} (pre : List α) (x : α) (xs : List α) :
    readAt (pre ++ x :: xs) (pre.length : Int) = .ok x := by
  have h : (pre ++ x :: xs).get? pre.length = some x := by
    rw [List.get?_eq_getElem?, List.getElem?_append_right (le_refl _)]; simp
  simp only [readAt, Int.toNat_ofNat, h, Int.natCast_nonneg, if_true]

theorem mapIndex_hit {κ ν : Type} (r : κ → Int) (d : ν) (m : List (κ × ν)) (k : κ) (c : ν)
    (h : mapFind r m k = some c) : mapIndex r d m k = (c, m) := by
  simp [mapIndex, h]

theorem encodeLoop_eq (tbl : List (Dbl × Int)) (rest : List Dbl) :
    ∀ (pre : List Dbl) (fuel : Nat) (s : EncState),
      s.curr_idx + 1 = pre.length → rest.length ≤ fuel → s.encode_table = tbl →
      (∀ v, v = s.curr_val ∨ v ∈ rest → ∃ c, mapFind Dbl.key tbl v = some c) →
      encodeLoop (pre ++ rest) ((pre ++ rest).length : Nat) fuel s
        = .ok { curr_idx := ((pre ++ rest).length : Nat) - 1,
                curr_run := (scanRuns tbl s.curr_val s.curr_run s.encoded rest).2.1,
                curr_val := (scanRuns tbl s.curr_val s.curr_run s.encoded rest).1,
                encoded := (scanRuns tbl s.curr_val s.curr_run s.encoded rest).2.2,
                encode_table := tbl } := by
  induction rest with
  | nil =>
    intro pre fuel s hidx _ htbl _
    have hs : s = ⟨((pre ++ []).length : Nat) - 1, s.curr_run, s.curr_val, s.encoded, tbl⟩ := by
      cases s; simp at hidx htbl ⊢; exact ⟨by omega, htbl⟩
    cases fuel with
    | zero => simp only [encodeLoop, scanRuns]; exact congrArg _ hs
    | succ f =>
      have : ¬ s.curr_idx < ((pre ++ []).length : Nat) - 1 := by simp; omega
      simp only [encodeLoop, this, if_false, scanRuns]; exact congrArg _ hs
  | cons x xs ih =>
    intro pre fuel s hidx hfuel htbl hhit
    cases fuel with
    | zero => simp at hfuel
    | succ f =>
      have hc : s.curr_idx < ((pre ++ x :: xs).length : Nat) - 1 := by
        simp; omega
      have hr : readAt (pre ++ x :: xs) (s.curr_idx + 1) = .ok x := by
        rw [hidx]; exact readAt_append pre x xs
      have hpre : pre ++ x :: xs = (pre ++ [x]) ++ xs := by simp
      simp only [encodeLoop, hc, if_true, hr, scanRuns]
      by_cases hx : Dbl.eq x s.curr_val = true
      · simp only [hx, if_true]
        rw [hpre]
        refine ih (pre ++ [x]) f _ (by simp; omega) (by simpa using hfuel) htbl ?_
        intro v hv
        rcases hv with hv | hv
        · exact hhit v (Or.inl hv)
        · exact hhit v (Or.inr (by simp [hv]))
      · simp only [hx, Bool.false_eq_true, if_false]
        obtain ⟨c, hcv⟩ := hhit s.curr_val (Or.inl rfl)
        rw [htbl, mapIndex_hit _ _ _ _ _ hcv]
        have hcode : codeOf tbl s.curr_val = c := by simp [codeOf, mapIndex_hit _ _ _ _ _ hcv]
        rw [hpre, hcode]
        refine ih (pre ++ [x]) f _ (by simp; omega) (by simpa using hfuel) rfl ?_
        intro v hv
        rcases hv with hv | hv
        · exact hhit v (Or.inr (by simp at hv; simp [hv]))
        · exact hhit v (Or.inr (by simp [hv]))

theorem scanRuns_runTuples (tbl : List (Dbl × Int)) (rest : List Dbl) :
    ∀ (cur : Dbl) (run : Int) (out : List RleTuple),
      (scanRuns tbl cur run out rest).2.2 ++
        [⟨codeOf tbl (scanRuns tbl cur run out rest).1,
          toChar (scanRuns tbl cur run out rest).2.1⟩]
        = out ++ runTuples tbl cur run rest := by
  induction rest with
  | nil => intro cur run out; simp [scanRuns, runTuples]
  | cons x xs ih =>
    intro cur run out
    by_cases hx : Dbl.eq x cur = true
    · simp only [scanRuns, runTuples, hx, if_true]; exact ih _ _ _
    · simp only [scanRuns, runTuples, hx, Bool.false_eq_true, if_false]
      rw [ih]; simp

theorem scanRuns_append (tbl : List (Dbl × Int)) (xs ys : List Dbl) :
    ∀ (cur : Dbl) (run : Int) (out : List RleTuple),
      scanRuns tbl cur run out (xs ++ ys)
        = scanRuns tbl (scanRuns tbl cur run out xs).1 (scanRuns tbl cur run out xs).2.1
            (scanRuns tbl cur run out xs).2.2 ys := by
  induction xs with
  | nil => intro cur run out; simp [scanRuns]
  | cons x xs ih =>
    intro cur run out
    by_cases hx : Dbl.eq x cur = true
    · simp only [List.cons_append, scanRuns, hx, if_true]; exact ih _ _ _
    · simp only [List.cons_append, scanRuns, hx, Bool.false_eq_true, if_false]; exact ih _ _ _

theorem scanRuns_cur (tbl : List (Dbl × Int)) (rest : List Dbl) :
    ∀ (cur : Dbl) (run : Int) (out : List RleTuple),
      (∀ v ∈ cur :: rest, v ≠ Dbl.negZero) →
      (scanRuns tbl cur run out rest).1 = (cur :: rest).getLast (by simp) := by
  induction rest with
  | nil => intro cur run out _; simp [scanRuns]
  | cons x xs ih =>
    intro cur run out hn
    have hx0 : x ≠ Dbl.negZero := hn x (by simp)
    have hc0 : cur ≠ Dbl.negZero := hn cur (by simp)
    by_cases hx : Dbl.eq x cur = true
    · have hxc : x = cur := (Dbl.eq_iff hx0 hc0).1 hx
      simp only [scanRuns, hx, if_true]
      rw [ih cur _ _ (fun v hv => hn v (by simp at hv ⊢; tauto))]
      subst hxc
      simp [List.getLast_cons]
    · simp only [scanRuns, hx, Bool.false_eq_true, if_false]
      rw [ih x _ _ (fun v hv => hn v (by simp at hv ⊢; tauto))]
      simp [List.getLast_cons]

theorem readAt_of_getElem? {α : Type} (v : List α) (i : Nat) (a : α) (h : v[i]? = some a) :
    readAt v (i : Int) = .ok a := by
  have h' : v.get? i = some a := by rw [List.get?_eq_getElem?]; exact h
  simp only [readAt, Int.toNat_ofNat, h', Int.natCast_nonneg, if_true]

theorem toChar_one : toChar 1 = 1 := by decide

theorem encodeValues_count (tbl : List (Dbl × Int)) (dc a : Dbl) (rest : List Dbl)
    (out : List RleTuple) (hn : ∀ v ∈ a :: rest, v ≠ Dbl.negZero) :
    ∃ last prev,
      readAt (dc :: a :: rest) (((dc :: a :: rest).length : Nat) - 1 : Int) = .ok last ∧
      readAt (dc :: a :: rest) (((dc :: a :: rest).length : Nat) - 2 : Int) = .ok prev ∧
      last = (scanRuns tbl a 1 out rest).1 ∧
      (if Dbl.eq last prev then toChar (scanRuns tbl a 1 out rest).2.1 else 1)
        = toChar (scanRuns tbl a 1 out rest).2.1 := by
  rcases List.eq_nil_or_concat rest with h | ⟨xs, x, h⟩
  · subst h
    refine ⟨a, dc, ?_, ?_, ?_, ?_⟩
    · exact readAt_of_getElem? _ 1 a (by simp)
    · exact readAt_of_getElem? _ 0 dc (by simp)
    · simp [scanRuns]
    · simp [scanRuns, toChar_one]
  · rw [List.concat_eq_append] at h
    subst h
    have hlast : (scanRuns tbl a 1 out (xs ++ [x])).1 = x := by
      rw [scanRuns_cur tbl _ a 1 out hn]
      simp [List.getLast_cons]
    have hprev := scanRuns_cur tbl xs a 1 out (fun v hv => hn v (by simp at hv ⊢; tauto))
    refine ⟨x, (a :: xs).getLast (by simp), ?_, ?_, hlast.symm, ?_⟩
    · have e : ((((dc :: a :: (xs ++ [x])).length : Nat) : Int) - 1) = ((xs.length + 2 : Nat) : Int) := by
        simp; omega
      rw [e]
      apply readAt_of_getElem?
      have : dc :: a :: (xs ++ [x]) = (dc :: a :: xs) ++ [x] := by simp
      rw [this, List.getElem?_append_right (by simp)]
      simp
    · have e : ((((dc :: a :: (xs ++ [x])).length : Nat) : Int) - 2) = ((xs.length + 1 : Nat) : Int) := by
        simp; omega
      rw [e]
      apply readAt_of_getElem?
      have : dc :: a :: (xs ++ [x]) = dc :: ((a :: xs) ++ [x]) := by simp
      rw [this, List.getElem?_cons_succ, List.getElem?_append_left (by simp)]
      rw [List.getLast_eq_getElem]
      simp
    · rw [scanRuns_append]
      rw [← hprev]
      cases hx : Dbl.eq x (scanRuns tbl a 1 out xs).1 with
      | true => simp [scanRuns, hx]
      | false => simp [scanRuns, hx, toChar_one]

theorem encodeValues_eq (block : List PixelYcbcr) (color : EncodedBlockColor) (chan : Int)
    (dc a : Dbl) (rest : List Dbl) (hvals : extractChannel block chan = dc :: a :: rest)
    (hhit : ∀ v ∈ a :: rest, ∃ c, mapFind Dbl.key color.encode_table v = some c) :
    encodeValues block color chan
      = .ok { dc_val := dc,
              encoded := color.encoded ++ runTuples color.encode_table a 1 rest,
              decode_table := color.decode_table,
              encode_table := color.encode_table } := by
  have hn : ∀ v ∈ a :: rest, v ≠ Dbl.negZero := by
    intro v hv
    apply extractChannel_ne_negZero block chan
    rw [hvals]; simp at hv ⊢; tauto
  obtain ⟨last, prev, h1, h2, h3, h4⟩ :=
    encodeValues_count color.encode_table dc a rest color.encoded hn
  have hloop := encodeLoop_eq color.encode_table rest [dc, a] (dc :: a :: rest).length
    ⟨1, 1, a, color.encoded, color.encode_table⟩ (by simp) (by simp only [List.length_cons]; omega) rfl
    (by intro v hv; exact hhit v (by simp at hv ⊢; tauto))
  have h0 : readAt (dc :: a :: rest) 0 = .ok dc := readAt_of_getElem? _ 0 dc (by simp)
  have h1' : readAt (dc :: a :: rest) 1 = .ok a := readAt_of_getElem? _ 1 a (by simp)
  obtain ⟨c, hc⟩ := hhit last (by
    rw [h3, scanRuns_cur _ _ _ _ _ hn]; exact List.getLast_mem _)
  have hcode : codeOf color.encode_table last = c := by
    simp [codeOf, mapIndex_hit _ _ _ _ _ hc]
  unfold encodeValues
  simp only [hvals, bind, Except.bind, pure, Except.pure]
  simp only [List.cons_append, List.nil_append] at hloop
  rw [h0]; simp only
  rw [h1']; simp only
  rw [hloop]; simp only
  rw [h1]; simp only
  rw [h2]; simp only
  rw [mapIndex_hit _ _ _ _ _ hc, h4]
  congr 2
  rw [← hcode, h3]
  exact scanRuns_runTuples _ _ _ _ _

/-! ### The channel passes of `decodeRLE` -/

theorem overlay_cons_cons (setF : PixelYcbcr → Dbl → PixelYcbcr) (p : PixelYcbcr)
    (ps : List PixelYcbcr) (v : Dbl) (vs : List Dbl) :
    overlay setF (p :: ps) (v :: vs) = setF p v :: overlay setF ps vs := rfl

theorem overlay_nil (setF : PixelYcbcr → Dbl → PixelYcbcr) (ps : List PixelYcbcr) :
    overlay setF ps [] = ps := by
  cases ps <;> simp [overlay]

theorem overlay_length (setF : PixelYcbcr → Dbl → PixelYcbcr) (ps : List PixelYcbcr)
    (vs : List Dbl) : (overlay setF ps vs).length = ps.length := by
  induction ps generalizing vs with
  | nil => simp [overlay]
  | cons p ps ih => cases vs <;> simp [overlay, ih]

theorem overlay_append (setF : PixelYcbcr → Dbl → PixelYcbcr) (mid post : List PixelYcbcr)
    (a b : List Dbl) (h : a.length = mid.length) :
    overlay setF (mid ++ post) (a ++ b) = overlay setF mid a ++ overlay setF post b := by
  induction mid generalizing a with
  | nil =>
    have : a = [] := List.length_eq_zero.1 (by simpa using h)
    subst this
    simp [overlay]
  | cons p ps ih =>
    cases a with
    | nil => simp at h
    | cons v vs =>
      rw [List.cons_append, List.cons_append, overlay_cons_cons, overlay_cons_cons,
        ih vs (by simpa using h), List.cons_append]

theorem storeField_append (setF : PixelYcbcr → Dbl → PixelYcbcr) (pre : List PixelYcbcr)
    (p : PixelYcbcr) (post : List PixelYcbcr) (v : Dbl) :
    storeField setF (pre ++ p :: post) pre.length v = .ok (pre ++ setF p v :: post) := by
  have h : (pre ++ p :: post).get? pre.length = some p := by
    rw [List.get?_eq_getElem?, List.getElem?_append_right (le_refl _)]; simp
  simp only [storeField, h]
  simp

theorem storeField_oob (setF : PixelYcbcr → Dbl → PixelYcbcr) (res : List PixelYcbcr)
    (v : Dbl) : storeField setF res res.length v = .error (.oobWrite res.length) := by
  have h : res.get? res.length = none := List.get?_eq_none.2 (le_refl _)
  simp only [storeField, h]

theorem decodeRun_eq (setF : PixelYcbcr → Dbl → PixelYcbcr) (v : Dbl) (c : Nat) :
    ∀ (pre post : List PixelYcbcr),
      decodeRun setF v c (pre ++ post) pre.length
        = if c ≤ post.length then
            .ok (pre ++ overlay setF post (List.replicate c v), pre.length + c)
          else .error (.oobWrite ((pre.length + post.length : Nat) : Int)) := by
  induction c with
  | zero => intro pre post; simp [decodeRun, overlay_nil]
  | succ c ih =>
    intro pre post
    cases post with
    | nil =>
      simp only [decodeRun, List.append_nil, storeField_oob]
      simp
    | cons p post =>
      have hih := ih (pre ++ [setF p v]) post
      simp only [List.length_append, List.length_singleton, List.append_assoc,
        List.singleton_append] at hih
      simp only [decodeRun, storeField_append, hih, List.length_cons,
        add_le_add_iff_right, List.replicate_succ, overlay_cons_cons]
      by_cases hc : c ≤ post.length
      · simp only [hc, if_true]
        congr 2; omega
      · simp only [hc, if_false]
        congr 2; push_cast; omega

theorem expandTuples_cons (tbl : List (Int × Dbl)) (t : RleTuple) (ts : List RleTuple) :
    expandTuples tbl (t :: ts)
      = List.replicate t.count.toNat (mapIndex id posZero tbl t.encoded).1
          ++ expandTuples tbl ts := by
  simp [expandTuples]

theorem overlay_take_drop (setF : PixelYcbcr → Dbl → PixelYcbcr) (post : List PixelYcbcr)
    (a : List Dbl) (h : a.length ≤ post.length) :
    overlay setF post a = overlay setF (post.take a.length) a ++ post.drop a.length := by
  have := overlay_append setF (post.take a.length) (post.drop a.length) a []
    (by simp [List.length_take]; omega)
  simpa [overlay_nil] using this

theorem decodeTuples_eq (setF : PixelYcbcr → Dbl → PixelYcbcr) (tbl : List (Int × Dbl))
    (tups : List RleTuple) :
    ∀ (pre post : List PixelYcbcr),
      decodeTuples setF tbl tups (pre ++ post) pre.length
        = if (expandTuples tbl tups).length ≤ post.length then
            .ok (pre ++ overlay setF post (expandTuples tbl tups),
                 pre.length + (expandTuples tbl tups).length)
          else .error (.oobWrite ((pre.length + post.length : Nat) : Int)) := by
  induction tups with
  | nil => intro pre post; simp [decodeTuples, expandTuples, overlay_nil]
  | cons t ts ih =>
    intro pre post
    simp only [decodeTuples, decodeRun_eq, expandTuples_cons, List.length_append,
      List.length_replicate]
    generalize (mapIndex id posZero tbl t.encoded).1 = v
    generalize t.count.toNat = c
    by_cases hc : c ≤ post.length
    · simp only [hc, if_true]
      have hsplit := overlay_take_drop setF post (List.replicate c v) (by simpa using hc)
      simp only [List.length_replicate] at hsplit
      have e : pre ++ overlay setF post (List.replicate c v)
          = (pre ++ overlay setF (post.take c) (List.replicate c v)) ++ post.drop c := by
        rw [hsplit]; simp
      have e2 : pre.length + c
          = (pre ++ overlay setF (post.take c) (List.replicate c v)).length := by
        simp [overlay_length, List.length_take]; omega
      rw [e, e2, ih]
      simp only [List.length_drop, List.length_append, overlay_length, List.length_take]
      have hmin : min c post.length = c := by omega
      by_cases h2 : (expandTuples tbl ts).length ≤ post.length - c
      · have h3 : c + (expandTuples tbl ts).length ≤ post.length := by omega
        simp only [h2, h3, if_true, hmin]
        congr 2
        · rw [List.append_assoc]
          congr 1
          have := overlay_append setF (post.take c) (post.drop c) (List.replicate c v)
            (expandTuples tbl ts) (by simp [List.length_take]; omega)
          rw [List.take_append_drop] at this
          exact this.symm
        · omega
      · have h3 : ¬ c + (expandTuples tbl ts).length ≤ post.length := by omega
        simp only [h2, h3, if_false, hmin]
        congr 2; push_cast; omega
    · have h3 : ¬ c + (expandTuples tbl ts).length ≤ post.length := by omega
      simp only [hc, h3, if_false]

theorem decodeChannel_eq (setF : PixelYcbcr → Dbl → PixelYcbcr) (channel : EncodedBlockColor)
    (result : List PixelYcbcr) :
    decodeChannel setF channel result
      = if (channelValues channel).length ≤ result.length then
          .ok (overlay setF result (channelValues channel))
        else .error (.oobWrite (result.length : Int)) := by
  cases result with
  | nil =>
    simp [decodeChannel, storeField, channelValues]
  | cons p post =>
    have h0 := storeField_append setF [] p post channel.dc_val
    simp only [List.nil_append, List.length_nil] at h0
    have h1 := decodeTuples_eq setF channel.decode_table channel.encoded [setF p channel.dc_val] post
    simp only [List.singleton_append, List.length_singleton] at h1
    simp only [decodeChannel, h0, h1, channelValues, List.length_cons, overlay_cons_cons,
      add_le_add_iff_right]
    by_cases hc : (expandTuples channel.decode_table channel.encoded).length ≤ post.length
    · simp only [hc, if_true]
    · simp only [hc, if_false]
      congr 2; push_cast; omega

theorem overlay_getElem? (setF : PixelYcbcr → Dbl → PixelYcbcr) (ps : List PixelYcbcr)
    (vs : List Dbl) (j : Nat) :
    (overlay setF ps vs)[j]? = (ps[j]?).map (fun p => (vs[j]?).elim p (setF p)) := by
  induction ps generalizing vs j with
  | nil => simp [overlay]
  | cons p ps ih =>
    cases vs with
    | nil => simp [overlay_nil]
    | cons v vs =>
      rw [overlay_cons_cons]
      cases j with
      | zero => simp
      | succ j => simp [ih]

theorem decodePasses_eq (encoded : EncodedBlock) (block_size : Int) :
    decodePasses encoded block_size
      = if (channelValues encoded.y).length ≤ (block_size * block_size).toNat ∧
           (channelValues encoded.cr).length ≤ (block_size * block_size).toNat ∧
           (channelValues encoded.cb).length ≤ (block_size * block_size).toNat then
          .ok ((List.range (block_size * block_size).toNat).map (decodedPixel encoded))
        else .error (.oobWrite ((block_size * block_size).toNat : Int)) := by
  unfold decodePasses
  simp only [bind, Except.bind, decodeChannel_eq, List.length_replicate]
  by_cases hy : (channelValues encoded.y).length ≤ (block_size * block_size).toNat
  · simp only [hy, if_true, overlay_length, List.length_replicate, true_and]
    by_cases hcr : (channelValues encoded.cr).length ≤ (block_size * block_size).toNat
    · simp only [hcr, if_true, overlay_length, List.length_replicate, true_and]
      by_cases hcb : (channelValues encoded.cb).length ≤ (block_size * block_size).toNat
      · simp only [hcb, if_true]
        congr 1
        apply List.ext_getElem?
        intro j
        simp only [overlay_getElem?, List.getElem?_map, List.getElem?_range,
          List.getElem?_replicate]
        by_cases hj : j < (block_size * block_size).toNat
        · simp only [hj, if_true, Option.map_some', List.getElem?_range hj, decodedPixel]
          simp only [List.getD_eq_getElem?_getD]
          cases (channelValues encoded.y)[j]? <;> cases (channelValues encoded.cr)[j]? <;>
            cases (channelValues encoded.cb)[j]? <;> simp [setY, setCr, setCb]
        · have : (List.range (block_size * block_size).toNat)[j]? = none := by
            apply List.getElem?_eq_none; simp; omega
          simp [hj, this]
      · simp only [hcb, if_false]
    · simp only [hcr, if_false, false_and]
  · simp only [hy, if_false, false_and]

theorem decodePasses_ok (encoded : EncodedBlock) (block_size : Int)
    (hy : (channelValues encoded.y).length ≤ (block_size * block_size).toNat)
    (hcr : (channelValues encoded.cr).length ≤ (block_size * block_size).toNat)
    (hcb : (channelValues encoded.cb).length ≤ (block_size * block_size).toNat) :
    decodePasses encoded block_size
      = .ok ((List.range (block_size * block_size).toNat).map (decodedPixel encoded)) := by
  rw [decodePasses_eq]; simp [hy, hcr, hcb]

theorem expandTuples_length (tbl : List (Int × Dbl)) (tups : List RleTuple) :
    (expandTuples tbl tups).length = runTotal tups := by
  induction tups with
  | nil => simp [expandTuples, runTotal]
  | cons t ts ih =>
    rw [expandTuples_cons, List.length_append, ih]
    simp [runTotal]

theorem expandTuples_append (tbl : List (Int × Dbl)) (a b : List RleTuple) :
    expandTuples tbl (a ++ b) = expandTuples tbl a ++ expandTuples tbl b := by
  simp [expandTuples]

/-! ### Runs: expansion and counts -/

theorem expand_runTuples (enc : List (Dbl × Int)) (dec : List (Int × Dbl)) (rest : List Dbl) :
    ∀ (cur : Dbl) (run : Int),
      (∀ v ∈ cur :: rest, v ≠ Dbl.negZero) →
      (∀ v ∈ cur :: rest, (mapIndex id posZero dec (codeOf enc v)).1 = v) →
      0 ≤ run → run + rest.length ≤ 127 →
      expandTuples dec (runTuples enc cur run rest)
        = List.replicate run.toNat cur ++ rest := by
  induction rest with
  | nil =>
    intro cur run _ hd h0 h1
    simp only [runTuples, expandTuples_cons]
    rw [hd cur (by simp), toChar_of_le h0 (by simpa using h1)]
    simp [expandTuples]
  | cons x xs ih =>
    intro cur run hn hd h0 h1
    simp only [List.length_cons, Nat.cast_add, Nat.cast_one] at h1
    have hx0 : x ≠ Dbl.negZero := hn x (by simp)
    have hc0 : cur ≠ Dbl.negZero := hn cur (by simp)
    by_cases hx : Dbl.eq x cur = true
    · have hxc : x = cur := (Dbl.eq_iff hx0 hc0).1 hx
      simp only [runTuples, hx, if_true]
      rw [ih cur (run + 1) (fun v hv => hn v (by simp at hv ⊢; tauto))
        (fun v hv => hd v (by simp at hv ⊢; tauto)) (by omega) (by omega)]
      have : (run + 1).toNat = run.toNat + 1 := by omega
      rw [this, List.replicate_succ', hxc]
      simp
    · simp only [runTuples, hx, Bool.false_eq_true, if_false, expandTuples_cons]
      rw [ih x 1 (fun v hv => hn v (by simp at hv ⊢; tauto))
        (fun v hv => hd v (by simp at hv ⊢; tauto)) (by omega) (by omega)]
      rw [hd cur (by simp), toChar_of_le h0 (by omega)]
      simp

theorem runTuples_counts (enc : List (Dbl × Int)) (rest : List Dbl) :
    ∀ (cur : Dbl) (run : Int), 1 ≤ run → run + rest.length ≤ 127 →
      ((runTuples enc cur run rest).map (fun t => t.count)).sum = run + rest.length ∧
      ∀ t ∈ runTuples enc cur run rest, 1 ≤ t.count := by
  induction rest with
  | nil =>
    intro cur run h0 h1
    simp only [runTuples, List.map_cons, List.map_nil, List.sum_cons, List.sum_nil,
      List.mem_singleton]
    rw [toChar_of_le (by omega) (by simpa using h1)]
    refine ⟨by simp, ?_⟩
    intro t ht; rw [ht]; exact h0
  | cons x xs ih =>
    intro cur run h0 h1
    simp only [List.length_cons, Nat.cast_add, Nat.cast_one] at h1 ⊢
    by_cases hx : Dbl.eq x cur = true
    · simp only [runTuples, hx, if_true]
      obtain ⟨h2, h3⟩ := ih cur (run + 1) (by omega) (by omega)
      exact ⟨by rw [h2]; omega, h3⟩
    · simp only [runTuples, hx, Bool.false_eq_true, if_false, List.map_cons, List.sum_cons,
        List.mem_cons]
      obtain ⟨h2, h3⟩ := ih x 1 (by omega) (by omega)
      rw [h2, toChar_of_le (by omega) (by omega)]
      refine ⟨by omega, ?_⟩
      rintro t (ht | ht)
      · rw [ht]; exact h0
      · exact h3 t ht

/-! ### `RLE` on blocks of at least two pixels -/

theorem extractValue_eq (p : PixelYcbcr) (chan : Int) :
    extractValue p chan
      = normZero (if chan = COLOR_Y then p.y else if chan = COLOR_CR then p.cr else p.cb) := by
  unfold extractValue
  simp only
  generalize (if chan = COLOR_Y then p.y else if chan = COLOR_CR then p.cr else p.cb) = val
  cases val with
  | negZero => simp [Dbl.eq, normZero]
  | val z =>
    by_cases hz : z = 0
    · simp [Dbl.eq, Dbl.key, normZero, hz, posZero]
    · simp [Dbl.eq, Dbl.key, normZero, hz]

theorem buildTableSeq_find (block : List PixelYcbcr) (chan bs : Int) (v : Dbl)
    (hv : v ∈ (extractChannel block chan).drop 1) :
    ∃ i : Nat, (codeOrder (extractChannel block chan))[i]? = some v ∧
      mapFind Dbl.key (buildTableSeq block chan bs).encode_table v = some (toChar i) := by
  have hn := extractChannel_ne_negZero block chan
  have hmem := (mem_codeOrder _ hn v).2 hv
  obtain ⟨i, hi⟩ := List.mem_iff_getElem?.1 hmem
  refine ⟨i, hi, ?_⟩
  rw [(buildTableSeq_tables block chan bs).1]
  exact (assign_enc _ (fun x hx => hn x (List.mem_of_mem_drop ((mem_codeOrder _ hn x).1 hx)))
    (codeOrder_nodup _ hn)).2.2 i v hi

theorem buildTableSeq_decode (block : List PixelYcbcr) (chan bs : Int) (v : Dbl)
    (hk : ((extractChannel block chan).drop 1).dedup.length ≤ 256)
    (hv : v ∈ (extractChannel block chan).drop 1) :
    (mapIndex id posZero (buildTableSeq block chan bs).decode_table
      (codeOf (buildTableSeq block chan bs).encode_table v)).1 = v := by
  obtain ⟨i, hi, hf⟩ := buildTableSeq_find block chan bs v hv
  have hn := extractChannel_ne_negZero block chan
  have hd := (assign_dec (codeOrder (extractChannel block chan))
    (by rw [codeOrder_length _ hn]; exact hk)).2.2 i v hi
  rw [← (buildTableSeq_tables block chan bs).2] at hd
  simp [codeOf, mapIndex_hit _ _ _ _ _ hf, mapIndex_hit _ _ _ _ _ hd]

theorem encodeValues_buildTableSeq (block : List PixelYcbcr) (chan bs : Int)
    (h : 2 ≤ block.length) :
    ∃ dc a rest, extractChannel block chan = dc :: a :: rest ∧
      encodeValues block (buildTableSeq block chan bs) chan
        = .ok { dc_val := dc,
                encoded := runTuples (buildTableSeq block chan bs).encode_table a 1 rest,
                decode_table := (buildTableSeq block chan bs).decode_table,
                encode_table := (buildTableSeq block chan bs).encode_table } := by
  have hl : (extractChannel block chan).length = block.length := by simp [extractChannel]
  match hvals : extractChannel block chan with
  | [] => rw [hvals] at hl; simp at hl; omega
  | [_] => rw [hvals] at hl; simp at hl; omega
  | dc :: a :: rest =>
    refine ⟨dc, a, rest, rfl, ?_⟩
    have := encodeValues_eq block (buildTableSeq block chan bs) chan dc a rest hvals (by
      intro v hv
      obtain ⟨i, _, hf⟩ := buildTableSeq_find block chan bs v (by rw [hvals]; simpa using hv)
      exact ⟨_, hf⟩)
    rw [this]
    simp [buildTableSeq]

theorem RLESeq_eq (block : List PixelYcbcr) (bs : Int) (h : 2 ≤ block.length) :
    ∃ ey ecr ecb, RLESeq block bs = .ok { y := ey, cr := ecr, cb := ecb } ∧
      encodeValues block (buildTableSeq block COLOR_Y bs) COLOR_Y = .ok ey ∧
      encodeValues block (buildTableSeq block COLOR_CR bs) COLOR_CR = .ok ecr ∧
      encodeValues block (buildTableSeq block COLOR_CB bs) COLOR_CB = .ok ecb := by
  obtain ⟨_, _, _, _, hy⟩ := encodeValues_buildTableSeq block COLOR_Y bs h
  obtain ⟨_, _, _, _, hcr⟩ := encodeValues_buildTableSeq block COLOR_CR bs h
  obtain ⟨_, _, _, _, hcb⟩ := encodeValues_buildTableSeq block COLOR_CB bs h
  refine ⟨_, _, _, ?_, hy, hcr, hcb⟩
  simp only [RLESeq, hy, hcr, hcb, bind, Except.bind, pure, Except.pure]

theorem channelValues_encode (block : List PixelYcbcr) (chan bs : Int) (e : EncodedBlockColor)
    (h : 2 ≤ block.length) (hsmall : block.length ≤ 128)
    (he : encodeValues block (buildTableSeq block chan bs) chan = .ok e) :
    channelValues e = extractChannel block chan := by
  obtain ⟨dc, a, rest, hvals, henc⟩ := encodeValues_buildTableSeq block chan bs h
  rw [henc] at he
  injection he with he
  subst he
  have hl : (extractChannel block chan).length = block.length := by simp [extractChannel]
  rw [hvals] at hl
  simp only [List.length_cons] at hl
  have hn := extractChannel_ne_negZero block chan
  have hk : ((extractChannel block chan).drop 1).dedup.length ≤ 256 := by
    have h1 := List.Sublist.length_le (List.dedup_sublist ((extractChannel block chan).drop 1))
    rw [hvals] at h1
    simp only [List.drop_succ_cons, List.drop_zero, List.length_cons] at h1
    rw [hvals]; simp only [List.drop_succ_cons, List.drop_zero]
    omega
  simp only [channelValues]
  rw [expand_runTuples _ _ rest a 1
    (fun v hv => hn v (by rw [hvals]; simp at hv ⊢; tauto))
    (fun v hv => buildTableSeq_decode block chan bs v hk (by rw [hvals]; simpa using hv))
    (by omega) (by omega)]
  rw [hvals]; simp

/-! ### The round trip and the tables when one thread runs the counting loop -/

theorem mapFind_of_mem {κ ν : Type} (r : κ → Int) (m : List (κ × ν)) (k : κ) (v : ν)
    (hs : mapSorted r m) (h : (k, v) ∈ m) : mapFind r m k = some v := by
  induction m with
  | nil => simp at h
  | cons q m ih =>
    obtain ⟨a, b⟩ := q
    unfold mapSorted at hs ih
    rw [List.pairwise_cons] at hs
    simp only [List.mem_cons, Prod.mk.injEq] at h
    rcases h with ⟨h1, h2⟩ | h
    · simp [mapFind, h1, h2]
    · have := hs.1 (k, v) h
      have hne : r a ≠ r k := by simp at this; omega
      simp [mapFind, hne, ih hs.2 h]

theorem block_length_bounds (block : List PixelYcbcr) (block_size : Int)
    (hbs : 2 ≤ block_size) (hlen : (block.length : Int) = block_size * block_size)
    (hsmall : block_size * block_size - 1 ≤ 127) :
    2 ≤ block.length ∧ block.length ≤ 128 := by
  have h4 : 4 ≤ block_size * block_size := by nlinarith
  constructor <;> omega

theorem decodedPixel_encode (block : List PixelYcbcr) (e : EncodedBlock)
    (hy : channelValues e.y = extractChannel block COLOR_Y)
    (hcr : channelValues e.cr = extractChannel block COLOR_CR)
    (hcb : channelValues e.cb = extractChannel block COLOR_CB) :
    (List.range block.length).map (decodedPixel e) = block.map normPixel := by
  apply List.ext_getElem?
  intro j
  simp only [List.getElem?_map]
  by_cases hj : j < block.length
  · rw [List.getElem?_range hj, List.getElem?_eq_getElem hj]
    simp only [Option.map_some', decodedPixel, hy, hcr, hcb, List.getD_eq_getElem?_getD,
      extractChannel, List.getElem?_map, List.getElem?_eq_getElem hj, Option.getD_some,
      extractValue_eq, normPixel]
    simp [COLOR_Y, COLOR_CR, COLOR_CB]
  · have h1 : (List.range block.length)[j]? = none := by
      apply List.getElem?_eq_none; simp; omega
    have h2 : block[j]? = none := by
      apply List.getElem?_eq_none; omega
    simp [h1, h2]

theorem RLESeq_decodePasses_roundtrip (block : List PixelYcbcr) (block_size : Int)
    (hbs : 2 ≤ block_size) (hlen : (block.length : Int) = block_size * block_size)
    (hsmall : block_size * block_size - 1 ≤ 127) :
    ∃ e, RLESeq block block_size = .ok e ∧
      decodePasses e block_size = .ok (block.map normPixel) := by
  obtain ⟨h2, h128⟩ := block_length_bounds block block_size hbs hlen hsmall
  obtain ⟨ey, ecr, ecb, hR, hy, hcr, hcb⟩ := RLESeq_eq block block_size h2
  have vy := channelValues_encode block COLOR_Y block_size ey h2 h128 hy
  have vcr := channelValues_encode block COLOR_CR block_size ecr h2 h128 hcr
  have vcb := channelValues_encode block COLOR_CB block_size ecb h2 h128 hcb
  refine ⟨_, hR, ?_⟩
  have hn : (block_size * block_size).toNat = block.length := by omega
  have hl : ∀ chan, (extractChannel block chan).length = block.length := by
    intro chan; simp [extractChannel]
  rw [decodePasses_ok _ _ (by simp only [vy, hl, hn]; exact le_refl _)
    (by simp only [vcr, hl, hn]; exact le_refl _)
    (by simp only [vcb, hl, hn]; exact le_refl _), hn]
  exact congrArg _ (decodedPixel_encode block _ vy vcr vcb)

theorem buildTableSeq_enc_facts (block : List PixelYcbcr) (chan bs : Int) :
    mapSorted Dbl.key (buildTableSeq block chan bs).encode_table ∧
    (mapKeys (buildTableSeq block chan bs).encode_table).Perm
      (codeOrder (extractChannel block chan)) ∧
    ∀ (i : Nat) (v : Dbl), (codeOrder (extractChannel block chan))[i]? = some v →
      mapFind Dbl.key (buildTableSeq block chan bs).encode_table v = some (toChar i) := by
  have hn := extractChannel_ne_negZero block chan
  rw [(buildTableSeq_tables block chan bs).1]
  exact assign_enc _
    (fun x hx => hn x (List.mem_of_mem_drop ((mem_codeOrder _ hn x).1 hx)))
    (codeOrder_nodup _ hn)

theorem extractChannel_rampBlock (n : Nat) :
    extractChannel (rampBlock n) COLOR_Y = (List.range n).map (fun (i : Nat) => Dbl.val i) := by
  simp only [extractChannel, rampBlock, List.map_map]
  apply List.map_congr_left
  intro i _
  simp [extractValue_eq, normZero]

theorem encodeValues_run_sum_seq (block : List PixelYcbcr) (block_size chan : Int)
    (hbs : 2 ≤ block_size) (hlen : (block.length : Int) = block_size * block_size)
    (hsmall : block_size * block_size - 1 ≤ 127) :
    ∃ color, encodeValues block (buildTableSeq block chan block_size) chan = .ok color ∧
      (color.encoded.map (fun t => t.count)).sum = block_size * block_size - 1 ∧
      ∀ t ∈ color.encoded, 1 ≤ t.count := by
  obtain ⟨h2, h128⟩ := block_length_bounds block block_size hbs hlen hsmall
  obtain ⟨dc, a, rest, hvals, henc⟩ := encodeValues_buildTableSeq block chan block_size h2
  have hl : (extractChannel block chan).length = block.length := by simp [extractChannel]
  rw [hvals] at hl
  simp only [List.length_cons] at hl
  obtain ⟨hsum, hpos⟩ := runTuples_counts (buildTableSeq block chan block_size).encode_table
    rest a 1 (le_refl _) (by omega)
  exact ⟨_, henc, by rw [hsum]; omega, hpos⟩

theorem runTuples_const (enc : List (Dbl × Int)) (v : Dbl) (rest : List Dbl)
    (h : ∀ x ∈ rest, x = v) (run : Int) :
    runTuples enc v run rest = [⟨codeOf enc v, toChar (run + rest.length)⟩] := by
  induction rest generalizing run with
  | nil => simp [runTuples]
  | cons x xs ih =>
    have hx : x = v := h x (by simp)
    subst hx
    have he : Dbl.eq x x = true := by simp [Dbl.eq]
    simp only [runTuples, he, if_true]
    rw [ih (fun y hy => h y (by simp [hy]))]
    simp only [List.length_cons, Nat.cast_add, Nat.cast_one]
    congr 3; omega

theorem nodup_all_eq {α : Type} (l : List α) (v : α) (hd : l.Nodup) (hv : v ∈ l)
    (h : ∀ x ∈ l, x = v) : l = [v] := by
  match l, hd, hv, h with
  | [a], _, hv, _ => simp at hv; simp [hv]
  | a :: b :: l, hd, _, h =>
    exfalso
    have ha : a = v := h a (by simp)
    have hb : b = v := h b (by simp)
    rw [List.nodup_cons] at hd
    exact hd.1 (by simp [ha, hb])

theorem encodeValues_degenerate (block : List PixelYcbcr) (chan bs : Int) (v : Dbl)
    (h2 : 2 ≤ block.length) (hsame : ∀ x ∈ (extractChannel block chan).drop 1, x = v) :
    ∃ dc, (extractChannel block chan).head? = some dc ∧
      encodeValues block (buildTableSeq block chan bs) chan
        = .ok { dc_val := dc, encoded := [⟨0, toChar ((block.length : Int) - 1)⟩],
                decode_table := [(0, v)], encode_table := [(v, 0)] } := by
  obtain ⟨dc, a, rest, hvals, henc⟩ := encodeValues_buildTableSeq block chan bs h2
  have hl : (extractChannel block chan).length = block.length := by simp [extractChannel]
  rw [hvals] at hl hsame
  simp only [List.length_cons] at hl
  simp only [List.drop_succ_cons, List.drop_zero] at hsame
  have ha : a = v := hsame a (by simp)
  subst ha
  have hn := extractChannel_ne_negZero block chan
  have hord : codeOrder (extractChannel block chan) = [a] := by
    apply nodup_all_eq _ _ (codeOrder_nodup _ hn)
    · rw [mem_codeOrder _ hn, hvals]; simp
    · intro x hx
      rw [mem_codeOrder _ hn, hvals] at hx
      exact hsame x (by simpa using hx)
  have henc_t : (buildTableSeq block chan bs).encode_table = [(a, 0)] := by
    rw [(buildTableSeq_tables block chan bs).1, hord]
    simp [assignStep, mapSet]
  have hdec_t : (buildTableSeq block chan bs).decode_table = [(0, a)] := by
    rw [(buildTableSeq_tables block chan bs).2, hord]
    simp [assignStep, mapSet]
  have hcode : codeOf [(a, (0 : Int))] a = 0 := by
    simp [codeOf, mapIndex, mapFind]
  refine ⟨dc, by rw [hvals]; rfl, ?_⟩
  rw [henc, runTuples_const _ a rest (fun x hx => hsame x (by simp [hx])), henc_t, hdec_t,
    hcode]
  congr 5
  omega

theorem extractChannel_flatBlock (n : Nat) (z chan : Int) :
    extractChannel (flatBlock n z) chan = List.replicate n (Dbl.val z) := by
  simp only [extractChannel, flatBlock, List.map_replicate, extractValue_eq]
  congr 1
  split_ifs <;> rfl

theorem encodeValues_flatBlock (n : Nat) (z chan bs : Int) (h2 : 2 ≤ n) :
    encodeValues (flatBlock n z) (buildTableSeq (flatBlock n z) chan bs) chan
      = .ok { dc_val := .val z, encoded := [⟨0, toChar ((n : Int) - 1)⟩],
              decode_table := [(0, .val z)], encode_table := [(.val z, 0)] } := by
  have hlen : (flatBlock n z).length = n := by simp [flatBlock]
  obtain ⟨dc, hdc, henc⟩ := encodeValues_degenerate (flatBlock n z) chan bs (.val z)
    (by rw [hlen]; exact h2) (by
      intro x hx
      rw [extractChannel_flatBlock] at hx
      exact List.eq_of_mem_replicate (List.mem_of_mem_drop hx))
  rw [extractChannel_flatBlock] at hdc
  have hdc' : dc = .val z := by
    cases n with
    | zero => omega
    | succ m => simpa [List.replicate_succ] using hdc.symm
  rw [henc, hdc', hlen]

theorem RLESeq_flatBlock (n : Nat) (z bs : Int) (h2 : 2 ≤ n) :
    RLESeq (flatBlock n z) bs
      = .ok { y := { dc_val := .val z, encoded := [⟨0, toChar ((n : Int) - 1)⟩],
                     decode_table := [(0, .val z)], encode_table := [(.val z, 0)] }
              cr := { dc_val := .val z, encoded := [⟨0, toChar ((n : Int) - 1)⟩],
                      decode_table := [(0, .val z)], encode_table := [(.val z, 0)] }
              cb := { dc_val := .val z, encoded := [⟨0, toChar ((n : Int) - 1)⟩],
                      decode_table := [(0, .val z)], encode_table := [(.val z, 0)] } } := by
  simp only [RLESeq, encodeValues_flatBlock _ _ _ _ h2, bind, Except.bind, pure, Except.pure]

theorem RLESeq_decodePasses_roundtrip_fails_at_12 :
    (RLESeq (flatBlock 144 5) 12 >>= fun e => decodePasses e 12)
        = .ok (⟨.val 5, .val 5, .val 5⟩ :: flatBlock 143 0) ∧
    (RLESeq (flatBlock 144 5) 12 >>= fun e => decodePasses e 12)
        ≠ .ok ((flatBlock 144 5).map normPixel) := by
  rw [RLESeq_flatBlock 144 5 12 (by decide)]
  decide

theorem encodeValues_run_sum_wraps_seq :
    (encodeValues (flatBlock 144 5) (buildTableSeq (flatBlock 144 5) COLOR_Y 12) COLOR_Y).map
      (fun color => color.encoded.map (fun t => t.count)) = .ok [-113] := by
  rw [encodeValues_flatBlock 144 5 COLOR_Y 12 (by decide)]
  decide

theorem RLESeq_degenerate_block (block : List PixelYcbcr) (block_size chan : Int) (v : Dbl)
    (hchan : chan = COLOR_Y ∨ chan = COLOR_CR ∨ chan = COLOR_CB)
    (hbs : 2 ≤ block_size) (hlen : (block.length : Int) = block_size * block_size)
    (hsmall : block_size * block_size - 1 ≤ 127)
    (hsame : ∀ x ∈ (extractChannel block chan).drop 1, x = v) :
    ∃ e, RLESeq block block_size = .ok e ∧
      (channelOf e chan).encoded = [⟨0, block_size * block_size - 1⟩] ∧
      (channelOf e chan).encode_table = [(v, 0)] ∧
      (channelOf e chan).decode_table = [(0, v)] := by
  obtain ⟨h2, h128⟩ := block_length_bounds block block_size hbs hlen hsmall
  obtain ⟨ey, ecr, ecb, hR, hy, hcr, hcb⟩ := RLESeq_eq block block_size h2
  have hsel : encodeValues block (buildTableSeq block chan block_size) chan
      = .ok (channelOf ⟨ey, ecr, ecb⟩ chan) := by
    rcases hchan with h | h | h <;> subst h
    · simpa [channelOf] using hy
    · simpa [channelOf, COLOR_CR, COLOR_Y] using hcr
    · simpa [channelOf, COLOR_CR, COLOR_Y, COLOR_CB] using hcb
  obtain ⟨dc, _, henc⟩ := encodeValues_degenerate block chan block_size v h2 hsame
  rw [henc] at hsel
  injection hsel with hsel
  refine ⟨_, hR, ?_⟩
  rw [← hsel]
  refine ⟨?_, rfl, rfl⟩
  simp only
  rw [toChar_of_le (by omega) (by omega), hlen]

theorem RLESeq_degenerate_block_wraps_at_12 :
    (RLESeq (flatBlock 144 5) 12).map (fun e => (channelOf e COLOR_Y).encoded)
      = .ok [⟨0, -113⟩] := by
  rw [RLESeq_flatBlock 144 5 12 (by decide)]
  decide

/-! ### The channel passes on missing codes and length mismatches -/

theorem channelValues_length (channel : EncodedBlockColor) :
    (channelValues channel).length = runTotal channel.encoded + 1 := by
  simp [channelValues, expandTuples_length]

theorem channelValue_decodedPixel (encoded : EncodedBlock) (chan : Int) (j : Nat)
    (hchan : chan = COLOR_Y ∨ chan = COLOR_CR ∨ chan = COLOR_CB) :
    channelValue (decodedPixel encoded j) chan
      = (channelValues (channelOf encoded chan)).getD j posZero := by
  rcases hchan with h | h | h <;> subst h <;>
    simp [channelValue, decodedPixel, channelOf, COLOR_Y, COLOR_CR, COLOR_CB]

theorem decodePasses_getElem? (encoded : EncodedBlock) (block_size : Int)
    (hy : runTotal encoded.y.encoded + 1 ≤ (block_size * block_size).toNat)
    (hcr : runTotal encoded.cr.encoded + 1 ≤ (block_size * block_size).toNat)
    (hcb : runTotal encoded.cb.encoded + 1 ≤ (block_size * block_size).toNat) :
    ∃ result, decodePasses encoded block_size = .ok result ∧
      result.length = (block_size * block_size).toNat ∧
      ∀ chan, chan = COLOR_Y ∨ chan = COLOR_CR ∨ chan = COLOR_CB →
        ∀ j, j < (block_size * block_size).toNat →
          (result[j]?).map (fun p => channelValue p chan)
            = some ((channelValues (channelOf encoded chan)).getD j posZero) := by
  refine ⟨_, decodePasses_ok encoded block_size (by rw [channelValues_length]; exact hy)
    (by rw [channelValues_length]; exact hcr) (by rw [channelValues_length]; exact hcb),
    by simp, ?_⟩
  intro chan hchan j hj
  rw [List.getElem?_map, List.getElem?_range hj]
  simp only [Option.map_some']
  rw [channelValue_decodedPixel _ _ _ hchan]

theorem decodePasses_missing_code (encoded : EncodedBlock) (block_size chan : Int)
    (pre post : List RleTuple) (t : RleTuple)
    (hchan : chan = COLOR_Y ∨ chan = COLOR_CR ∨ chan = COLOR_CB)
    (htups : (channelOf encoded chan).encoded = pre ++ t :: post)
    (hmiss : mapFind id (channelOf encoded chan).decode_table t.encoded = none)
    (hy : runTotal encoded.y.encoded + 1 ≤ (block_size * block_size).toNat)
    (hcr : runTotal encoded.cr.encoded + 1 ≤ (block_size * block_size).toNat)
    (hcb : runTotal encoded.cb.encoded + 1 ≤ (block_size * block_size).toNat) :
    ∃ result, decodePasses encoded block_size = .ok result ∧
      ∀ i, i < t.count.toNat →
        (result[1 + runTotal pre + i]?).map (fun p => channelValue p chan)
          = some posZero := by
  obtain ⟨result, hres, _, hval⟩ := decodePasses_getElem? encoded block_size hy hcr hcb
  refine ⟨result, hres, ?_⟩
  intro i hi
  have htot : runTotal (channelOf encoded chan).encoded + 1 ≤ (block_size * block_size).toNat := by
    rcases hchan with h | h | h <;> subst h
    · simpa [channelOf] using hy
    · simpa [channelOf, COLOR_CR, COLOR_Y] using hcr
    · simpa [channelOf, COLOR_CR, COLOR_Y, COLOR_CB] using hcb
  have hrt : runTotal (pre ++ t :: post) = runTotal pre + t.count.toNat + runTotal post := by
    simp [runTotal]; omega
  rw [htups, hrt] at htot
  rw [hval chan hchan _ (by omega)]
  congr 1
  have hv : (mapIndex id posZero (channelOf encoded chan).decode_table t.encoded).1 = posZero := by
    simp [mapIndex, hmiss]
  simp only [channelValues, htups, expandTuples_append, expandTuples_cons, hv,
    List.getD_eq_getElem?_getD]
  rw [show 1 + runTotal pre + i = (runTotal pre + i) + 1 by omega, List.getElem?_cons_succ,
    List.getElem?_append_right (by rw [expandTuples_length]; omega),
    List.getElem?_append_left (by rw [expandTuples_length, List.length_replicate]; omega)]
  rw [List.getElem?_replicate]
  simp only [expandTuples_length, Nat.add_sub_cancel_left]
  split_ifs
  all_goals rfl

theorem decodePasses_length_mismatch (encoded : EncodedBlock) (block_size : Int) :
    (runTotal encoded.y.encoded + 1 ≤ (block_size * block_size).toNat ∧
      runTotal encoded.cr.encoded + 1 ≤ (block_size * block_size).toNat ∧
      runTotal encoded.cb.encoded + 1 ≤ (block_size * block_size).toNat →
      ∃ result, decodePasses encoded block_size = .ok result ∧
        result.length = (block_size * block_size).toNat ∧
        ∀ chan, chan = COLOR_Y ∨ chan = COLOR_CR ∨ chan = COLOR_CB →
          ∀ j, runTotal (channelOf encoded chan).encoded + 1 ≤ j →
            j < (block_size * block_size).toNat →
            (result[j]?).map (fun p => channelValue p chan) = some posZero) ∧
    (¬ (runTotal encoded.y.encoded + 1 ≤ (block_size * block_size).toNat ∧
      runTotal encoded.cr.encoded + 1 ≤ (block_size * block_size).toNat ∧
      runTotal encoded.cb.encoded + 1 ≤ (block_size * block_size).toNat) →
      decodePasses encoded block_size
        = .error (.oobWrite ((block_size * block_size).toNat : Int))) := by
  constructor
  · rintro ⟨hy, hcr, hcb⟩
    obtain ⟨result, hres, hlen, hval⟩ := decodePasses_getElem? encoded block_size hy hcr hcb
    refine ⟨result, hres, hlen, ?_⟩
    intro chan hchan j hj hjn
    rw [hval chan hchan j hjn]
    congr 1
    rw [List.getD_eq_getElem?_getD, List.getElem?_eq_none (by
      rw [channelValues_length]; exact hj)]
    rfl
  · intro hnot
    rw [decodePasses_eq]
    simp only [channelValues_length]
    rw [if_neg hnot]

/-! ### `writeToBuffer` -/

theorem writeAt_append {α : Type} (pre : List α) (p : α) (post : List α) (a : α) :
    writeAt (pre ++ p :: post) pre.length a = .ok (pre ++ a :: post) := by
  simp [writeAt]

theorem writeAt_oob {α : Type} (v : List α) (a : α) :
    writeAt v v.length a = .error (.oobWrite (v.length : Int)) := by
  simp [writeAt]

theorem writeTuples_eq (ts : List RleTuple) :
    ∀ (pre post : List RleTuple),
      writeTuples (pre ++ post) pre.length ts
        = if ts.length ≤ post.length then .ok (pre ++ ts ++ post.drop ts.length)
          else .error (.oobWrite ((pre.length + post.length : Nat) : Int)) := by
  induction ts with
  | nil => intro pre post; simp [writeTuples]
  | cons t ts ih =>
    intro pre post
    cases post with
    | nil =>
      simp only [writeTuples, List.append_nil, writeAt_oob]
      simp
    | cons p post =>
      have hih := ih (pre ++ [t]) post
      simp only [List.length_append, List.length_singleton, List.append_assoc,
        List.singleton_append] at hih
      simp only [writeTuples, writeAt_append, hih, List.length_cons, add_le_add_iff_right,
        List.drop_succ_cons, List.cons_append, List.append_assoc]
      by_cases hc : ts.length ≤ post.length
      · simp only [hc, if_true]
      · simp only [hc, if_false]
        congr 2; push_cast; omega

theorem writeTable_eq (tbl : List (Dbl × Int)) :
    ∀ (cpre cpost : List Int) (dpre dpost : List Dbl), cpre.length = dpre.length →
      writeTable (cpre ++ cpost) (dpre ++ dpost) cpre.length tbl
        = if tbl.length ≤ cpost.length ∧ tbl.length ≤ dpost.length then
            .ok (cpre ++ tbl.map Prod.snd ++ cpost.drop tbl.length,
                 dpre ++ tbl.map Prod.fst ++ dpost.drop tbl.length)
          else .error (.oobWrite ((cpre.length + min cpost.length dpost.length : Nat) : Int)) := by
  induction tbl with
  | nil => intro cpre cpost dpre dpost _; simp [writeTable]
  | cons kv tbl ih =>
    obtain ⟨d, c⟩ := kv
    intro cpre cpost dpre dpost hl
    cases cpost with
    | nil =>
      simp only [writeTable, List.append_nil, writeAt_oob]
      simp
    | cons c0 cpost =>
      cases dpost with
      | nil =>
        have hw : writeAt dpre cpre.length d = .error (.oobWrite (cpre.length : Int)) := by
          rw [hl]; exact writeAt_oob _ _
        simp only [writeTable, writeAt_append, List.append_nil, hw]
        simp
      | cons d0 dpost =>
        have hih := ih (cpre ++ [c]) cpost (dpre ++ [d]) dpost (by simp [hl])
        simp only [List.length_append, List.length_singleton, List.append_assoc,
          List.singleton_append] at hih
        have hw : writeAt (dpre ++ d0 :: dpost) cpre.length d = .ok (dpre ++ d :: dpost) := by
          rw [hl]; exact writeAt_append _ _ _ _
        simp only [writeTable, writeAt_append, hw, hih, List.length_cons,
          add_le_add_iff_right, List.drop_succ_cons, List.cons_append, List.append_assoc,
          List.map_cons]
        by_cases hc : tbl.length ≤ cpost.length ∧ tbl.length ≤ dpost.length
        · simp only [hc, and_self, if_true]
        · simp only [hc, if_false]
          congr 2; push_cast; omega

theorem writeChannel_eq (rec : EncodedBlockColorNoPtr) (color : EncodedBlockColor) :
    writeChannel rec color
      = if color.encoded.length ≤ rec.encoded.length then
          if color.encode_table.length ≤ rec.char_vals.length ∧
             color.encode_table.length ≤ rec.double_vals.length then
            .ok { dc_val := rec.dc_val
                  encoded := color.encoded ++ rec.encoded.drop color.encoded.length
                  encoded_len := color.encoded.length
                  char_vals := color.encode_table.map Prod.snd
                    ++ rec.char_vals.drop color.encode_table.length
                  double_vals := color.encode_table.map Prod.fst
                    ++ rec.double_vals.drop color.encode_table.length
                  table_size := color.encode_table.length }
          else .error (.oobWrite ((min rec.char_vals.length rec.double_vals.length : Nat) : Int))
        else .error (.oobWrite (rec.encoded.length : Int)) := by
  have ht := writeTuples_eq color.encoded [] rec.encoded
  have hb := writeTable_eq color.encode_table [] rec.char_vals [] rec.double_vals rfl
  simp only [List.nil_append, List.length_nil, Nat.zero_add] at ht hb
  unfold writeChannel
  rw [ht, hb]
  by_cases h1 : color.encoded.length ≤ rec.encoded.length
  · simp only [h1, if_true]
    by_cases h2 : color.encode_table.length ≤ rec.char_vals.length ∧
        color.encode_table.length ≤ rec.double_vals.length
    · simp only [h2, and_self, if_true]
    · simp only [h2, if_false]
  · simp only [h1, if_false]

theorem readAt_of_toNat {α : Type} (v : List α) (i : Int) (a : α) (h0 : 0 ≤ i)
    (h : v[i.toNat]? = some a) : readAt v i = .ok a := by
  have := readAt_of_getElem? v i.toNat a h
  rwa [Int.toNat_of_nonneg h0] at this

/-- C9 (amended): `writeToBuffer` makes no capacity check.  For a valid index, it
completes when the tuple count and the table size of the selected channel are at
most the capacities of the record's arrays (also when they are equal to them); when
the tuple count exceeds the capacity of `encoded` it stores at the index equal to
that capacity, and when the tuples fit and the table size exceeds the capacity of
`char_vals` or `double_vals` it stores at the index equal to the smaller of these
capacities: an array element at an index >= capacity is written, nothing is
rejected. -/
theorem writeToBuffer_capacity (encodedBlockBuffer : List EncodedBlockNoPtr)
    (encodedBlocks : List EncodedBlock) (idx chan : Int) (slot : EncodedBlockNoPtr)
    (blk : EncodedBlock) (h0 : 0 ≤ idx)
    (hslot : encodedBlockBuffer[idx.toNat]? = some slot)
    (hblk : encodedBlocks[idx.toNat]? = some blk) :
    ((channelOf blk chan).encoded.length ≤ (recordOf slot chan).encoded.length ∧
      (channelOf blk chan).encode_table.length ≤ (recordOf slot chan).char_vals.length ∧
      (channelOf blk chan).encode_table.length ≤ (recordOf slot chan).double_vals.length →
      ∃ out, writeToBuffer encodedBlockBuffer encodedBlocks idx chan = .ok out) ∧
    ((recordOf slot chan).encoded.length < (channelOf blk chan).encoded.length →
      writeToBuffer encodedBlockBuffer encodedBlocks idx chan
        = .error (.oobWrite ((recordOf slot chan).encoded.length : Int))) ∧
    ((channelOf blk chan).encoded.length ≤ (recordOf slot chan).encoded.length ∧
      ((recordOf slot chan).char_vals.length < (channelOf blk chan).encode_table.length ∨
       (recordOf slot chan).double_vals.length < (channelOf blk chan).encode_table.length) →
      writeToBuffer encodedBlockBuffer encodedBlocks idx chan
        = .error (.oobWrite ((min (recordOf slot chan).char_vals.length
            (recordOf slot chan).double_vals.length : Nat) : Int))) := by
  have hb := readAt_of_toNat encodedBlocks idx blk h0 hblk
  have hs := readAt_of_toNat encodedBlockBuffer idx slot h0 hslot
  unfold writeToBuffer
  simp only [bind, Except.bind, hb, hs, pure, Except.pure]
  by_cases hY : chan = COLOR_Y
  · simp only [hY, if_true, channelOf, recordOf, writeChannel_eq]
    refine ⟨?_, ?_, ?_⟩
    · rintro ⟨h1, h2, h3⟩
      simp only [h1, h2, h3, and_self, if_true]
      exact ⟨_, rfl⟩
    · intro h1
      have h1' : ¬ blk.y.encoded.length ≤ slot.y.encoded.length := by omega
      simp only [h1', if_false]
    · rintro ⟨h1, h2⟩
      have h2' : ¬ (blk.y.encode_table.length ≤ slot.y.char_vals.length ∧
          blk.y.encode_table.length ≤ slot.y.double_vals.length) := by omega
      simp only [h1, h2', if_true, if_false]
  · by_cases hCr : chan = COLOR_CR
    · simp only [hCr, show ¬ COLOR_CR = COLOR_Y by decide, if_true, if_false, channelOf,
        recordOf, writeChannel_eq]
      refine ⟨?_, ?_, ?_⟩
      · rintro ⟨h1, h2, h3⟩
        simp only [h1, h2, h3, and_self, if_true]
        exact ⟨_, rfl⟩
      · intro h1
        have h1' : ¬ blk.cr.encoded.length ≤ slot.cr.encoded.length := by omega
        simp only [h1', if_false]
      · rintro ⟨h1, h2⟩
        have h2' : ¬ (blk.cr.encode_table.length ≤ slot.cr.char_vals.length ∧
            blk.cr.encode_table.length ≤ slot.cr.double_vals.length) := by omega
        simp only [h1, h2', if_true, if_false]
    · simp only [hY, hCr, if_false, channelOf, recordOf, writeChannel_eq]
      refine ⟨?_, ?_, ?_⟩
      · rintro ⟨h1, h2, h3⟩
        simp only [h1, h2, h3, and_self, if_true]
        exact ⟨_, rfl⟩
      · intro h1
        have h1' : ¬ blk.cb.encoded.length ≤ slot.cb.encoded.length := by omega
        simp only [h1', if_false]
      · rintro ⟨h1, h2⟩
        have h2' : ¬ (blk.cb.encode_table.length ≤ slot.cb.char_vals.length ∧
            blk.cb.encode_table.length ≤ slot.cb.double_vals.length) := by omega
        simp only [h1, h2', if_true, if_false]

/-- Witness of C9: the Cb channel of `sampleEncoded` has 3 tuples and fills a record
of capacity 3 exactly; the Y channel of `fourTupleBlock` has 4 tuples and makes
`writeToBuffer` store at index 3 of an array of capacity 3. -/
theorem writeToBuffer_capacity_witness :
    (∃ out, writeToBuffer [zeroSlot 3] [sampleEncoded] 0 COLOR_CB = .ok out) ∧
    writeToBuffer [zeroSlot 3] [fourTupleBlock] 0 COLOR_Y
      = .error (.oobWrite ((recordOf (zeroSlot 3) COLOR_Y).encoded.length : Int)) :=
  ⟨(writeToBuffer_capacity [zeroSlot 3] [sampleEncoded] 0 COLOR_CB (zeroSlot 3) sampleEncoded
      (by decide) (by decide) (by decide)).1 (by decide),
   (writeToBuffer_capacity [zeroSlot 3] [fourTupleBlock] 0 COLOR_Y (zeroSlot 3) fourTupleBlock
      (by decide) (by decide) (by decide)).2.1 (by decide)⟩

/-- Counterexample to C9 as stated: the Y channel of `fourTupleBlock` has 4 tuples,
the arrays of the slot have capacity 3, and `writeToBuffer` does not reject the
block: it copies the first three tuples and then stores at index 3. -/
theorem writeToBuffer_stores_beyond_capacity :
    (zeroSlot 3).y.encoded.length = 3 ∧ fourTupleBlock.y.encoded.length = 4 ∧
    writeToBuffer [zeroSlot 3] [fourTupleBlock] 0 COLOR_Y = .error (.oobWrite 3) := by
  decide

/-- C2 at its failing input: `sampleEncoded` (the `RLE` of `sampleBlock`, DC values
10, 20, 30) is written into a zeroed slot of capacity 3 with the three selectors and
read back.  `writeToBuffer` stores only `y.dc_val`, so the block read back has the
DC values 10, 0, 0: the Cr and Cb DC values are those the buffer held before. -/
theorem writeToBuffer_drops_cr_cb_dc :
    RLE (fun _ => singleThread) sampleBlock 2 = .ok sampleEncoded ∧
    (do
      let b ← writeToBuffer [zeroSlot 3] [sampleEncoded] 0 COLOR_Y
      let b ← writeToBuffer b [sampleEncoded] 0 COLOR_CR
      let b ← writeToBuffer b [sampleEncoded] 0 COLOR_CB
      let out ← convertBufferToEncodedBlocks b 1
      pure (out.map (fun (r : EncodedBlock) => (r.y.dc_val, r.cr.dc_val, r.cb.dc_val))))
      = .ok [(Dbl.val 10, Dbl.val 0, Dbl.val 0)] ∧
    (sampleEncoded.y.dc_val, sampleEncoded.cr.dc_val, sampleEncoded.cb.dc_val)
      = (Dbl.val 10, Dbl.val 20, Dbl.val 30) := by
  decide

/-! ### `extractChannel`, all-distinct blocks and the reads of `encodeValues` -/

theorem rampBlock_nodup (n : Nat) : ((extractChannel (rampBlock n) COLOR_Y).drop 1).Nodup := by
  rw [extractChannel_rampBlock]
  apply List.Nodup.sublist (List.drop_sublist 1 _)
  apply List.Nodup.map _ (List.nodup_range n)
  intro a b hab
  simpa using hab

theorem consRun_head (c : Dbl) (k : Nat) (rs : List (Dbl × Nat)) :
    ∃ k' rs', consRun c k rs = (c, k') :: rs' ∧ k ≤ k' := by
  match rs with
  | [] => exact ⟨k, [], rfl, le_refl _⟩
  | (v, l) :: rs =>
    by_cases h : c = v
    · subst h; exact ⟨k + l, rs, by simp [consRun], by omega⟩
    · exact ⟨k, (v, l) :: rs, by simp [consRun, h], le_refl _⟩

theorem consRun_consRun (c : Dbl) (k j : Nat) (rs : List (Dbl × Nat)) :
    consRun c k (consRun c j rs) = consRun c (k + j) rs := by
  match rs with
  | [] => simp [consRun]
  | (v, l) :: rs =>
    by_cases h : c = v
    · subst h; simp [consRun, Nat.add_assoc]
    · simp [consRun, h]

theorem consRun_of_ne (c x : Dbl) (k j : Nat) (rs : List (Dbl × Nat)) (h : c ≠ x) :
    consRun c k (consRun x j rs) = (c, k) :: consRun x j rs := by
  obtain ⟨k', rs', he, _⟩ := consRun_head x j rs
  rw [he]; simp [consRun, h]

/-- The maximal runs of a sequence expand to the sequence, every run has at least
one element, and two adjacent runs are of different values. -/
theorem maximalRuns_spec (l : List Dbl) :
    (maximalRuns l).flatMap (fun r => List.replicate r.2 r.1) = l ∧
    (∀ r ∈ maximalRuns l, 1 ≤ r.2 ∧ r.2 ≤ l.length ∧ r.1 ∈ l) ∧
    List.Chain' (fun r s : Dbl × Nat => r.1 ≠ s.1) (maximalRuns l) := by
  induction l with
  | nil => simp [maximalRuns]
  | cons x xs ih =>
    obtain ⟨h1, h2, h3⟩ := ih
    simp only [maximalRuns]
    match hR : maximalRuns xs with
    | [] =>
      rw [hR] at h1
      simp at h1
      subst h1
      simp [consRun]
    | (v, l) :: rs =>
      rw [hR] at h1 h2 h3
      by_cases h : x = v
      · subst h
        simp only [consRun, if_true, List.flatMap_cons] at h1 ⊢
        refine ⟨?_, ?_, ?_⟩
        · rw [← h1, Nat.add_comm, List.replicate_succ, List.cons_append]
        · intro r hr
          simp only [List.mem_cons] at hr
          rcases hr with hr | hr
          · have := h2 (x, l) (by simp)
            rw [hr]; simp; omega
          · have := h2 r (by simp [hr])
            simp only [List.length_cons, List.mem_cons]
            exact ⟨this.1, by omega, Or.inr this.2.2⟩
        · cases rs with
          | nil => exact List.chain'_singleton _
          | cons s rs =>
            rw [List.chain'_cons] at h3 ⊢
            exact h3
      · simp only [consRun, h, if_false, List.flatMap_cons] at h1 ⊢
        refine ⟨?_, ?_, ?_⟩
        · rw [h1]; simp
        · intro r hr
          simp only [List.mem_cons] at hr
          rcases hr with hr | hr
          · rw [hr]; simp
          · have := h2 r (by simpa using hr)
            simp only [List.length_cons, List.mem_cons]
            exact ⟨this.1, by omega, Or.inr this.2.2⟩
        · exact List.Chain'.cons h h3

theorem runTuples_eq_maximalRuns (tbl : List (Dbl × Int)) (rest : List Dbl) :
    ∀ (cur : Dbl) (k : Nat), (∀ v ∈ cur :: rest, v ≠ Dbl.negZero) →
      runTuples tbl cur (k : Int) rest
        = (consRun cur k (maximalRuns rest)).map
            (fun r => ⟨codeOf tbl r.1, toChar (r.2 : Int)⟩) := by
  induction rest with
  | nil => intro cur k _; simp [runTuples, maximalRuns, consRun]
  | cons x xs ih =>
    intro cur k hn
    have hx0 : x ≠ Dbl.negZero := hn x (by simp)
    have hc0 : cur ≠ Dbl.negZero := hn cur (by simp)
    simp only [maximalRuns]
    by_cases hx : Dbl.eq x cur = true
    · have hxc : x = cur := (Dbl.eq_iff hx0 hc0).1 hx
      subst hxc
      simp only [runTuples, hx, if_true]
      have := ih x (k + 1) (fun v hv => hn v (by simp at hv ⊢; tauto))
      rw [consRun_consRun]
      rw [← this]; push_cast; rfl
    · have hne : cur ≠ x := fun h => hx ((Dbl.eq_iff hx0 hc0).2 h.symm)
      simp only [runTuples, hx, Bool.false_eq_true, if_false]
      have := ih x 1 (fun v hv => hn v (by simp at hv ⊢; tauto))
      rw [consRun_of_ne _ _ _ _ _ hne, List.map_cons]
      simp only [Nat.cast_one] at this
      rw [this]

theorem encodeValues_runs (block : List PixelYcbcr) (chan bs : Int) (h2 : 2 ≤ block.length) :
    ∃ color, encodeValues block (buildTableSeq block chan bs) chan = .ok color ∧
      color.encoded = (maximalRuns ((extractChannel block chan).drop 1)).map
        (fun r => ⟨codeOf (buildTableSeq block chan bs).encode_table r.1, toChar (r.2 : Int)⟩) := by
  obtain ⟨dc, a, rest, hvals, henc⟩ := encodeValues_buildTableSeq block chan bs h2
  refine ⟨_, henc, ?_⟩
  have hn := extractChannel_ne_negZero block chan
  rw [hvals] at hn ⊢
  simp only [List.drop_succ_cons, List.drop_zero, maximalRuns]
  have := runTuples_eq_maximalRuns (buildTableSeq block chan bs).encode_table rest a 1
    (fun v hv => hn v (by simp at hv ⊢; tauto))
  simpa using this

theorem encodeValues_maximal_runs_seq (block : List PixelYcbcr) (chan block_size : Int)
    (h2 : 2 ≤ block.length) (hsmall : block.length ≤ 128) :
    ∃ color, encodeValues block (buildTableSeq block chan block_size) chan = .ok color ∧
      List.Forall₂ (fun (t : RleTuple) (r : Dbl × Nat) =>
          mapFind Dbl.key (buildTableSeq block chan block_size).encode_table r.1
            = some t.encoded ∧ t.count = (r.2 : Int))
        color.encoded (maximalRuns ((extractChannel block chan).drop 1)) ∧
      List.Chain' (fun s t : RleTuple => s.encoded ≠ t.encoded) color.encoded := by
  obtain ⟨color, henc, hruns⟩ := encodeValues_runs block chan block_size h2
  obtain ⟨_, hmem, hchain⟩ := maximalRuns_spec ((extractChannel block chan).drop 1)
  have hl : ((extractChannel block chan).drop 1).length = block.length - 1 := by
    simp [extractChannel]
  have hk : ((extractChannel block chan).drop 1).dedup.length ≤ 256 := by
    have := List.Sublist.length_le (List.dedup_sublist ((extractChannel block chan).drop 1))
    omega
  refine ⟨color, henc, ?_, ?_⟩
  · rw [hruns, List.forall₂_map_left_iff, List.forall₂_same]
    intro r hr
    obtain ⟨h1, h2', h3⟩ := hmem r hr
    obtain ⟨i, _, hf⟩ := buildTableSeq_find block chan block_size r.1 h3
    refine ⟨?_, ?_⟩
    · simp only [codeOf, mapIndex_hit _ _ _ _ _ hf]
      exact hf
    · simp only
      rw [toChar_of_le (by omega) (by omega)]
  · rw [hruns, List.chain'_map]
    refine (List.Chain'.iff_mem.1 hchain).imp ?_
    rintro r s ⟨hr, hs, hne⟩ hcode
    simp only at hcode
    apply hne
    have dr := buildTableSeq_decode block chan block_size r.1 hk (hmem r hr).2.2
    have ds := buildTableSeq_decode block chan block_size s.1 hk (hmem s hs).2.2
    rw [← dr, ← ds, hcode]

theorem maximalRuns_replicate (v : Dbl) (n : Nat) :
    maximalRuns (List.replicate (n + 1) v) = [(v, n + 1)] := by
  induction n with
  | zero => simp [maximalRuns, consRun]
  | succ n ih =>
    rw [List.replicate_succ, maximalRuns, ih]
    simp [consRun, Nat.add_comm]

theorem encodeValues_maximal_runs_fails_seq :
    maximalRuns ((extractChannel (flatBlock 144 5) COLOR_Y).drop 1) = [(.val 5, 143)] ∧
    (encodeValues (flatBlock 144 5) (buildTableSeq (flatBlock 144 5) COLOR_Y 12) COLOR_Y).map
      (fun color => color.encoded) = .ok [⟨0, -113⟩] := by
  refine ⟨?_, ?_⟩
  · rw [extractChannel_flatBlock]
    exact maximalRuns_replicate (.val 5) 142
  · rw [encodeValues_flatBlock 144 5 COLOR_Y 12 (by decide)]
    decide

/-! ### The stores of `decodeRLE` -/

theorem decodeRunLog_eq (setF : PixelYcbcr → Dbl → PixelYcbcr) (v : Dbl) (c : Nat) :
    ∀ (result : List PixelYcbcr) (idx : Nat) (log : List Nat),
      decodeRunLog setF v c result idx log
        = (decodeRun setF v c result idx).map
            (fun r => (r.1, idx + c, log ++ List.range' idx c)) ∧
      ∀ r, decodeRun setF v c result idx = .ok r → r.2 = idx + c := by
  induction c with
  | zero =>
    intro result idx log
    simp [decodeRunLog, decodeRun, Except.map]
  | succ c ih =>
    intro result idx log
    simp only [decodeRunLog, decodeRun]
    cases hs : storeField setF result idx v with
    | error e => simp [Except.map]
    | ok res =>
      simp only
      obtain ⟨h1, h2⟩ := ih res (idx + 1) (log ++ [idx])
      rw [h1]
      refine ⟨?_, ?_⟩
      · cases decodeRun setF v c res (idx + 1) with
        | error e => simp [Except.map]
        | ok r =>
          simp only [Except.map, List.append_assoc, List.singleton_append]
          rw [List.range'_succ, show idx + 1 + c = idx + (c + 1) by omega]
      · intro r hr
        rw [h2 r hr]; omega

theorem decodeTuplesLog_eq (setF : PixelYcbcr → Dbl → PixelYcbcr) (tbl : List (Int × Dbl))
    (tups : List RleTuple) :
    ∀ (result : List PixelYcbcr) (idx : Nat) (log : List Nat),
      decodeTuplesLog setF tbl tups result idx log
        = (decodeTuples setF tbl tups result idx).map
            (fun r => (r.1, idx + runTotal tups, log ++ List.range' idx (runTotal tups))) := by
  induction tups with
  | nil =>
    intro result idx log
    simp [decodeTuplesLog, decodeTuples, Except.map, runTotal]
  | cons t ts ih =>
    intro result idx log
    have hrt : runTotal (t :: ts) = t.count.toNat + runTotal ts := by simp [runTotal]
    simp only [decodeTuplesLog, decodeTuples]
    obtain ⟨h1, h2⟩ := decodeRunLog_eq setF (mapIndex id posZero tbl t.encoded).1
      t.count.toNat result idx log
    rw [h1]
    cases hr : decodeRun setF (mapIndex id posZero tbl t.encoded).1 t.count.toNat result idx with
    | error e => simp [Except.map]
    | ok r =>
      obtain ⟨res, i⟩ := r
      have hi : i = idx + t.count.toNat := h2 _ hr
      subst hi
      simp only [Except.map]
      rw [ih]
      cases decodeTuples setF tbl ts res (idx + t.count.toNat) with
      | error e => simp [Except.map]
      | ok r =>
        simp only [Except.map, hrt, List.append_assoc]
        rw [List.range'_append_1, Nat.add_assoc, Nat.add_comm (runTotal ts)]

theorem decodeChannelLog_eq (setF : PixelYcbcr → Dbl → PixelYcbcr) (channel : EncodedBlockColor)
    (result : List PixelYcbcr) :
    decodeChannelLog setF channel result
      = (decodeChannel setF channel result).map
          (fun r => (r, List.range (runTotal channel.encoded + 1))) := by
  simp only [decodeChannelLog, decodeChannel]
  cases storeField setF result 0 channel.dc_val with
  | error e => simp [Except.map]
  | ok res =>
    simp only
    rw [decodeTuplesLog_eq]
    cases decodeTuples setF channel.decode_table channel.encoded res 1 with
    | error e => simp [Except.map]
    | ok r =>
      simp only [Except.map]
      rw [List.range_eq_range', List.range'_succ]
      simp

theorem decodePassesLog_eq (encoded : EncodedBlock) (block_size : Int) :
    decodePassesLog encoded block_size
      = (decodePasses encoded block_size).map
          (fun r => (r, List.range (runTotal encoded.y.encoded + 1),
            List.range (runTotal encoded.cr.encoded + 1),
            List.range (runTotal encoded.cb.encoded + 1))) := by
  simp only [decodePassesLog, decodePasses, decodeChannelLog_eq, bind, Except.bind]
  cases decodeChannel setY encoded.y _ with
  | error e => simp [Except.map]
  | ok r1 =>
    simp only [Except.map]
    cases decodeChannel setCr encoded.cr r1 with
    | error e => simp
    | ok r2 =>
      simp only
      cases decodeChannel setCb encoded.cb r2 with
      | error e => simp
      | ok r3 => simp

theorem runTotal_eq_sum (tups : List RleTuple) (h : ∀ t ∈ tups, 0 ≤ t.count) :
    (runTotal tups : Int) = (tups.map (fun t => t.count)).sum := by
  induction tups with
  | nil => simp [runTotal]
  | cons t ts ih =>
    have h0 := h t (by simp)
    have := ih (fun x hx => h x (by simp [hx]))
    simp only [runTotal, List.map_cons, List.sum_cons, Nat.cast_add] at this ⊢
    rw [this]
    omega

theorem wellFormedTuples_total (tups : List RleTuple) (block_size : Int)
    (h : wellFormedTuples tups block_size) :
    runTotal tups + 1 = (block_size * block_size).toNat := by
  have := runTotal_eq_sum tups (fun t ht => by have := h.1 t ht; omega)
  have h2 := h.2
  omega

theorem channelValues_eq_decodedSequence (channel : EncodedBlockColor)
    (hkeys : ∀ t ∈ channel.encoded, ∃ v, mapFind id channel.decode_table t.encoded = some v) :
    channelValues channel = decodedSequence channel := by
  simp only [channelValues, decodedSequence, expandTuples]
  congr 1
  apply List.flatMap_congr
  intro t ht
  obtain ⟨v, hv⟩ := hkeys t ht
  simp [mapIndex, hv]

theorem decodePasses_channel_map (encoded : EncodedBlock) (block_size chan : Int)
    (hchan : chan = COLOR_Y ∨ chan = COLOR_CR ∨ chan = COLOR_CB)
    (hy : runTotal encoded.y.encoded + 1 ≤ (block_size * block_size).toNat)
    (hcr : runTotal encoded.cr.encoded + 1 ≤ (block_size * block_size).toNat)
    (hcb : runTotal encoded.cb.encoded + 1 ≤ (block_size * block_size).toNat)
    (hfull : runTotal (channelOf encoded chan).encoded + 1 = (block_size * block_size).toNat) :
    ∃ result, decodePasses encoded block_size = .ok result ∧
      result.map (fun p => channelValue p chan) = channelValues (channelOf encoded chan) := by
  obtain ⟨result, hres, hlen, hval⟩ := decodePasses_getElem? encoded block_size hy hcr hcb
  refine ⟨result, hres, ?_⟩
  have hcl := channelValues_length (channelOf encoded chan)
  apply List.ext_getElem?
  intro j
  rw [List.getElem?_map]
  by_cases hj : j < (block_size * block_size).toNat
  · rw [hval chan hchan j hj, List.getD_eq_getElem?_getD,
      List.getElem?_eq_getElem (by omega : j < (channelValues (channelOf encoded chan)).length)]
    simp
  · rw [List.getElem?_eq_none (by omega), List.getElem?_eq_none (by omega)]
    rfl

theorem decodePasses_decoder_definition (encoded : EncodedBlock) (block_size chan : Int)
    (hchan : chan = COLOR_Y ∨ chan = COLOR_CR ∨ chan = COLOR_CB)
    (hkeys : ∀ t ∈ (channelOf encoded chan).encoded,
      (mapFind id (channelOf encoded chan).decode_table t.encoded).isSome = true)
    (hwf : wellFormedTuples (channelOf encoded chan).encoded block_size)
    (hy : runTotal encoded.y.encoded + 1 ≤ (block_size * block_size).toNat)
    (hcr : runTotal encoded.cr.encoded + 1 ≤ (block_size * block_size).toNat)
    (hcb : runTotal encoded.cb.encoded + 1 ≤ (block_size * block_size).toNat) :
    ∃ result logs, decodePassesLog encoded block_size = .ok (result, logs) ∧
      decodePasses encoded block_size = .ok result ∧
      result.map (fun p => channelValue p chan) = decodedSequence (channelOf encoded chan) ∧
      logOf logs chan = List.range (block_size * block_size).toNat := by
  have hfull := wellFormedTuples_total _ _ hwf
  obtain ⟨result, hres, hmap⟩ :=
    decodePasses_channel_map encoded block_size chan hchan hy hcr hcb hfull
  refine ⟨result, (List.range (runTotal encoded.y.encoded + 1),
    List.range (runTotal encoded.cr.encoded + 1),
    List.range (runTotal encoded.cb.encoded + 1)), ?_, hres, ?_, ?_⟩
  · rw [decodePassesLog_eq, hres]; rfl
  · rw [hmap, channelValues_eq_decodedSequence _
      (fun t ht => Option.isSome_iff_exists.mp (hkeys t ht))]
  · rw [← hfull]
    rcases hchan with h | h | h <;> subst h <;>
      simp [logOf, channelOf, COLOR_Y, COLOR_CR, COLOR_CB]

theorem decodePasses_channel_independence (e1 e2 : EncodedBlock) (block_size chan : Int)
    (hchan : chan = COLOR_Y ∨ chan = COLOR_CR ∨ chan = COLOR_CB)
    (hsame : channelOf e1 chan = channelOf e2 chan)
    (hy : e1.y.encoded = e2.y.encoded) (hcr : e1.cr.encoded = e2.cr.encoded)
    (hcb : e1.cb.encoded = e2.cb.encoded)
    (wy : wellFormedTuples e1.y.encoded block_size)
    (wcr : wellFormedTuples e1.cr.encoded block_size)
    (wcb : wellFormedTuples e1.cb.encoded block_size) :
    ∃ r1 r2, decodePasses e1 block_size = .ok r1 ∧ decodePasses e2 block_size = .ok r2 ∧
      r1.map (fun p => channelValue p chan) = r2.map (fun p => channelValue p chan) := by
  have ty := wellFormedTuples_total _ _ wy
  have tcr := wellFormedTuples_total _ _ wcr
  have tcb := wellFormedTuples_total _ _ wcb
  have hfull1 : runTotal (channelOf e1 chan).encoded + 1 = (block_size * block_size).toNat := by
    rcases hchan with h | h | h <;> subst h
    · simpa [channelOf] using ty
    · simpa [channelOf, COLOR_CR, COLOR_Y] using tcr
    · simpa [channelOf, COLOR_CR, COLOR_Y, COLOR_CB] using tcb
  obtain ⟨r1, h1, m1⟩ := decodePasses_channel_map e1 block_size chan hchan
    (by omega) (by omega) (by omega) hfull1
  obtain ⟨r2, h2, m2⟩ := decodePasses_channel_map e2 block_size chan hchan
    (by rw [← hy]; omega) (by rw [← hcr]; omega) (by rw [← hcb]; omega)
    (by rw [← hsame]; exact hfull1)
  exact ⟨r1, r2, h1, h2, by rw [m1, m2, hsame]⟩

/-! ### Order of the code assignment -/

theorem countFold_find (xs : List Dbl) (hn : ∀ v ∈ xs, v ≠ Dbl.negZero) :
    ∀ v, v ≠ Dbl.negZero → mapFind Dbl.key (xs.foldl countStep []) v
      = if v ∈ xs then some (toChar (xs.count v)) else none := by
  induction xs using List.reverseRecOn with
  | nil => intro v _; simp [mapFind]
  | append_singleton xs x ih =>
    have ih := ih (fun y hy => hn y (by simp [hy]))
    have hx : x ≠ Dbl.negZero := hn x (by simp)
    intro v hv
    simp only [List.foldl_append, List.foldl_cons, List.foldl_nil]
    by_cases hxv : x = v
    · subst hxv
      have h1 := ih x hx
      rw [countStep]
      by_cases hmem : x ∈ xs
      · rw [if_pos hmem] at h1
        rw [h1]
        simp only [mapFind_mapSet, if_true, List.mem_append, List.mem_singleton, or_true,
          List.count_append, List.count_singleton_self]
        rw [toChar_toChar_succ]
        push_cast
        rfl
      · rw [if_neg hmem] at h1
        rw [h1]
        simp only [mapFind_mapSet, if_true, List.mem_append, List.mem_singleton, or_true,
          List.count_append, List.count_singleton_self, List.count_eq_zero_of_not_mem hmem]
        rfl
    · have hk : x.key ≠ v.key := fun h => hxv (Dbl.key_inj hx hv h)
      obtain ⟨c, hc⟩ := countStep_eq (xs.foldl countStep []) x
      rw [hc, mapFind_mapSet, if_neg hk, ih v hv]
      have hvx : v ≠ x := fun h => hxv h.symm
      simp [List.count_append, hvx, hxv]

theorem countFreqSeq_find (vals : List Dbl) (hn : ∀ v ∈ vals, v ≠ Dbl.negZero) (v : Dbl)
    (hv : v ∈ vals.drop 1) :
    mapFind Dbl.key (countFreqSeq vals) v = some (toChar ((vals.drop 1).count v)) := by
  have := countFold_find (vals.drop 1) (fun y hy => hn y (List.mem_of_mem_drop hy)) v
    (hn v (List.mem_of_mem_drop hv))
  rw [if_pos hv] at this
  exact this

theorem groupFold_find (fr : List (Dbl × Int)) :
    mapSorted id (fr.foldl groupStep []) ∧
    (∀ f l, mapFind id (fr.foldl groupStep []) f = some l →
      l = (fr.filter (fun kv => kv.2 = f)).map Prod.fst) ∧
    ∀ kv ∈ fr, mapFind id (fr.foldl groupStep []) kv.2 ≠ none := by
  induction fr using List.reverseRecOn with
  | nil => simp [mapSorted, mapFind]
  | append_singleton fr kv ih =>
    obtain ⟨h1, h2, h3⟩ := ih
    simp only [List.foldl_append, List.foldl_cons, List.foldl_nil]
    generalize fr.foldl groupStep [] = g at h1 h2 h3 ⊢
    have hstep : ∃ L, groupStep g kv = mapSet id g kv.2 L ∧
        L = ((fr ++ [kv]).filter (fun q => q.2 = kv.2)).map Prod.fst := by
      rw [groupStep, mapIndex]
      cases h : mapFind id g kv.2 with
      | none =>
        simp only [mapSet_mapSet, List.nil_append]
        refine ⟨_, rfl, ?_⟩
        have hnil : fr.filter (fun q => q.2 = kv.2) = [] := by
          rw [List.filter_eq_nil_iff]
          intro q hq hq2
          simp only [decide_eq_true_eq] at hq2
          exact h3 q hq (by rw [hq2]; exact h)
        simp [List.filter_append, hnil]
      | some l =>
        simp only
        refine ⟨_, rfl, ?_⟩
        rw [h2 kv.2 l h]
        simp [List.filter_append]
    obtain ⟨L, hL, hLeq⟩ := hstep
    rw [hL]
    refine ⟨mapSet_sorted _ _ _ _ h1, ?_, ?_⟩
    · intro f l hf
      rw [mapFind_mapSet] at hf
      by_cases hk : kv.2 = f
      · simp only [id, hk, if_true, Option.some.injEq] at hf
        rw [← hf, hLeq, hk]
      · simp only [id, hk, if_false] at hf
        rw [h2 f l hf]
        simp [List.filter_append, hk]
    · intro q hq
      rw [mapFind_mapSet]
      by_cases hk : kv.2 = q.2
      · simp [hk]
      · simp only [id, hk, if_false]
        simp only [List.mem_append, List.mem_singleton] at hq
        rcases hq with hq | hq
        · exact h3 q hq
        · exact absurd (by rw [hq]) hk

theorem groupByFreq_pairwise (fr : List (Dbl × Int)) (hs : mapSorted Dbl.key fr) :
    (mapFlat (groupByFreq fr)).Pairwise (codeBefore fr) := by
  obtain ⟨h1, h2, _⟩ := groupFold_find fr
  have hgrp : ∀ p ∈ groupByFreq fr, ∀ x ∈ p.2, ∃ q ∈ fr, q.2 = p.1 ∧ q.1 = x ∧
      mapFind Dbl.key fr x = some p.1 := by
    intro p hp x hx
    have hf := mapFind_of_mem id _ p.1 p.2 h1 hp
    rw [h2 p.1 p.2 hf] at hx
    simp only [List.mem_map, List.mem_filter, decide_eq_true_eq] at hx
    obtain ⟨q, ⟨hq, hq2⟩, hq1⟩ := hx
    refine ⟨q, hq, hq2, hq1, ?_⟩
    rw [← hq1, ← hq2]
    exact mapFind_of_mem Dbl.key fr q.1 q.2 hs hq
  unfold mapFlat
  rw [List.pairwise_flatMap]
  constructor
  · intro p hp
    have hf := mapFind_of_mem id _ p.1 p.2 h1 hp
    have hp2 := h2 p.1 p.2 hf
    rw [hp2, List.pairwise_map]
    have hsub : (fr.filter (fun kv => kv.2 = p.1)).Pairwise
        (fun a b => Dbl.key a.1 < Dbl.key b.1) :=
      List.Pairwise.sublist (List.filter_sublist _) hs
    refine hsub.imp_of_mem ?_
    intro a b ha hb hab
    simp only [List.mem_filter, decide_eq_true_eq] at ha hb
    refine ⟨p.1, p.1, ?_, ?_, Or.inr ⟨rfl, hab⟩⟩
    · rw [← ha.2]; exact mapFind_of_mem Dbl.key fr a.1 a.2 hs ha.1
    · rw [← hb.2]; exact mapFind_of_mem Dbl.key fr b.1 b.2 hs hb.1
  · have h1' : (groupByFreq fr).Pairwise (fun a b => a.1 < b.1) := h1
    refine h1'.imp_of_mem ?_
    intro p1 p2 hp1 hp2 hlt x hx y hy
    obtain ⟨_, _, _, _, hfx⟩ := hgrp p1 hp1 x hx
    obtain ⟨_, _, _, _, hfy⟩ := hgrp p2 hp2 y hy
    exact ⟨p1.1, p2.1, hfx, hfy, Or.inl hlt⟩

theorem codeOrder_pairwise (vals : List Dbl) (hn : ∀ v ∈ vals, v ≠ Dbl.negZero) :
    (codeOrder vals).Pairwise (codeBefore (countFreqSeq vals)) :=
  groupByFreq_pairwise _ (countFreqSeq_sorted vals hn)

theorem codeBefore_counts (vals : List Dbl) (hn : ∀ v ∈ vals, v ≠ Dbl.negZero)
    (hlen : vals.length ≤ 128) (u v : Dbl) (hu : u ∈ vals.drop 1) (hv : v ∈ vals.drop 1)
    (h : codeBefore (countFreqSeq vals) u v) :
    (vals.drop 1).count u < (vals.drop 1).count v ∨
      ((vals.drop 1).count u = (vals.drop 1).count v ∧ u.key < v.key) := by
  obtain ⟨a, b, ha, hb, hab⟩ := h
  have hl : (vals.drop 1).length ≤ 127 := by simp; omega
  have cu := List.count_le_length (a := u) (l := vals.drop 1)
  have cv := List.count_le_length (a := v) (l := vals.drop 1)
  rw [countFreqSeq_find vals hn u hu, toChar_of_le (by omega) (by omega)] at ha
  rw [countFreqSeq_find vals hn v hv, toChar_of_le (by omega) (by omega)] at hb
  simp only [Option.some.injEq] at ha hb
  omega

theorem codeOrder_index_lt (vals : List Dbl) (hn : ∀ v ∈ vals, v ≠ Dbl.negZero)
    (hlen : vals.length ≤ 128) (i j : Nat) (u v : Dbl)
    (hi : (codeOrder vals)[i]? = some u) (hj : (codeOrder vals)[j]? = some v) (hij : i < j) :
    (vals.drop 1).count u < (vals.drop 1).count v ∨
      ((vals.drop 1).count u = (vals.drop 1).count v ∧ u.key < v.key) := by
  obtain ⟨hi', rfl⟩ := List.getElem?_eq_some_iff.1 hi
  obtain ⟨hj', rfl⟩ := List.getElem?_eq_some_iff.1 hj
  apply codeBefore_counts vals hn hlen
  · exact (mem_codeOrder vals hn _).1 (List.getElem_mem _)
  · exact (mem_codeOrder vals hn _).1 (List.getElem_mem _)
  · exact (List.pairwise_iff_getElem.1 (codeOrder_pairwise vals hn)) i j hi' hj' hij

theorem codeOrder_length_le (vals : List Dbl) (hn : ∀ v ∈ vals, v ≠ Dbl.negZero) :
    (codeOrder vals).length ≤ vals.length - 1 := by
  rw [codeOrder_length vals hn]
  have := List.Sublist.length_le (List.dedup_sublist (vals.drop 1))
  simpa using this

theorem codeOrder_of_sorted (vals : List Dbl) (hn : ∀ v ∈ vals, v ≠ Dbl.negZero)
    (hs : (vals.drop 1).Pairwise (fun a b => a.key < b.key)) :
    codeOrder vals = vals.drop 1 := by
  have hd : (vals.drop 1).Nodup := by
    refine hs.imp ?_
    intro a b hab heq
    rw [heq] at hab
    omega
  have hp : (codeOrder vals).Perm (vals.drop 1) :=
    (List.perm_ext_iff_of_nodup (codeOrder_nodup vals hn) hd).2 (mem_codeOrder vals hn)
  have hco : (codeOrder vals).Pairwise (fun a b => a.key < b.key) := by
    refine (codeOrder_pairwise vals hn).imp_of_mem ?_
    intro u v hu hv huv
    obtain ⟨a, b, ha, hb, hab⟩ := huv
    have hu' := (mem_codeOrder vals hn u).1 hu
    have hv' := (mem_codeOrder vals hn v).1 hv
    rw [countFreqSeq_find vals hn u hu', List.count_eq_one_of_mem hd hu'] at ha
    rw [countFreqSeq_find vals hn v hv', List.count_eq_one_of_mem hd hv'] at hb
    simp only [Option.some.injEq] at ha hb
    omega
  haveI : IsAntisymm Dbl (fun a b => a.key < b.key) :=
    ⟨fun a b h1 h2 => absurd h1 (by omega)⟩
  exact List.eq_of_perm_of_sorted hp hco hs

theorem buildTableSeq_tie_break (block : List PixelYcbcr) (chan block_size : Int)
    (hsmall : block.length ≤ 128) (u v : Dbl)
    (hu : u ∈ (extractChannel block chan).drop 1)
    (hv : v ∈ (extractChannel block chan).drop 1)
    (hcnt : ((extractChannel block chan).drop 1).count u
      = ((extractChannel block chan).drop 1).count v)
    (hlt : u.key < v.key) :
    ∃ cu cv : Int,
      mapFind Dbl.key (buildTableSeq block chan block_size).encode_table u = some cu ∧
      mapFind Dbl.key (buildTableSeq block chan block_size).encode_table v = some cv ∧
      cu < cv ∧
      ∀ c : Int, cu ≤ c → c ≤ cv → ∃ x ∈ (extractChannel block chan).drop 1,
        ((extractChannel block chan).drop 1).count x
          = ((extractChannel block chan).drop 1).count u ∧
        mapFind Dbl.key (buildTableSeq block chan block_size).encode_table x = some c := by
  have hn := extractChannel_ne_negZero block chan
  have hlen : (extractChannel block chan).length ≤ 128 := by simpa [extractChannel] using hsmall
  have hco := codeOrder_length_le (extractChannel block chan) hn
  obtain ⟨i, hi, hfi⟩ := buildTableSeq_find block chan block_size u hu
  obtain ⟨j, hj, hfj⟩ := buildTableSeq_find block chan block_size v hv
  have hil := (List.getElem?_eq_some_iff.1 hi).1
  have hjl := (List.getElem?_eq_some_iff.1 hj).1
  have hij : i < j := by
    rcases Nat.lt_trichotomy i j with h | h | h
    · exact h
    · subst h
      rw [hi] at hj
      simp only [Option.some.injEq] at hj
      rw [hj] at hlt
      omega
    · have := codeOrder_index_lt _ hn hlen j i v u hj hi h
      omega
  rw [toChar_of_le (by omega) (by omega)] at hfi hfj
  refine ⟨i, j, hfi, hfj, by omega, ?_⟩
  intro c hc1 hc2
  obtain ⟨k, rfl⟩ := Int.eq_ofNat_of_zero_le (by omega : 0 ≤ c)
  have hk : k < (codeOrder (extractChannel block chan)).length := by omega
  have hx : (codeOrder (extractChannel block chan))[k]?
      = some ((codeOrder (extractChannel block chan))[k]) :=
    List.getElem?_eq_getElem hk
  refine ⟨_, (mem_codeOrder _ hn _).1 (List.getElem_mem hk), ?_, ?_⟩
  · have h1 : ((extractChannel block chan).drop 1).count u
        ≤ ((extractChannel block chan).drop 1).count
            ((codeOrder (extractChannel block chan))[k]) := by
      rcases Nat.lt_or_ge i k with h | h
      · have := codeOrder_index_lt _ hn hlen i k _ _ hi hx h
        omega
      · have hik : i = k := by omega
        subst hik
        rw [hi] at hx
        simp only [Option.some.injEq] at hx
        rw [← hx]
    have h2 : ((extractChannel block chan).drop 1).count
          ((codeOrder (extractChannel block chan))[k])
        ≤ ((extractChannel block chan).drop 1).count v := by
      rcases Nat.lt_or_ge k j with h | h
      · have := codeOrder_index_lt _ hn hlen k j _ _ hx hj h
        omega
      · have hjk : j = k := by omega
        subst hjk
        rw [hj] at hx
        simp only [Option.some.injEq] at hx
        rw [← hx]
    omega
  · have := (buildTableSeq_enc_facts block chan block_size).2.2 k _ hx
    rw [toChar_of_le (by omega) (by omega)] at this
    exact this

theorem rampBlock_sorted (n : Nat) :
    ((extractChannel (rampBlock n) COLOR_Y).drop 1).Pairwise (fun a b => a.key < b.key) := by
  rw [extractChannel_rampBlock]
  refine List.Pairwise.sublist (List.drop_sublist 1 _) ?_
  rw [List.pairwise_map]
  refine (List.pairwise_lt_range n).imp ?_
  intro a b hab
  simp only [Dbl.key]
  exact_mod_cast hab

theorem buildTableSeq_tie_break_fails_at_12 :
    ((extractChannel (rampBlock 144) COLOR_Y).drop 1).count (.val 128) = 1 ∧
    ((extractChannel (rampBlock 144) COLOR_Y).drop 1).count (.val 129) = 1 ∧
    mapFind Dbl.key (buildTableSeq (rampBlock 144) COLOR_Y 12).encode_table (.val 128)
      = some 127 ∧
    mapFind Dbl.key (buildTableSeq (rampBlock 144) COLOR_Y 12).encode_table (.val 129)
      = some (-128) := by
  have hn := extractChannel_ne_negZero (rampBlock 144) COLOR_Y
  have hco := codeOrder_of_sorted _ hn (rampBlock_sorted 144)
  have h128 : ((extractChannel (rampBlock 144) COLOR_Y).drop 1)[127]? = some (.val 128) := by
    rw [extractChannel_rampBlock]
    simp [List.getElem?_drop, List.getElem?_range]
  have h129 : ((extractChannel (rampBlock 144) COLOR_Y).drop 1)[128]? = some (.val 129) := by
    rw [extractChannel_rampBlock]
    simp [List.getElem?_drop, List.getElem?_range]
  refine ⟨List.count_eq_one_of_mem (rampBlock_nodup 144) (List.getElem?_mem h128),
    List.count_eq_one_of_mem (rampBlock_nodup 144) (List.getElem?_mem h129), ?_, ?_⟩
  · have := (buildTableSeq_enc_facts (rampBlock 144) COLOR_Y 12).2.2 127 (.val 128)
      (by rw [hco]; exact h128)
    rw [this]
    decide
  · have := (buildTableSeq_enc_facts (rampBlock 144) COLOR_Y 12).2.2 128 (.val 129)
      (by rw [hco]; exact h129)
    rw [this]
    decide

/-! ### The `char` counters within their range -/

theorem writeChannel_fit (rec : EncodedBlockColorNoPtr) (color : EncodedBlockColor)
    (h1 : color.encoded.length ≤ rec.encoded.length)
    (h2 : color.encode_table.length ≤ rec.char_vals.length)
    (h3 : color.encode_table.length ≤ rec.double_vals.length) :
    writeChannel rec color = .ok (writtenRecord rec color) := by
  rw [writeChannel_eq]
  simp only [h1, h2, h3, and_self, if_true, writtenRecord]

theorem writeToBuffer_eq (encodedBlockBuffer : List EncodedBlockNoPtr)
    (encodedBlocks : List EncodedBlock) (idx chan : Int) (slot : EncodedBlockNoPtr)
    (blk : EncodedBlock) (h0 : 0 ≤ idx)
    (hslot : encodedBlockBuffer[idx.toNat]? = some slot)
    (hblk : encodedBlocks[idx.toNat]? = some blk)
    (h1 : (channelOf blk chan).encoded.length ≤ (recordOf slot chan).encoded.length)
    (h2 : (channelOf blk chan).encode_table.length ≤ (recordOf slot chan).char_vals.length)
    (h3 : (channelOf blk chan).encode_table.length ≤ (recordOf slot chan).double_vals.length) :
    writeToBuffer encodedBlockBuffer encodedBlocks idx chan
      = .ok (encodedBlockBuffer.set idx.toNat (writtenSlot slot blk chan)) := by
  have hb := readAt_of_toNat encodedBlocks idx blk h0 hblk
  have hs := readAt_of_toNat encodedBlockBuffer idx slot h0 hslot
  unfold writeToBuffer
  simp only [bind, Except.bind, hb, hs, pure, Except.pure]
  by_cases hY : chan = COLOR_Y
  · subst hY
    simp only [channelOf, recordOf, if_true] at h1 h2 h3
    rw [if_pos rfl, writeChannel_fit { slot.y with dc_val := blk.y.dc_val } blk.y h1 h2 h3]
    simp [writtenSlot, writtenRecord]
  · by_cases hCr : chan = COLOR_CR
    · subst hCr
      simp only [channelOf, recordOf, hY, if_true, if_false] at h1 h2 h3
      rw [if_neg hY, if_pos rfl, writeChannel_fit _ _ h1 h2 h3]
      simp [writtenSlot, hY]
    · simp only [channelOf, recordOf, hY, hCr, if_false] at h1 h2 h3
      rw [if_neg hY, if_neg hCr, writeChannel_fit _ _ h1 h2 h3]
      simp [writtenSlot, hY, hCr]

/-- C20: for every buffer, valid index idx and selector chan such that the tuples
and the table of channel chan of block idx fit the arrays of the record,
`writeToBuffer` returns a buffer of the same length in which every slot j != idx is
unchanged; in slot idx the fields `cr.dc_val` and `cb.dc_val` are unchanged,
`y.dc_val` is that of the block, and the fields `encoded`, `encoded_len`,
`char_vals`, `double_vals`, `table_size` of the two channels other than chan are
unchanged. -/
theorem writeToBuffer_frame (encodedBlockBuffer : List EncodedBlockNoPtr)
    (encodedBlocks : List EncodedBlock) (idx chan : Int) (slot : EncodedBlockNoPtr)
    (blk : EncodedBlock) (h0 : 0 ≤ idx)
    (hslot : encodedBlockBuffer[idx.toNat]? = some slot)
    (hblk : encodedBlocks[idx.toNat]? = some blk)
    (hchan : chan = COLOR_Y ∨ chan = COLOR_CR ∨ chan = COLOR_CB)
    (h1 : (channelOf blk chan).encoded.length ≤ (recordOf slot chan).encoded.length)
    (h2 : (channelOf blk chan).encode_table.length ≤ (recordOf slot chan).char_vals.length)
    (h3 : (channelOf blk chan).encode_table.length ≤ (recordOf slot chan).double_vals.length) :
    ∃ out slot', writeToBuffer encodedBlockBuffer encodedBlocks idx chan = .ok out ∧
      out.length = encodedBlockBuffer.length ∧
      (∀ j : Nat, j ≠ idx.toNat → out[j]? = encodedBlockBuffer[j]?) ∧
      out[idx.toNat]? = some slot' ∧
      slot'.y.dc_val = blk.y.dc_val ∧
      slot'.cr.dc_val = slot.cr.dc_val ∧ slot'.cb.dc_val = slot.cb.dc_val ∧
      ∀ c : Int, (c = COLOR_Y ∨ c = COLOR_CR ∨ c = COLOR_CB) → c ≠ chan →
        (recordOf slot' c).encoded = (recordOf slot c).encoded ∧
        (recordOf slot' c).encoded_len = (recordOf slot c).encoded_len ∧
        (recordOf slot' c).char_vals = (recordOf slot c).char_vals ∧
        (recordOf slot' c).double_vals = (recordOf slot c).double_vals ∧
        (recordOf slot' c).table_size = (recordOf slot c).table_size := by
  have hlt : idx.toNat < encodedBlockBuffer.length := (List.getElem?_eq_some_iff.1 hslot).1
  refine ⟨_, writtenSlot slot blk chan,
    writeToBuffer_eq _ _ idx chan slot blk h0 hslot hblk h1 h2 h3, by simp, ?_, ?_, ?_, ?_, ?_, ?_⟩
  · intro j hj
    rw [List.getElem?_set_ne (Ne.symm hj)]
  · rw [List.getElem?_set_eq_of_lt _ hlt]
  · rcases hchan with h | h | h <;> subst h <;>
      simp [writtenSlot, writtenRecord, COLOR_Y, COLOR_CR, COLOR_CB]
  · rcases hchan with h | h | h <;> subst h <;>
      simp [writtenSlot, writtenRecord, COLOR_Y, COLOR_CR, COLOR_CB]
  · rcases hchan with h | h | h <;> subst h <;>
      simp [writtenSlot, writtenRecord, COLOR_Y, COLOR_CR, COLOR_CB]
  · intro c hc hne
    rcases hchan with h | h | h <;> subst h <;> rcases hc with h' | h' | h' <;> subst h' <;>
      first
        | exact absurd rfl hne
        | simp [writtenSlot, recordOf, COLOR_Y, COLOR_CR, COLOR_CB]

/-- Witness of C20: the Cr channel of `sampleEncoded` written into slot 1 of a
buffer of two zeroed slots of capacity 3. -/
theorem writeToBuffer_frame_witness :
    ∃ out slot', writeToBuffer [zeroSlot 3, zeroSlot 3] [sampleEncoded, sampleEncoded] 1
        COLOR_CR = .ok out ∧
      out.length = [zeroSlot 3, zeroSlot 3].length ∧
      (∀ j : Nat, j ≠ (1 : Int).toNat → out[j]? = [zeroSlot 3, zeroSlot 3][j]?) ∧
      out[(1 : Int).toNat]? = some slot' ∧
      slot'.y.dc_val = sampleEncoded.y.dc_val ∧
      slot'.cr.dc_val = (zeroSlot 3).cr.dc_val ∧ slot'.cb.dc_val = (zeroSlot 3).cb.dc_val ∧
      ∀ c : Int, (c = COLOR_Y ∨ c = COLOR_CR ∨ c = COLOR_CB) → c ≠ COLOR_CR →
        (recordOf slot' c).encoded = (recordOf (zeroSlot 3) c).encoded ∧
        (recordOf slot' c).encoded_len = (recordOf (zeroSlot 3) c).encoded_len ∧
        (recordOf slot' c).char_vals = (recordOf (zeroSlot 3) c).char_vals ∧
        (recordOf slot' c).double_vals = (recordOf (zeroSlot 3) c).double_vals ∧
        (recordOf slot' c).table_size = (recordOf (zeroSlot 3) c).table_size :=
  writeToBuffer_frame [zeroSlot 3, zeroSlot 3] [sampleEncoded, sampleEncoded] 1 COLOR_CR
    (zeroSlot 3) sampleEncoded (by decide) (by decide) (by decide) (by decide) (by decide)
    (by decide) (by decide)

/-! ### `convertBufferToEncodedBlocks` -/

theorem readTuples_eq (arr : List RleTuple) :
    ∀ (k j : Nat) (out : List RleTuple), j + k ≤ arr.length →
      readTuples arr k j out = .ok (out ++ (arr.drop j).take k) := by
  intro k
  induction k with
  | zero => intro j out _; simp [readTuples]
  | succ k ih =>
    intro j out h
    have hj : j < arr.length := by omega
    rw [readTuples, readAt_of_getElem? arr j arr[j] (List.getElem?_eq_getElem hj)]
    simp only
    rw [ih (j + 1) _ (by omega), List.drop_eq_getElem_cons hj, List.take_succ_cons]
    simp

theorem readTable_eq (char_vals : List Int) (double_vals : List Dbl) :
    ∀ (k j : Nat) (enc : List (Dbl × Int)) (dec : List (Int × Dbl)),
      j + k ≤ char_vals.length → j + k ≤ double_vals.length →
      readTable char_vals double_vals k j enc dec
        = .ok (rebuildTables (((double_vals.drop j).take k).zip ((char_vals.drop j).take k))
            enc dec) := by
  intro k
  induction k with
  | zero => intro j enc dec _ _; simp [readTable, rebuildTables]
  | succ k ih =>
    intro j enc dec h1 h2
    have hc : j < char_vals.length := by omega
    have hd : j < double_vals.length := by omega
    rw [readTable, readAt_of_getElem? char_vals j _ (List.getElem?_eq_getElem hc)]
    simp only
    rw [readAt_of_getElem? double_vals j _ (List.getElem?_eq_getElem hd)]
    simp only
    rw [ih (j + 1) _ _ (by omega) (by omega), List.drop_eq_getElem_cons hc,
      List.drop_eq_getElem_cons hd, List.take_succ_cons, List.take_succ_cons, List.zip_cons_cons]
    simp [rebuildTables]

theorem convertBlock_eq (block : EncodedBlockNoPtr) (hy : recordReadable block.y)
    (hcr : recordReadable block.cr) (hcb : recordReadable block.cb) :
    convertBlock block
      = .ok { y := readRecord block.y, cr := readRecord block.cr, cb := readRecord block.cb } := by
  obtain ⟨y1, y2, y3⟩ := hy
  obtain ⟨r1, r2, r3⟩ := hcr
  obtain ⟨b1, b2, b3⟩ := hcb
  have ty := readTuples_eq block.y.encoded block.y.encoded_len.toNat 0 [] (by omega)
  have tr := readTuples_eq block.cr.encoded block.cr.encoded_len.toNat 0 [] (by omega)
  have tb := readTuples_eq block.cb.encoded block.cb.encoded_len.toNat 0 [] (by omega)
  have ey := readTable_eq block.y.char_vals block.y.double_vals block.y.table_size.toNat 0 [] []
    (by omega) (by omega)
  have er := readTable_eq block.cr.char_vals block.cr.double_vals block.cr.table_size.toNat 0
    [] [] (by omega) (by omega)
  have eb := readTable_eq block.cb.char_vals block.cb.double_vals block.cb.table_size.toNat 0
    [] [] (by omega) (by omega)
  unfold convertBlock
  simp only [bind, Except.bind, pure, Except.pure, ty, tr, tb, ey, er, eb]
  simp [readRecord]

theorem convertLoop_spec (buf : List EncodedBlockNoPtr) :
    ∀ (k i : Nat) (result : List EncodedBlock),
      (∀ j, i ≤ j → j < i + k → ∃ s b, buf[j]? = some s ∧ convertBlock s = .ok b) →
      ∃ out, convertLoop buf k i result = .ok (result ++ out) ∧ out.length = k ∧
        ∀ (j : Nat) s b, j < k → buf[i + j]? = some s → convertBlock s = .ok b →
          out[j]? = some b := by
  intro k
  induction k with
  | zero => intro i result _; exact ⟨[], by simp [convertLoop], rfl, by intro j s b hj; omega⟩
  | succ k ih =>
    intro i result h
    obtain ⟨s0, b0, hs0, hb0⟩ := h i (le_refl _) (by omega)
    obtain ⟨out, hout, hlen, hget⟩ := ih (i + 1) (result ++ [b0])
      (fun j h1 h2 => h j (by omega) (by omega))
    refine ⟨b0 :: out, ?_, by simp [hlen], ?_⟩
    · rw [convertLoop, readAt_of_getElem? buf i s0 hs0]
      simp only [hb0]
      rw [hout]
      simp
    · intro j s b hj hs hb
      cases j with
      | zero =>
        simp only [Nat.add_zero] at hs
        rw [hs0] at hs
        simp only [Option.some.injEq] at hs
        subst hs
        rw [hb0] at hb
        simp only [Except.ok.injEq] at hb
        simp [hb]
      | succ j =>
        simp only [List.getElem?_cons_succ]
        exact hget j s b (by omega) (by rw [← hs]; congr 1; omega) hb

/-! ### Rebuilding the tables from the pairs of `encode_table` -/

theorem rebuildTables_fst (pairs : List (Dbl × Int)) :
    ∀ (enc : List (Dbl × Int)) (dec : List (Int × Dbl)),
      (rebuildTables pairs enc dec).1 = pairs.foldl (fun m p => mapSet Dbl.key m p.1 p.2) enc := by
  induction pairs with
  | nil => intro enc dec; rfl
  | cons p ps ih => intro enc dec; simpa [rebuildTables] using ih _ _

theorem rebuildTables_snd (pairs : List (Dbl × Int)) :
    ∀ (enc : List (Dbl × Int)) (dec : List (Int × Dbl)),
      (rebuildTables pairs enc dec).2 = pairs.foldl (fun m p => mapSet id m p.2 p.1) dec := by
  induction pairs with
  | nil => intro enc dec; rfl
  | cons p ps ih => intro enc dec; simpa [rebuildTables] using ih _ _

theorem mapSet_append_of_lt {κ ν : Type} (r : κ → Int) (m : List (κ × ν)) (k : κ) (v : ν)
    (h : ∀ p ∈ m, r p.1 < r k) : mapSet r m k v = m ++ [(k, v)] := by
  induction m with
  | nil => rfl
  | cons q m ih =>
    obtain ⟨a, b⟩ := q
    have ha : r a < r k := h (a, b) (by simp)
    have hna : ¬ r k < r a := by omega
    simp only [mapSet, hna, ha, if_false, if_true, List.cons_append]
    rw [ih (fun p hp => h p (by simp [hp]))]

theorem foldl_mapSet_sorted {κ ν : Type} (r : κ → Int) (l : List (κ × ν))
    (hs : mapSorted r l) : l.foldl (fun m p => mapSet r m p.1 p.2) [] = l := by
  induction l using List.reverseRecOn with
  | nil => rfl
  | append_singleton xs x ih =>
    unfold mapSorted at hs ih
    rw [List.pairwise_append] at hs
    rw [List.foldl_append, ih hs.1]
    simp only [List.foldl_cons, List.foldl_nil]
    exact mapSet_append_of_lt r xs x.1 x.2 (fun p hp => hs.2.2 p hp x (by simp))

theorem mapSet_perm_of_none {κ ν : Type} (r : κ → Int) (m : List (κ × ν)) (k : κ) (v : ν)
    (h : mapFind r m k = none) : (mapSet r m k v).Perm ((k, v) :: m) := by
  induction m with
  | nil => exact List.Perm.refl _
  | cons q m ih =>
    obtain ⟨a, b⟩ := q
    by_cases h1 : r k < r a
    · simp only [mapSet, h1, if_true]
      exact List.Perm.refl _
    · by_cases h2 : r a < r k
      · have h3 : r a ≠ r k := by omega
        simp only [mapFind, h3, if_false] at h
        simp only [mapSet, h1, h2, if_true, if_false]
        exact ((ih h).cons (a, b)).trans (List.Perm.swap _ _ _)
      · have h3 : r a = r k := by omega
        simp [mapFind, h3] at h

theorem foldl_mapSet_perm {κ ν : Type} (r : κ → Int) (l : List (κ × ν))
    (hnd : (l.map (fun p => r p.1)).Nodup) :
    (l.foldl (fun m p => mapSet r m p.1 p.2) []).Perm l ∧
    mapSorted r (l.foldl (fun m p => mapSet r m p.1 p.2) []) := by
  induction l using List.reverseRecOn with
  | nil => simp [mapSorted]
  | append_singleton xs x ih =>
    rw [List.map_append, List.nodup_append] at hnd
    obtain ⟨hp, hs⟩ := ih hnd.1
    simp only [List.foldl_append, List.foldl_cons, List.foldl_nil]
    refine ⟨?_, mapSet_sorted _ _ _ _ hs⟩
    have hnone : mapFind r (xs.foldl (fun m p => mapSet r m p.1 p.2) []) x.1 = none := by
      rw [mapFind_eq_none]
      intro p hpm heq
      have hpx : p ∈ xs := hp.mem_iff.1 hpm
      exact hnd.2.2 (List.mem_map_of_mem (fun p => r p.1) hpx) (by simp [heq])
    refine (mapSet_perm_of_none r _ x.1 x.2 hnone).trans ?_
    refine (hp.cons _).trans ?_
    exact (List.perm_append_singleton x xs).symm

theorem zip_map_fst_snd {α β : Type} (l : List (α × β)) :
    (l.map Prod.fst).zip (l.map Prod.snd) = l := by
  induction l with
  | nil => rfl
  | cons p ps ih => simp [ih]

theorem inverse_tables_mem (enc : List (Dbl × Int)) (dec : List (Int × Dbl))
    (hsd : mapSorted id dec)
    (hinv1 : ∀ p ∈ enc, mapFind id dec p.2 = some p.1)
    (hinv2 : ∀ q ∈ dec, mapFind Dbl.key enc q.2 = some q.1) (v : Dbl) (c : Int) :
    (v, c) ∈ enc ↔ (c, v) ∈ dec := by
  constructor
  · intro h
    obtain ⟨q, hq, hq1, hq2⟩ := mapFind_some_mem id dec c v (hinv1 (v, c) h)
    simp only [id] at hq1
    rw [← hq1, ← hq2]
    exact hq
  · intro h
    obtain ⟨p, hp, hp1, hp2⟩ := mapFind_some_mem Dbl.key enc v c (hinv2 (c, v) h)
    have h1 := hinv1 p hp
    rw [hp2, mapFind_of_mem id dec c v hsd h] at h1
    simp only [Option.some.injEq] at h1
    rw [h1, ← hp2]
    exact hp

theorem rebuildTables_inverse (enc : List (Dbl × Int)) (dec : List (Int × Dbl))
    (hse : mapSorted Dbl.key enc) (hsd : mapSorted id dec)
    (hinv1 : ∀ p ∈ enc, mapFind id dec p.2 = some p.1)
    (hinv2 : ∀ q ∈ dec, mapFind Dbl.key enc q.2 = some q.1) :
    rebuildTables enc [] [] = (enc, dec) := by
  have hmem := inverse_tables_mem enc dec hsd hinv1 hinv2
  have hfst := rebuildTables_fst enc [] []
  rw [foldl_mapSet_sorted Dbl.key enc hse] at hfst
  have hsnd := rebuildTables_snd enc [] []
  have hfold : enc.foldl (fun m p => mapSet id m p.2 p.1) []
      = (enc.map Prod.swap).foldl (fun m (q : Int × Dbl) => mapSet id m q.1 q.2) [] := by
    rw [List.foldl_map]
    rfl
  have hencnd : enc.Nodup := List.Nodup.of_map _ (mapSorted_nodup Dbl.key enc hse)
  have hdecnd : dec.Nodup := List.Nodup.of_map _ (mapSorted_nodup id dec hsd)
  have hkeys : ((enc.map Prod.swap).map (fun p => id p.1)).Nodup := by
    rw [List.map_map]
    refine List.Nodup.map_on ?_ hencnd
    intro x hx y hy hxy
    simp only [Function.comp, Prod.fst_swap, id] at hxy
    have h1 := hinv1 x hx
    have h2 := hinv1 y hy
    rw [hxy, h2] at h1
    simp only [Option.some.injEq] at h1
    exact Prod.ext h1.symm hxy
  obtain ⟨hperm, hsorted⟩ := foldl_mapSet_perm id (enc.map Prod.swap) hkeys
  have hswapnd : (enc.map Prod.swap).Nodup := List.Nodup.of_map _ hkeys
  have hperm2 : (enc.map Prod.swap).Perm dec := by
    rw [List.perm_ext_iff_of_nodup hswapnd hdecnd]
    intro q
    obtain ⟨c, v⟩ := q
    rw [← hmem v c]
    simp only [List.mem_map, Prod.exists, Prod.swap_prod_mk, Prod.mk.injEq]
    constructor
    · rintro ⟨a, b, hab, rfl, rfl⟩
      exact hab
    · intro h
      exact ⟨v, c, h, rfl, rfl⟩
  haveI : IsAntisymm (Int × Dbl) (fun a b => id a.1 < id b.1) :=
    ⟨fun a b h1 h2 => absurd h1 (by simp only [id] at h1 h2 ⊢; omega)⟩
  have hdec : (enc.map Prod.swap).foldl (fun m (q : Int × Dbl) => mapSet id m q.1 q.2) []
      = dec := List.eq_of_perm_of_sorted (hperm.trans hperm2) hsorted hsd
  rw [hfold, hdec] at hsnd
  exact Prod.ext hfst hsnd

theorem readRecord_written (rec : EncodedBlockColorNoPtr) (color : EncodedBlockColor)
    (d : Dbl) :
    recordReadable { writtenRecord rec color with dc_val := d } ∧
    (readRecord { writtenRecord rec color with dc_val := d }).encoded = color.encoded ∧
    (readRecord { writtenRecord rec color with dc_val := d }).encode_table
      = (rebuildTables color.encode_table [] []).1 ∧
    (readRecord { writtenRecord rec color with dc_val := d }).decode_table
      = (rebuildTables color.encode_table [] []).2 := by
  refine ⟨?_, ?_, ?_, ?_⟩
  · simp [recordReadable, writtenRecord]
  · simp [readRecord, writtenRecord]
  · simp [readRecord, writtenRecord, List.take_left', zip_map_fst_snd]
  · simp [readRecord, writtenRecord, List.take_left', zip_map_fst_snd]

theorem channelOf_readRecord (s : EncodedBlockNoPtr) (chan : Int) :
    channelOf { y := readRecord s.y, cr := readRecord s.cr, cb := readRecord s.cb } chan
      = readRecord (recordOf s chan) := by
  unfold channelOf recordOf
  split_ifs <;> rfl

theorem recordOf_writtenSlot (slot : EncodedBlockNoPtr) (blk : EncodedBlock) (chan : Int)
    (hchan : chan = COLOR_Y ∨ chan = COLOR_CR ∨ chan = COLOR_CB) :
    ∃ d, recordOf (writtenSlot slot blk chan) chan
      = { writtenRecord (recordOf slot chan) (channelOf blk chan) with dc_val := d } := by
  rcases hchan with h | h | h <;> subst h
  · exact ⟨blk.y.dc_val, by simp [recordOf, writtenSlot, channelOf]⟩
  · exact ⟨slot.cr.dc_val, by
      simp [recordOf, writtenSlot, channelOf, writtenRecord, COLOR_Y, COLOR_CR]⟩
  · exact ⟨slot.cb.dc_val, by
      simp [recordOf, writtenSlot, channelOf, writtenRecord, COLOR_Y, COLOR_CR, COLOR_CB]⟩

theorem writtenSlot_readable (slot : EncodedBlockNoPtr) (blk : EncodedBlock) (chan : Int)
    (hchan : chan = COLOR_Y ∨ chan = COLOR_CR ∨ chan = COLOR_CB)
    (hrest : ∀ c : Int, (c = COLOR_Y ∨ c = COLOR_CR ∨ c = COLOR_CB) → c ≠ chan →
      recordReadable (recordOf slot c)) :
    recordReadable (writtenSlot slot blk chan).y ∧
    recordReadable (writtenSlot slot blk chan).cr ∧
    recordReadable (writtenSlot slot blk chan).cb := by
  have hy := hrest COLOR_Y (Or.inl rfl)
  have hcr := hrest COLOR_CR (Or.inr (Or.inl rfl))
  have hcb := hrest COLOR_CB (Or.inr (Or.inr rfl))
  rcases hchan with h | h | h <;> subst h
  · have h1 := hcr (by decide)
    have h2 := hcb (by decide)
    simp only [recordOf, COLOR_Y, COLOR_CR, COLOR_CB] at h1 h2
    refine ⟨?_, ?_, ?_⟩
    · simp [writtenSlot, recordReadable, writtenRecord]
    · simpa [writtenSlot, COLOR_Y] using h1
    · simpa [writtenSlot, COLOR_Y] using h2
  · have h1 := hy (by decide)
    have h2 := hcb (by decide)
    simp only [recordOf, COLOR_Y, COLOR_CR, COLOR_CB] at h1 h2
    refine ⟨?_, ?_, ?_⟩
    · simpa [writtenSlot, COLOR_Y, COLOR_CR, recordReadable] using h1
    · simp [writtenSlot, recordReadable, writtenRecord, COLOR_Y, COLOR_CR]
    · simpa [writtenSlot, COLOR_Y, COLOR_CR] using h2
  · have h1 := hy (by decide)
    have h2 := hcr (by decide)
    simp only [recordOf, COLOR_Y, COLOR_CR, COLOR_CB] at h1 h2
    refine ⟨?_, ?_, ?_⟩
    · simpa [writtenSlot, COLOR_Y, COLOR_CR, COLOR_CB, recordReadable] using h1
    · simpa [writtenSlot, COLOR_Y, COLOR_CR, COLOR_CB] using h2
    · simp [writtenSlot, recordReadable, writtenRecord, COLOR_Y, COLOR_CR, COLOR_CB]

/-- C15: for every encoded channel whose tables are maps (keys in ascending order)
and mutual inverses (`decode_table[c] = v` for every pair (v, c) of `encode_table`
and `encode_table[v] = c` for every pair (c, v) of `decode_table`) and whose tuple
count and table size fit the arrays of the record, `writeToBuffer` for that
channel followed by `convertBufferToEncodedBlocks` (over slots whose other records
have used lengths within their capacities) returns, and the block of slot idx has
for that channel the original tuple sequence, `encode_table` and `decode_table`,
both tables being those rebuilt from the pairs of `encode_table` alone. -/
theorem writeToBuffer_convert_channel (encodedBlockBuffer : List EncodedBlockNoPtr)
    (encodedBlocks : List EncodedBlock) (idx chan numEncodedBlocks : Int)
    (slot : EncodedBlockNoPtr) (blk : EncodedBlock) (h0 : 0 ≤ idx)
    (hslot : encodedBlockBuffer[idx.toNat]? = some slot)
    (hblk : encodedBlocks[idx.toNat]? = some blk)
    (hchan : chan = COLOR_Y ∨ chan = COLOR_CR ∨ chan = COLOR_CB)
    (h1 : (channelOf blk chan).encoded.length ≤ (recordOf slot chan).encoded.length)
    (h2 : (channelOf blk chan).encode_table.length ≤ (recordOf slot chan).char_vals.length)
    (h3 : (channelOf blk chan).encode_table.length ≤ (recordOf slot chan).double_vals.length)
    (hse : mapSorted Dbl.key (channelOf blk chan).encode_table)
    (hsd : mapSorted id (channelOf blk chan).decode_table)
    (hinv1 : ∀ p ∈ (channelOf blk chan).encode_table,
      mapFind id (channelOf blk chan).decode_table p.2 = some p.1)
    (hinv2 : ∀ q ∈ (channelOf blk chan).decode_table,
      mapFind Dbl.key (channelOf blk chan).encode_table q.2 = some q.1)
    (hnum : idx < numEncodedBlocks)
    (hnb : numEncodedBlocks ≤ (encodedBlockBuffer.length : Int))
    (hrest : ∀ c : Int, (c = COLOR_Y ∨ c = COLOR_CR ∨ c = COLOR_CB) → c ≠ chan →
      recordReadable (recordOf slot c))
    (hothers : ∀ (j : Nat) (s : EncodedBlockNoPtr), j ≠ idx.toNat →
      j < numEncodedBlocks.toNat → encodedBlockBuffer[j]? = some s →
      recordReadable s.y ∧ recordReadable s.cr ∧ recordReadable s.cb) :
    ∃ out result blk', writeToBuffer encodedBlockBuffer encodedBlocks idx chan = .ok out ∧
      convertBufferToEncodedBlocks out numEncodedBlocks = .ok result ∧
      result[idx.toNat]? = some blk' ∧
      (channelOf blk' chan).encoded = (channelOf blk chan).encoded ∧
      (channelOf blk' chan).encode_table = (channelOf blk chan).encode_table ∧
      (channelOf blk' chan).decode_table = (channelOf blk chan).decode_table ∧
      ((channelOf blk' chan).encode_table, (channelOf blk' chan).decode_table)
        = rebuildTables (channelOf blk chan).encode_table [] [] := by
  have hlt : idx.toNat < encodedBlockBuffer.length := (List.getElem?_eq_some_iff.1 hslot).1
  have hw := writeToBuffer_eq encodedBlockBuffer encodedBlocks idx chan slot blk h0 hslot hblk
    h1 h2 h3
  obtain ⟨ry, rcr, rcb⟩ := writtenSlot_readable slot blk chan hchan hrest
  have hconv : ∀ j, 0 ≤ j → j < 0 + numEncodedBlocks.toNat →
      ∃ s b, (encodedBlockBuffer.set idx.toNat (writtenSlot slot blk chan))[j]? = some s ∧
        convertBlock s = .ok b := by
    intro j _ hj
    by_cases hji : j = idx.toNat
    · subst hji
      exact ⟨_, _, List.getElem?_set_eq_of_lt _ hlt, convertBlock_eq _ ry rcr rcb⟩
    · have hjl : j < encodedBlockBuffer.length := by omega
      obtain ⟨oy, ocr, ocb⟩ := hothers j _ hji (by omega) (List.getElem?_eq_getElem hjl)
      refine ⟨_, _, ?_, convertBlock_eq _ oy ocr ocb⟩
      rw [List.getElem?_set_ne (Ne.symm hji)]
      exact List.getElem?_eq_getElem hjl
  obtain ⟨result, hres, _, hget⟩ := convertLoop_spec _ numEncodedBlocks.toNat 0 [] hconv
  have hidx := hget idx.toNat _ _ (by omega)
    (by rw [Nat.zero_add]; exact List.getElem?_set_eq_of_lt _ hlt)
    (convertBlock_eq _ ry rcr rcb)
  obtain ⟨d, hd⟩ := recordOf_writtenSlot slot blk chan hchan
  obtain ⟨_, he, ht, hdt⟩ := readRecord_written (recordOf slot chan) (channelOf blk chan) d
  have hreb := rebuildTables_inverse _ _ hse hsd hinv1 hinv2
  refine ⟨_, result, _, hw, ?_, hidx, ?_, ?_, ?_, ?_⟩
  · rw [convertBufferToEncodedBlocks, hres, List.nil_append]
  · rw [channelOf_readRecord, hd, he]
  · rw [channelOf_readRecord, hd, ht, hreb]
  · rw [channelOf_readRecord, hd, hdt, hreb]
  · rw [channelOf_readRecord, hd, ht, hdt]

/-- Witness of C15: the Cb channel of `sampleEncoded` (three tuples, a table of two
pairs) written into a zeroed slot of capacity 3 and read back. -/
theorem writeToBuffer_convert_channel_witness :
    ∃ out result blk', writeToBuffer [zeroSlot 3] [sampleEncoded] 0 COLOR_CB = .ok out ∧
      convertBufferToEncodedBlocks out 1 = .ok result ∧
      result[(0 : Int).toNat]? = some blk' ∧
      (channelOf blk' COLOR_CB).encoded = (channelOf sampleEncoded COLOR_CB).encoded ∧
      (channelOf blk' COLOR_CB).encode_table
        = (channelOf sampleEncoded COLOR_CB).encode_table ∧
      (channelOf blk' COLOR_CB).decode_table
        = (channelOf sampleEncoded COLOR_CB).decode_table ∧
      ((channelOf blk' COLOR_CB).encode_table, (channelOf blk' COLOR_CB).decode_table)
        = rebuildTables (channelOf sampleEncoded COLOR_CB).encode_table [] [] :=
  writeToBuffer_convert_channel [zeroSlot 3] [sampleEncoded] 0 COLOR_CB 1 (zeroSlot 3)
    sampleEncoded (by decide) (by decide) (by decide) (by decide) (by decide) (by decide)
    (by decide) (by unfold mapSorted; decide) (by unfold mapSorted; decide) (by decide)
    (by decide) (by decide) (by decide)
    (by
      intro c hc _
      rcases hc with h | h | h <;> subst h <;> decide)
    (by
      intro j s hj _ hs
      cases j with
      | zero => exact absurd rfl hj
      | succ j => simp at hs)

/-! ### Claims on the round trip and the tables -/

/-- C1 (amended): for every block_size >= 2 with block_size*block_size - 1 <= 127,
every block of block_size*block_size pixels and every run in which one thread runs
the counting loop of each call of `buildTable`, `RLE` returns an encoded block and
`decodeRLE` of it returns the block element-wise in all three channels, a negative
zero of the input being returned as positive zero. -/
theorem RLE_decodeRLE_roundtrip (omp : Int → Nat → Nat) (block : List PixelYcbcr)
    (block_size : Int)
    (hbs : 2 ≤ block_size) (hlen : (block.length : Int) = block_size * block_size)
    (hsmall : block_size * block_size - 1 ≤ 127)
    (hone : ∀ chan, oneThread (omp chan) block.length = true) :
    ∃ e, RLE omp block block_size = .ok e ∧
      decodeRLE e block_size = .ok (block.map normPixel) := by
  obtain ⟨e, h1, h2⟩ := RLESeq_decodePasses_roundtrip block block_size hbs hlen hsmall
  refine ⟨e, ?_, ?_⟩
  · rw [RLE_oneThread omp block block_size (hone _) (hone _) (hone _)]
    exact h1
  · rw [decodeRLE_of_le e block_size (by omega)]
    exact h2

/-- Witness of C1 on a 2x2 block that holds a negative zero, run by one thread. -/
theorem RLE_decodeRLE_roundtrip_witness :
    (2 : Int) ≤ 2 ∧ ((sampleBlock.length : Nat) : Int) = 2 * 2 ∧ (2 : Int) * 2 - 1 ≤ 127 ∧
    (∀ chan : Int, oneThread ((fun _ => singleThread) chan) sampleBlock.length = true) ∧
    ∃ e, RLE (fun _ => singleThread) sampleBlock 2 = .ok e ∧
      decodeRLE e 2 = .ok (sampleBlock.map normPixel) :=
  ⟨by decide, by decide, by decide, fun _ => oneThread_singleThread _,
    RLE_decodeRLE_roundtrip (fun _ => singleThread) sampleBlock 2 (by decide) (by decide)
      (by decide) (fun _ => oneThread_singleThread _)⟩

/-- Counterexample to C1 as stated: on the 12x12 block whose 144 pixels all hold 5,
run by one thread, the single run of 143 values gets the `char` count -113,
`decodeRLE` stores nothing for it, and the decoded block holds 0.0 at the 143 AC
positions. -/
theorem RLE_decodeRLE_roundtrip_fails_at_12 :
    (RLE (fun _ => singleThread) (flatBlock 144 5) 12 >>= fun e => decodeRLE e 12)
        = .ok (⟨.val 5, .val 5, .val 5⟩ :: flatBlock 143 0) ∧
    (RLE (fun _ => singleThread) (flatBlock 144 5) 12 >>= fun e => decodeRLE e 12)
        ≠ .ok ((flatBlock 144 5).map normPixel) := by
  have h := RLESeq_decodePasses_roundtrip_fails_at_12
  rw [RLE_oneThread (fun _ => singleThread) (flatBlock 144 5) 12 (oneThread_singleThread _)
    (oneThread_singleThread _) (oneThread_singleThread _)]
  simp only [fun e => decodeRLE_of_le e 12 (by decide)]
  exact h

/-- C5 (amended): for every block of block_size*block_size pixels with
block_size >= 2 and block_size*block_size - 1 <= 127, every channel and every table
that `buildTable` returns for it, the counts of the tuples emitted by
`encodeValues` sum to block_size*block_size - 1 and every count is >= 1. -/
theorem encodeValues_run_sum (omp : Nat → Nat) (block : List PixelYcbcr)
    (block_size chan : Int) (tbl : EncodedBlockColor)
    (hbs : 2 ≤ block_size) (hlen : (block.length : Int) = block_size * block_size)
    (hsmall : block_size * block_size - 1 ≤ 127)
    (htbl : buildTable omp block chan block_size = .ok tbl) :
    ∃ color, encodeValues block tbl chan = .ok color ∧
      (color.encoded.map (fun t => t.count)).sum = block_size * block_size - 1 ∧
      ∀ t ∈ color.encoded, 1 ≤ t.count := by
  rw [(buildTable_ok_inv omp block chan block_size tbl htbl).2]
  exact encodeValues_run_sum_seq block block_size chan hbs hlen hsmall

/-- Witness of C5 on the 2x2 sample block, channel Cb, with the table `buildTable`
returns when run by one thread. -/
theorem encodeValues_run_sum_witness :
    (2 : Int) ≤ 2 ∧ ((sampleBlock.length : Nat) : Int) = 2 * 2 ∧ (2 : Int) * 2 - 1 ≤ 127 ∧
    buildTable singleThread sampleBlock COLOR_CB 2
      = .ok { dc_val := posZero, encoded := [], decode_table := [(0, .val 8), (1, .val 7)],
              encode_table := [(.val 7, 1), (.val 8, 0)] } ∧
    ∃ color, encodeValues sampleBlock
        { dc_val := posZero, encoded := [], decode_table := [(0, .val 8), (1, .val 7)],
          encode_table := [(.val 7, 1), (.val 8, 0)] } COLOR_CB = .ok color ∧
      (color.encoded.map (fun t => t.count)).sum = 2 * 2 - 1 ∧
      ∀ t ∈ color.encoded, 1 ≤ t.count :=
  ⟨by decide, by decide, by decide, by decide,
    encodeValues_run_sum singleThread sampleBlock 2 COLOR_CB _ (by decide) (by decide)
      (by decide) (by decide)⟩

/-- Counterexample to C5 as stated: on the 12x12 block whose 144 pixels all hold 5,
with the table `buildTable` returns when run by one thread, `encodeValues` emits one
tuple whose `char` count is -113: the counts do not sum to 143 and the count is
below 1. -/
theorem encodeValues_run_sum_wraps_at_12 :
    (buildTable singleThread (flatBlock 144 5) COLOR_Y 12
      >>= fun tbl => encodeValues (flatBlock 144 5) tbl COLOR_Y).map
      (fun color => color.encoded.map (fun t => t.count)) = .ok [-113] := by
  have hb := buildTable_oneThread singleThread (flatBlock 144 5) COLOR_Y 12
    (oneThread_singleThread _)
  rw [hb]
  simp only [bind, Except.bind]
  exact encodeValues_run_sum_wraps_seq

/-- C6 at its failing input: for the Y channel [0, 1, 2, 1] (AC values 1, 2, 1, where
1 occurs twice and 2 once), run by one thread, `buildTable` iterates the groups by
ascending count, so the rarer value 2 gets code 0 and the more frequent value 1 gets
code 1; the vector `key_freqs`, sorted by descending count, is [2, 1] and is not
read. -/
theorem buildTable_codes_ascending_frequency :
    (∃ tbl, buildTable singleThread alternatingBlock COLOR_Y 2 = .ok tbl ∧
      mapFind Dbl.key tbl.encode_table (.val 1) = some 1 ∧
      mapFind Dbl.key tbl.encode_table (.val 2) = some 0) ∧
    ∃ freq, countFreq singleThread (extractChannel alternatingBlock COLOR_Y) = .ok freq ∧
      key_freqs freq = [2, 1] :=
  ⟨⟨buildTableSeq alternatingBlock COLOR_Y 2, by decide, by decide, by decide⟩,
    countFreqSeq (extractChannel alternatingBlock COLOR_Y), by decide, by decide⟩

/-- C10 (amended): for every block_size >= 2 with block_size*block_size - 1 <= 127,
every block whose AC values in a channel are all identical (whatever the DC value)
and every run in which one thread runs the counting loop of each call of
`buildTable`, `RLE` yields for that channel exactly one tuple, with code 0 and count
block_size*block_size - 1, and tables with exactly one entry, value <-> 0. -/
theorem RLE_degenerate_block (omp : Int → Nat → Nat) (block : List PixelYcbcr)
    (block_size chan : Int) (v : Dbl)
    (hchan : chan = COLOR_Y ∨ chan = COLOR_CR ∨ chan = COLOR_CB)
    (hbs : 2 ≤ block_size) (hlen : (block.length : Int) = block_size * block_size)
    (hsmall : block_size * block_size - 1 ≤ 127)
    (hsame : ∀ x ∈ (extractChannel block chan).drop 1, x = v)
    (hone : ∀ chan, oneThread (omp chan) block.length = true) :
    ∃ e, RLE omp block block_size = .ok e ∧
      (channelOf e chan).encoded = [⟨0, block_size * block_size - 1⟩] ∧
      (channelOf e chan).encode_table = [(v, 0)] ∧
      (channelOf e chan).decode_table = [(0, v)] := by
  rw [RLE_oneThread omp block block_size (hone _) (hone _) (hone _)]
  exact RLESeq_degenerate_block block block_size chan v hchan hbs hlen hsmall hsame

/-- Witness of C10: the Y channel [10, 5, 5, 5] of the 2x2 sample block, run by one
thread, gives one tuple (0, 3) and the table 5 <-> 0. -/
theorem RLE_degenerate_block_witness :
    (COLOR_Y = COLOR_Y ∨ COLOR_Y = COLOR_CR ∨ COLOR_Y = COLOR_CB) ∧
    (2 : Int) ≤ 2 ∧ ((sampleBlock.length : Nat) : Int) = 2 * 2 ∧ (2 : Int) * 2 - 1 ≤ 127 ∧
    (∀ x ∈ (extractChannel sampleBlock COLOR_Y).drop 1, x = Dbl.val 5) ∧
    (∀ chan : Int, oneThread ((fun _ => singleThread) chan) sampleBlock.length = true) ∧
    ∃ e, RLE (fun _ => singleThread) sampleBlock 2 = .ok e ∧
      (channelOf e COLOR_Y).encoded = [⟨0, 2 * 2 - 1⟩] ∧
      (channelOf e COLOR_Y).encode_table = [(Dbl.val 5, 0)] ∧
      (channelOf e COLOR_Y).decode_table = [(0, Dbl.val 5)] :=
  ⟨by decide, by decide, by decide, by decide, by decide, fun _ => oneThread_singleThread _,
    RLE_degenerate_block (fun _ => singleThread) sampleBlock 2 COLOR_Y (.val 5) (by decide)
      (by decide) (by decide) (by decide) (by decide) (fun _ => oneThread_singleThread _)⟩

/-- Counterexample to C10 as stated: on the 12x12 block whose 144 pixels all hold 5,
run by one thread, `RLE` yields for the Y channel the tuple (0, -113), not
(0, 143). -/
theorem RLE_degenerate_block_wraps_at_12 :
    (RLE (fun _ => singleThread) (flatBlock 144 5) 12).map
      (fun e => (channelOf e COLOR_Y).encoded) = .ok [⟨0, -113⟩] := by
  have h := RLE_oneThread (fun _ => singleThread) (flatBlock 144 5) 12
    (oneThread_singleThread _) (oneThread_singleThread _) (oneThread_singleThread _)
  rw [h]
  exact RLESeq_degenerate_block_wraps_at_12

/-- C7 (amended): when a tuple of an encoded channel carries a code that is not a key
of that channel's decode_table, `decodeRLE` does not fail for that channel: provided
block_size*block_size is at most `INT_MAX` = 2147483647 and the runs of the three
channels stay inside the block, it returns a block, and every output position of
the run of that tuple holds the default value 0.0 that the lookup substitutes. -/
theorem decodeRLE_missing_code (encoded : EncodedBlock) (block_size chan : Int)
    (pre post : List RleTuple) (t : RleTuple)
    (hchan : chan = COLOR_Y ∨ chan = COLOR_CR ∨ chan = COLOR_CB)
    (hint : block_size * block_size ≤ 2147483647)
    (htups : (channelOf encoded chan).encoded = pre ++ t :: post)
    (hmiss : mapFind id (channelOf encoded chan).decode_table t.encoded = none)
    (hy : runTotal encoded.y.encoded + 1 ≤ (block_size * block_size).toNat)
    (hcr : runTotal encoded.cr.encoded + 1 ≤ (block_size * block_size).toNat)
    (hcb : runTotal encoded.cb.encoded + 1 ≤ (block_size * block_size).toNat) :
    ∃ result, decodeRLE encoded block_size = .ok result ∧
      ∀ i, i < t.count.toNat →
        (result[1 + runTotal pre + i]?).map (fun p => channelValue p chan)
          = some posZero := by
  rw [decodeRLE_of_le encoded block_size hint]
  exact decodePasses_missing_code encoded block_size chan pre post t hchan htups hmiss hy hcr hcb

/-- Witness of C7 on `missingCodeBlock`, whose Y tuple (1, 3) has no table entry. -/
theorem decodeRLE_missing_code_witness :
    (COLOR_Y = COLOR_Y ∨ COLOR_Y = COLOR_CR ∨ COLOR_Y = COLOR_CB) ∧
    (2 : Int) * 2 ≤ 2147483647 ∧
    (channelOf missingCodeBlock COLOR_Y).encoded = [] ++ (⟨1, 3⟩ : RleTuple) :: [] ∧
    mapFind id (channelOf missingCodeBlock COLOR_Y).decode_table (⟨1, 3⟩ : RleTuple).encoded
      = none ∧
    ∃ result, decodeRLE missingCodeBlock 2 = .ok result ∧
      ∀ i, i < (⟨1, 3⟩ : RleTuple).count.toNat →
        (result[1 + runTotal [] + i]?).map (fun p => channelValue p COLOR_Y)
          = some posZero :=
  ⟨by decide, by decide, by decide, by decide,
    decodeRLE_missing_code missingCodeBlock 2 COLOR_Y [] [] ⟨1, 3⟩ (by decide) (by decide)
      (by decide) (by decide) (by decide) (by decide) (by decide)⟩

/-- Counterexample to C7 as stated: the Y channel of `missingCodeBlock` carries the
code 1, absent from its decode table {0 -> 5}; `decodeRLE` returns a block, with the
substituted 0.0 in the three Y positions of the run. -/
theorem decodeRLE_substitutes_default :
    mapFind id missingCodeBlock.y.decode_table 1 = none ∧
    decodeRLE missingCodeBlock 2
      = .ok [⟨.val 10, .val 10, .val 10⟩, ⟨.val 0, .val 5, .val 5⟩,
             ⟨.val 0, .val 5, .val 5⟩, ⟨.val 0, .val 5, .val 5⟩] := by
  decide

/-- C8 (amended): `decodeRLE` makes no length check.  For block_size*block_size at
most `INT_MAX` = 2147483647 and with r the sum of the positive run lengths of a
channel: when 1 + r <= block_size*block_size holds for all three channels it
returns a block of block_size*block_size pixels in which the positions from 1 + r
on keep, in that channel, the initial value 0.0 (so a short tuple sequence leaves
positions unwritten); when 1 + r > block_size*block_size for some channel it stores
at index block_size*block_size, outside the block. -/
theorem decodeRLE_length_mismatch (encoded : EncodedBlock) (block_size : Int)
    (hint : block_size * block_size ≤ 2147483647) :
    (runTotal encoded.y.encoded + 1 ≤ (block_size * block_size).toNat ∧
      runTotal encoded.cr.encoded + 1 ≤ (block_size * block_size).toNat ∧
      runTotal encoded.cb.encoded + 1 ≤ (block_size * block_size).toNat →
      ∃ result, decodeRLE encoded block_size = .ok result ∧
        result.length = (block_size * block_size).toNat ∧
        ∀ chan, chan = COLOR_Y ∨ chan = COLOR_CR ∨ chan = COLOR_CB →
          ∀ j, runTotal (channelOf encoded chan).encoded + 1 ≤ j →
            j < (block_size * block_size).toNat →
            (result[j]?).map (fun p => channelValue p chan) = some posZero) ∧
    (¬ (runTotal encoded.y.encoded + 1 ≤ (block_size * block_size).toNat ∧
      runTotal encoded.cr.encoded + 1 ≤ (block_size * block_size).toNat ∧
      runTotal encoded.cb.encoded + 1 ≤ (block_size * block_size).toNat) →
      decodeRLE encoded block_size
        = .error (.oobWrite ((block_size * block_size).toNat : Int))) := by
  rw [decodeRLE_of_le encoded block_size hint]
  exact decodePasses_length_mismatch encoded block_size

/-- Witness of C8: `shortRunBlock` (Y runs sum to 1, not 3) is decoded to a block
whose Y positions 2 and 3 keep 0.0, and `longRunBlock` (Y runs sum to 4) makes
`decodeRLE` store at index 4 of a vector of 4 pixels. -/
theorem decodeRLE_length_mismatch_witness :
    (2 : Int) * 2 ≤ 2147483647 ∧
    (∃ result, decodeRLE shortRunBlock 2 = .ok result ∧
        result.length = ((2 : Int) * 2).toNat ∧
        ∀ chan, chan = COLOR_Y ∨ chan = COLOR_CR ∨ chan = COLOR_CB →
          ∀ j, runTotal (channelOf shortRunBlock chan).encoded + 1 ≤ j →
            j < ((2 : Int) * 2).toNat →
            (result[j]?).map (fun p => channelValue p chan) = some posZero) ∧
    decodeRLE longRunBlock 2 = .error (.oobWrite (((2 : Int) * 2).toNat : Int)) :=
  ⟨by decide,
    (decodeRLE_length_mismatch shortRunBlock 2 (by decide)).1 (by decide),
    (decodeRLE_length_mismatch longRunBlock 2 (by decide)).2 (by decide)⟩

/-- Counterexample to C8 as stated: the Y runs of `shortRunBlock` sum to 1, not 3, and
`decodeRLE` returns a block, whose Y positions 2 and 3 were never written and hold
the initial 0.0; the Y runs of `longRunBlock` sum to 4 and the decoder stores at
index 4 = block_size*block_size. -/
theorem decodeRLE_returns_on_length_mismatch :
    runTotal shortRunBlock.y.encoded = 1 ∧
    decodeRLE shortRunBlock 2
      = .ok [⟨.val 10, .val 10, .val 10⟩, ⟨.val 5, .val 5, .val 5⟩,
             ⟨.val 0, .val 5, .val 5⟩, ⟨.val 0, .val 5, .val 5⟩] ∧
    runTotal longRunBlock.y.encoded = 4 ∧
    decodeRLE longRunBlock 2 = .error (.oobWrite 4) := by
  decide

theorem decodeRLELog_of_le (encoded : EncodedBlock) (block_size : Int)
    (h : block_size * block_size ≤ 2147483647) :
    decodeRLELog encoded block_size = decodePassesLog encoded block_size := by
  unfold decodeRLELog
  rw [mulInt_self _ h]
  rfl

theorem wellFormedTuples_bigRun (decode_table : List (Int × Dbl)) :
    wellFormedTuples (bigRunChannel decode_table).encoded 46341 := by
  refine ⟨?_, ?_⟩
  · intro t ht
    rw [List.eq_of_mem_replicate ht]
    decide
  · simp only [bigRunChannel, List.map_replicate, List.sum_replicate]
    norm_num

/-! ### Claims on the decoder -/

/-- C14 (amended): for block_size*block_size at most `INT_MAX` = 2147483647 and
every encoded channel of an encoded block of which every tuple code is a key of
`decode_table`, no count is negative and the counts sum to
block_size*block_size - 1 (the runs of the other two channels staying inside the
block), `decodeRLE` returns a block whose values in that channel are the DC scalar
at position 0 followed by the concatenation, in tuple order, of count copies of
`decode_table[code]` for each tuple (code, count); the stores of the pass of that
channel are at the indices 0, 1, ..., block_size*block_size - 1, each exactly
once. -/
theorem decodeRLE_decoder_definition (encoded : EncodedBlock) (block_size chan : Int)
    (hchan : chan = COLOR_Y ∨ chan = COLOR_CR ∨ chan = COLOR_CB)
    (hint : block_size * block_size ≤ 2147483647)
    (hkeys : ∀ t ∈ (channelOf encoded chan).encoded,
      (mapFind id (channelOf encoded chan).decode_table t.encoded).isSome = true)
    (hwf : wellFormedTuples (channelOf encoded chan).encoded block_size)
    (hy : runTotal encoded.y.encoded + 1 ≤ (block_size * block_size).toNat)
    (hcr : runTotal encoded.cr.encoded + 1 ≤ (block_size * block_size).toNat)
    (hcb : runTotal encoded.cb.encoded + 1 ≤ (block_size * block_size).toNat) :
    ∃ result logs, decodeRLELog encoded block_size = .ok (result, logs) ∧
      decodeRLE encoded block_size = .ok result ∧
      result.map (fun p => channelValue p chan) = decodedSequence (channelOf encoded chan) ∧
      logOf logs chan = List.range (block_size * block_size).toNat := by
  rw [decodeRLE_of_le encoded block_size hint, decodeRLELog_of_le encoded block_size hint]
  exact decodePasses_decoder_definition encoded block_size chan hchan hkeys hwf hy hcr hcb

/-- Witness of C14 on `plainBlock`, channel Cr: DC 10, tuple (0, 3), table 0 -> 5. -/
theorem decodeRLE_decoder_definition_witness :
    decodedSequence (channelOf plainBlock COLOR_CR) = [.val 10, .val 5, .val 5, .val 5] ∧
    ∃ result logs, decodeRLELog plainBlock 2 = .ok (result, logs) ∧
      decodeRLE plainBlock 2 = .ok result ∧
      result.map (fun p => channelValue p COLOR_CR)
        = decodedSequence (channelOf plainBlock COLOR_CR) ∧
      logOf logs COLOR_CR = List.range ((2 : Int) * 2).toNat :=
  ⟨by decide,
    decodeRLE_decoder_definition plainBlock 2 COLOR_CR (by decide) (by decide) (by decide)
      ⟨by decide, by decide⟩ (by decide) (by decide) (by decide)⟩

/-- Counterexample to C14 as stated: in the Y channel of `negativeRunBlock` every tuple
code is a key of the decode table and the counts 4 and -1 sum to 3 = 2*2 - 1, the
Cr and Cb channels are well formed, and `decodeRLE` with block_size 2 stores the
four values of the first run at the indices 1, 2, 3 and 4: the last store is
outside the block, and no block is returned. -/
theorem decodeRLE_negative_count_overruns :
    (∀ t ∈ negativeRunBlock.y.encoded,
      (mapFind id negativeRunBlock.y.decode_table t.encoded).isSome = true) ∧
    (negativeRunBlock.y.encoded.map (fun t => t.count)).sum = 2 * 2 - 1 ∧
    wellFormedTuples negativeRunBlock.cr.encoded 2 ∧
    wellFormedTuples negativeRunBlock.cb.encoded 2 ∧
    decodeRLE negativeRunBlock 2 = .error (.oobWrite 4) :=
  ⟨by decide, by decide, ⟨by decide, by decide⟩, ⟨by decide, by decide⟩, by decide⟩

/-- C17 (amended): for block_size*block_size at most `INT_MAX` = 2147483647 and any
two encoded blocks that have the same encoded channel for one selector and the
same tuple sequences in all three channels, with no negative count and counts that
sum to block_size*block_size - 1 (so that the blocks differ at most in the DC
values and tables of the other two channels, including decode tables that miss codes
the tuples use), `decodeRLE` returns for both a block, and the two blocks have the
same value of that channel at every position. -/
theorem decodeRLE_channel_independence (e1 e2 : EncodedBlock) (block_size chan : Int)
    (hchan : chan = COLOR_Y ∨ chan = COLOR_CR ∨ chan = COLOR_CB)
    (hint : block_size * block_size ≤ 2147483647)
    (hsame : channelOf e1 chan = channelOf e2 chan)
    (hy : e1.y.encoded = e2.y.encoded) (hcr : e1.cr.encoded = e2.cr.encoded)
    (hcb : e1.cb.encoded = e2.cb.encoded)
    (wy : wellFormedTuples e1.y.encoded block_size)
    (wcr : wellFormedTuples e1.cr.encoded block_size)
    (wcb : wellFormedTuples e1.cb.encoded block_size) :
    ∃ r1 r2, decodeRLE e1 block_size = .ok r1 ∧ decodeRLE e2 block_size = .ok r2 ∧
      r1.map (fun p => channelValue p chan) = r2.map (fun p => channelValue p chan) := by
  rw [decodeRLE_of_le e1 block_size hint, decodeRLE_of_le e2 block_size hint]
  exact decodePasses_channel_independence e1 e2 block_size chan hchan hsame hy hcr hcb wy wcr wcb

/-- Witness of C17: `plainBlock` and `emptiedTablesBlock` have the same Y channel and
differ in the decode tables of Cr and Cb, which in the second block miss the code
0; both decode to the same y values. -/
theorem decodeRLE_channel_independence_witness :
    channelOf plainBlock COLOR_Y = channelOf emptiedTablesBlock COLOR_Y ∧
    plainBlock.cr.decode_table ≠ emptiedTablesBlock.cr.decode_table ∧
    ∃ r1 r2, decodeRLE plainBlock 2 = .ok r1 ∧ decodeRLE emptiedTablesBlock 2 = .ok r2 ∧
      r1.map (fun p => channelValue p COLOR_Y) = r2.map (fun p => channelValue p COLOR_Y) :=
  ⟨by decide, by decide,
    decodeRLE_channel_independence plainBlock emptiedTablesBlock 2 COLOR_Y (by decide)
      (by decide) (by decide) (by decide) (by decide) (by decide) ⟨by decide, by decide⟩
      ⟨by decide, by decide⟩ ⟨by decide, by decide⟩⟩

/-- Counterexample to C17 as stated: two encoded blocks for block_size 46341 with the
same Y channel and the same well-formed tuple sequences (268436035 runs of length
8, which sum to 46341*46341 - 1), which differ only in the decode tables of Cr and
Cb.  The product 46341*46341 = 2147488281 exceeds `INT_MAX`: the `int` product
that `decodeRLE` takes for the size of its vector overflows, and no block is
returned for either. -/
theorem decodeRLE_channel_independence_fails_at_46341 :
    wellFormedTuples (bigRunChannel [(0, .val 5)]).encoded 46341 ∧
    wellFormedTuples (bigRunChannel []).encoded 46341 ∧
    decodeRLE { y := bigRunChannel [(0, .val 5)], cr := bigRunChannel [(0, .val 5)],
                cb := bigRunChannel [(0, .val 5)] } 46341 = .error .intOverflow ∧
    decodeRLE { y := bigRunChannel [(0, .val 5)], cr := bigRunChannel [],
                cb := bigRunChannel [] } 46341 = .error .intOverflow :=
  ⟨wellFormedTuples_bigRun _, wellFormedTuples_bigRun _,
    decodeRLE_overflow _ 46341 (by decide), decodeRLE_overflow _ 46341 (by decide)⟩

/-! ### Claims on the runs, the order of the codes and the counters -/

/-- C13 (amended): for every channel sequence of length n with 2 <= n <= 128 and every
run in which one thread runs the counting loop, `buildTable` returns a table and
`encodeValues` with it emits exactly the maximal runs of consecutive equal values of
the AC portion, in order, a run of value v and length l as (encode_table[v], l);
no two adjacent tuples carry the same code. -/
theorem encodeValues_maximal_runs (omp : Nat → Nat) (block : List PixelYcbcr)
    (chan block_size : Int) (h2 : 2 ≤ block.length) (hsmall : block.length ≤ 128)
    (hone : oneThread omp block.length = true) :
    ∃ tbl color, buildTable omp block chan block_size = .ok tbl ∧
      encodeValues block tbl chan = .ok color ∧
      List.Forall₂ (fun (t : RleTuple) (r : Dbl × Nat) =>
          mapFind Dbl.key tbl.encode_table r.1 = some t.encoded ∧ t.count = (r.2 : Int))
        color.encoded (maximalRuns ((extractChannel block chan).drop 1)) ∧
      List.Chain' (fun s t : RleTuple => s.encoded ≠ t.encoded) color.encoded := by
  obtain ⟨color, h⟩ := encodeValues_maximal_runs_seq block chan block_size h2 hsmall
  exact ⟨_, color, buildTable_oneThread omp block chan block_size hone, h⟩

/-- Witness of C13: the AC values [1, 2, 1] of `alternatingBlock`, run by one thread,
give three tuples of count 1, not a merged run. -/
theorem encodeValues_maximal_runs_witness :
    2 ≤ alternatingBlock.length ∧ alternatingBlock.length ≤ 128 ∧
    oneThread singleThread alternatingBlock.length = true ∧
    maximalRuns ((extractChannel alternatingBlock COLOR_Y).drop 1)
      = [(.val 1, 1), (.val 2, 1), (.val 1, 1)] ∧
    ∃ tbl color, buildTable singleThread alternatingBlock COLOR_Y 2 = .ok tbl ∧
      encodeValues alternatingBlock tbl COLOR_Y = .ok color ∧
      List.Forall₂ (fun (t : RleTuple) (r : Dbl × Nat) =>
          mapFind Dbl.key tbl.encode_table r.1 = some t.encoded ∧ t.count = (r.2 : Int))
        color.encoded (maximalRuns ((extractChannel alternatingBlock COLOR_Y).drop 1)) ∧
      List.Chain' (fun s t : RleTuple => s.encoded ≠ t.encoded) color.encoded :=
  ⟨by decide, by decide, by decide, by decide,
    encodeValues_maximal_runs singleThread alternatingBlock COLOR_Y 2 (by decide) (by decide)
      (by decide)⟩

/-- Counterexample to C13 as stated: the AC portion of the 12x12 block whose 144
pixels all hold 5 is one maximal run of length 143; run by one thread,
`encodeValues` emits the tuple (0, -113), whose `char` count is not the length of
the run. -/
theorem encodeValues_maximal_runs_fails_at_12 :
    maximalRuns ((extractChannel (flatBlock 144 5) COLOR_Y).drop 1) = [(.val 5, 143)] ∧
    (buildTable singleThread (flatBlock 144 5) COLOR_Y 12
      >>= fun tbl => encodeValues (flatBlock 144 5) tbl COLOR_Y).map
      (fun color => color.encoded) = .ok [⟨0, -113⟩] := by
  have hb := buildTable_oneThread singleThread (flatBlock 144 5) COLOR_Y 12
    (oneThread_singleThread _)
  rw [hb]
  simp only [bind, Except.bind]
  exact encodeValues_maximal_runs_fails_seq

/-- C16 (amended): for every block of at most 128 pixels
(block_size*block_size - 1 <= 127), every run in which one thread runs the counting
loop and any two AC values u < v of a channel that occur equally often,
`buildTable` returns a table that gives u a smaller code than v, and every integer
from the code of u to the code of v is the code of an AC value that occurs as often
as u and v: the codes of a tie group are consecutive. -/
theorem buildTable_tie_break (omp : Nat → Nat) (block : List PixelYcbcr)
    (chan block_size : Int) (hsmall : block.length ≤ 128) (u v : Dbl)
    (hu : u ∈ (extractChannel block chan).drop 1)
    (hv : v ∈ (extractChannel block chan).drop 1)
    (hcnt : ((extractChannel block chan).drop 1).count u
      = ((extractChannel block chan).drop 1).count v)
    (hlt : u.key < v.key)
    (hone : oneThread omp block.length = true) :
    ∃ tbl, buildTable omp block chan block_size = .ok tbl ∧
      ∃ cu cv : Int,
        mapFind Dbl.key tbl.encode_table u = some cu ∧
        mapFind Dbl.key tbl.encode_table v = some cv ∧
        cu < cv ∧
        ∀ c : Int, cu ≤ c → c ≤ cv → ∃ x ∈ (extractChannel block chan).drop 1,
          ((extractChannel block chan).drop 1).count x
            = ((extractChannel block chan).drop 1).count u ∧
          mapFind Dbl.key tbl.encode_table x = some c :=
  ⟨_, buildTable_oneThread omp block chan block_size hone,
    buildTableSeq_tie_break block chan block_size hsmall u v hu hv hcnt hlt⟩

/-- Witness of C16 on `tieBlock`, run by one thread: the values 2 and 4 occur three
times each, 2 gets the code 1 and 4 the code 2; the value 9, which occurs twice, has
the code 0. -/
theorem buildTable_tie_break_witness :
    oneThread singleThread tieBlock.length = true ∧
    ∃ tbl, buildTable singleThread tieBlock COLOR_Y 3 = .ok tbl ∧
      ∃ cu cv : Int,
        mapFind Dbl.key tbl.encode_table (.val 2) = some cu ∧
        mapFind Dbl.key tbl.encode_table (.val 4) = some cv ∧
        cu < cv ∧
        ∀ c : Int, cu ≤ c → c ≤ cv → ∃ x ∈ (extractChannel tieBlock COLOR_Y).drop 1,
          ((extractChannel tieBlock COLOR_Y).drop 1).count x
            = ((extractChannel tieBlock COLOR_Y).drop 1).count (.val 2) ∧
          mapFind Dbl.key tbl.encode_table x = some c :=
  ⟨by decide,
    buildTable_tie_break singleThread tieBlock COLOR_Y 3 (by decide) (.val 2) (.val 4)
      (by decide) (by decide) (by decide) (by decide) (by decide)⟩

/-- Counterexample to C16 as stated: the 143 AC values 1, ..., 143 of the 12x12 block
`rampBlock 144` occur once each, so they form one tie group; run by one thread,
`buildTable` gives the value 128 the code 127 and the larger value 129 the code
-128, the `char` counter `curr_encoding` having wrapped. -/
theorem buildTable_tie_break_fails_at_12 :
    ((extractChannel (rampBlock 144) COLOR_Y).drop 1).count (.val 128) = 1 ∧
    ((extractChannel (rampBlock 144) COLOR_Y).drop 1).count (.val 129) = 1 ∧
    ∃ tbl, buildTable singleThread (rampBlock 144) COLOR_Y 12 = .ok tbl ∧
      mapFind Dbl.key tbl.encode_table (.val 128) = some 127 ∧
      mapFind Dbl.key tbl.encode_table (.val 129) = some (-128) :=
  ⟨buildTableSeq_tie_break_fails_at_12.1, buildTableSeq_tie_break_fails_at_12.2.1, _,
    buildTable_oneThread singleThread (rampBlock 144) COLOR_Y 12 (oneThread_singleThread _),
    buildTableSeq_tie_break_fails_at_12.2.2⟩

end Rle
